import Mathlib

/-!
# Flip: a shallow embedding of `flip.c`

The C program keeps one `gameType` value and mutates it in place.  Here every
function takes the state and returns the new one.

* `char` is `Char`, a row `char *` is a `List Char` (the terminating NUL of a
  row is not stored), `char **` is a `List (List Char)`.
* `int` values are `Int`; the side length `unsigned int n` is a `Nat`.  The counters of
  the program (scores, passes, `enemy_pieces`) are incremented without wrap-around, as
  in C while they stay below `INT_MAX`; conversions to `unsigned` types are written out.
* a `while (1)` loop is a function with a fuel argument returning `Option`;
  `none` means the loop did not finish within the fuel.
* `printf` output is collected as a list of `Out` events and `exit(k)` as
  `status = some k`.
-/

namespace Flip

/-! ## Constants and types -/

/-- Program name, also the leading tag of a save file (`PROG_NAME`). -/
def PROG_NAME : List Char := ['f', 'l', 'i', 'p']

def WALK_VALIDATE : Int := 1

def WALK_REPLACE : Int := 2

def INT_MAX : Int := 2147483647

/-- Game board (`boardType`): the rows `s`, the side length `n`, the border string. -/
structure boardType where
  s : List (List Char)
  n : Nat
  border : List Char
deriving DecidableEq

/-- Full game state (`gameType`). -/
structure gameType where
  passes : Int
  pTypeO : Int
  pTypeX : Int
  scoreO : Int
  scoreX : Int
  filepath : List Char
  whoseTurn : Char
  board : boardType
  validMove : boardType
deriving DecidableEq

/-- The 8 movement vectors `vect[8][2]`, in the order of the source. -/
def vect : List (Int × Int) :=
  [(-1, -1), (-1, 0), (-1, 1), (0, -1), (0, 1), (1, -1), (1, 0), (1, 1)]

/-- Read of `(board->s)[i][j]`.  Every caller checks the bounds first. -/
def boardType.cell (board : boardType) (i j : Int) : Char :=
  (board.s.getD i.toNat []).getD j.toNat (Char.ofNat 0)

/-- Write `(board->s)[i][j] = c`. -/
def boardType.setCell (board : boardType) (i j : Int) (c : Char) : boardType :=
  { board with s := board.s.set i.toNat ((board.s.getD i.toNat []).set j.toNat c) }

/-- The index pairs visited by `for (i = 0; i < n; i++) for (j = 0; j < n; j++)`, in order. -/
def cells (n : Nat) : List (Int × Int) :=
  (List.range n).flatMap fun (i : Nat) => (List.range n).map fun (j : Nat) => ((i : Int), (j : Int))

/-! ## Boardgame engine -/

/-- The `while (1)` loop of `board_walk`, entered at position `(i, j)` with `enemy_pieces`
enemy tiles counted so far.  The result is the value returned through the
`unsigned char` return type (so the count is reduced modulo 256) and the board. -/
def board_walk_loop (dx dy : Int) (tile : Char) (action : Int) :
    Nat → Int → Int → Nat → boardType → Option (Nat × boardType)
  | 0, _, _, _, _ => none
  | fuel + 1, i, j, enemy_pieces, board =>
    let i := i + dx
    let j := j + dy
    if i < 0 ∨ j < 0 ∨ i ≥ board.n ∨ j ≥ board.n then
      some (0, board)
    else if board.cell i j = '.' then
      some (0, board)
    else if board.cell i j ≠ tile then
      board_walk_loop dx dy tile action fuel i j (enemy_pieces + 1)
        (if action = WALK_REPLACE then board.setCell i j tile else board)
    else
      some (enemy_pieces % 256, board)

/-- Function `board_walk`.  The loop leaves the board after at most `n` steps in
any direction other than `(0, 0)`, so `n + 1` rounds of fuel are enough there. -/
def board_walk (x y dx dy : Int) (tile : Char) (board : boardType) (action : Int) :
    Option (Nat × boardType) :=
  board_walk_loop dx dy tile action (board.n + 1) x y 0 board

/-- The `for` loop of `move_valid` over the remaining directions. -/
def move_valid_loop (x y : Int) (tile : Char) (board : boardType) :
    List (Int × Int) → Option Bool
  | [] => some false
  | (dx, dy) :: rest =>
    match board_walk x y dx dy tile board WALK_VALIDATE with
    | none => none
    | some (r, _) => if r ≠ 0 then some true else move_valid_loop x y tile board rest

/-- Function `move_valid`. -/
def move_valid (x y : Int) (tile : Char) (board : boardType) : Option Bool :=
  if board.cell x y ≠ '.' then some false
  else move_valid_loop x y tile board vect

/-- Function `board_cleanup`: `memset` the first `n` bytes of each of the first `n` rows. -/
def board_cleanup (board : boardType) : boardType :=
  { board with
    s := (board.s.take board.n).map
          (fun row => List.replicate (min board.n row.length) '.' ++ row.drop board.n)
        ++ board.s.drop board.n }

/-- The two nested `for` loops of `game_update_valid_moves`, over the remaining index
pairs; only `validMove` is written. -/
def game_update_valid_moves_loop (game : gameType) :
    List (Int × Int) → boardType → Option boardType
  | [], validMove => some validMove
  | (i, j) :: rest, validMove =>
    match move_valid i j game.whoseTurn game.board with
    | none => none
    | some r =>
      game_update_valid_moves_loop game rest
        (if r then validMove.setCell i j game.whoseTurn else validMove)

/-- Function `game_update_valid_moves`. -/
def game_update_valid_moves (game : gameType) : Option gameType :=
  match game_update_valid_moves_loop game (cells game.validMove.n)
      (board_cleanup game.validMove) with
  | none => none
  | some validMove => some { game with validMove := validMove }

/-- The `for` loop of `game_put_tile` over the remaining directions. -/
def game_put_tile_loop (x y : Int) (tile : Char) :
    List (Int × Int) → boardType → Option boardType
  | [], board => some board
  | (dx, dy) :: rest, board =>
    match board_walk x y dx dy tile board WALK_VALIDATE with
    | none => none
    | some (r, board) =>
      if r ≠ 0 then
        match board_walk x y dx dy tile board WALK_REPLACE with
        | none => none
        | some (_, board) => game_put_tile_loop x y tile rest board
      else game_put_tile_loop x y tile rest board

/-- Function `game_put_tile`. -/
def game_put_tile (x y : Int) (game : gameType) : Option gameType :=
  let tile := game.whoseTurn
  match game_put_tile_loop x y tile vect (game.board.setCell x y tile) with
  | none => none
  | some board => some { game with board := board }

/-! ## Game state, memory management and R/W -/

/-- Function `game_ini`, applied to the uninitialised `game` of `main`; the two boards
are left as they are. -/
def game_ini (game : gameType) : gameType :=
  { game with
    scoreO := 0, scoreX := 0, pTypeO := -1, pTypeX := -1,
    whoseTurn := 'O', filepath := [], passes := 0 }

/-- Function `game_set_fname`. -/
def game_set_fname (fname : List Char) (game : gameType) : gameType :=
  { game with filepath := fname }

/-- Function `game_next_player`. -/
def game_next_player (game : gameType) : gameType :=
  if game.whoseTurn = 'X' then { game with whoseTurn := 'O' }
  else { game with whoseTurn := 'X' }

/-- Function `game_update_scoring`.  The two counters are unbounded integers here; they
agree with the `int` counters of the code as long as `n * n` is at most `INT_MAX`, and the
theorems that state score values are restricted to that range. -/
def game_update_scoring (game : gameType) : gameType :=
  let r := (cells game.board.n).foldl
    (fun (acc : Int × Int) p =>
      if game.board.cell p.1 p.2 = 'O' then (acc.1 + 1, acc.2)
      else if game.board.cell p.1 p.2 = 'X' then (acc.1, acc.2 + 1)
      else acc)
    (0, 0)
  { game with scoreO := r.1, scoreX := r.2 }

/-- Function `board_ini` for a board of side `size`.  `midPos` is computed in
`unsigned int` arithmetic.  The four starting tiles are written at rows and columns
`midPos` and `midPos + 1`; when `midPos + 1` is not a row of the board the write
`board->s[midPos+1][midPos]` falls outside the allocated rows and the result is `none`. -/
def board_ini (size : Nat) : Option boardType :=
  let board : boardType :=
    { s := List.replicate size (List.replicate size '.'),
      n := size,
      border := List.replicate size '-' }
  let midPos : Int := (((size : Int) - 1) % 4294967296) / 2
  if midPos + 1 < size then
    some ((((board.setCell midPos midPos 'O').setCell (midPos + 1) midPos 'X').setCell
      midPos (midPos + 1) 'X').setCell (midPos + 1) (midPos + 1) 'O')
  else none

/-- Function `board_missing_char`. -/
def board_missing_char (c : Char) (board : boardType) : Bool :=
  !(cells board.n).any (fun p => board.cell p.1 p.2 == c)

/-! ## Output, exit status and system messages -/

/-- One `printf` call of the program. -/
inductive Out where
  /-- Text `Player (%c)> ` of `input_turn`. -/
  | prompt (c : Char)
  /-- Text `%c passes.` of `turn_decision`. -/
  | passes (c : Char)
  /-- Text `Player %c moves at %d %d.` of `ai_turn`. -/
  | moves (c : Char) (x y : Int)
  /-- The border, the rows and the border again, printed by `board_print`. -/
  | board (border : List Char) (rows : List (List Char))
  /-- Text `Termination for debugging`. -/
  | debug
  /-- The usage text `INSTRUCTIONS`. -/
  | instructions
  /-- Text `Game Over - O=%d X=%d.` -/
  | gameOver (scoreO scoreX : Int)
  /-- Text `Game saved.` -/
  | saved
  /-- Text `Invalid board dimension.` -/
  | badDimension
  /-- Text `Invalid player type.` -/
  | badPlayerType
  /-- Text `Error loading board.` -/
  | loadError
  /-- Text `Unable to write to %s.` -/
  | cannotWrite (filepath : List Char)
  /-- Text `Please give a filename.` -/
  | needFilename
  /-- Text `End of input from Player %c.` -/
  | endOfInput (c : Char)
  /-- Text `ERROR: Program called sysMsg() with invalid params`. -/
  | badMessage
deriving DecidableEq

/-- What a function leaves behind: the game state, the text printed, the argument of
`exit` when the process was terminated, and the file written (name and bytes), if any. -/
structure Proc where
  game : gameType
  out : List Out
  status : Option Int
  file : Option (List Char × List Char)
deriving DecidableEq

/-- Function `board_print`. -/
def board_print (board : boardType) : Out :=
  Out.board board.border (board.s.take board.n)

/-- Function `sysMessage`. -/
def sysMessage (msgId : Int) (game : gameType) : Proc :=
  if msgId = 0 then { game := game, out := [Out.debug], status := some (-1), file := none }
  else if msgId = 1 then
    { game := game, out := [Out.instructions], status := some 1, file := none }
  else if msgId = 2 then
    { game := game, out := [Out.gameOver game.scoreO game.scoreX], status := some 0,
      file := none }
  else if msgId = 3 then
    { game := game, out := [Out.gameOver game.scoreO game.scoreX], status := some 0,
      file := none }
  else if msgId = 4 then { game := game, out := [Out.saved], status := some 0, file := none }
  else if msgId = 5 then
    { game := game, out := [Out.badDimension], status := some 2, file := none }
  else if msgId = 6 then
    { game := game, out := [Out.badPlayerType], status := some 3, file := none }
  else if msgId = 7 then { game := game, out := [Out.loadError], status := some 4, file := none }
  else if msgId = 8 then
    { game := game, out := [Out.cannotWrite game.filepath], status := none, file := none }
  else if msgId = 9 then
    { game := game, out := [Out.needFilename], status := none, file := none }
  else if msgId = 10 then
    { game := game, out := [Out.endOfInput game.whoseTurn], status := some 5, file := none }
  else if msgId = 11 then
    { game := game, out := [Out.instructions], status := some 1, file := none }
  else { game := game, out := [Out.badMessage], status := some (-1), file := none }

/-! ## Save files

A file is the list of its bytes, each byte a `Char` below 256.  An `int` is four
bytes, least significant first, in two's complement. -/

/-- The four bytes of the 32-bit pattern `u`, least significant first. -/
def wordBytes (u : Nat) : List Char :=
  [Char.ofNat (u % 256), Char.ofNat (u / 256 % 256), Char.ofNat (u / 65536 % 256),
    Char.ofNat (u / 16777216 % 256)]

/-- The 32-bit pattern held by four bytes. -/
def bytesWord (bs : List Char) : Nat :=
  (bs.getD 0 (Char.ofNat 0)).toNat % 256 + 256 * ((bs.getD 1 (Char.ofNat 0)).toNat % 256)
    + 65536 * ((bs.getD 2 (Char.ofNat 0)).toNat % 256)
    + 16777216 * ((bs.getD 3 (Char.ofNat 0)).toNat % 256)

/-- Memory image of an `int`. -/
def intBytes (v : Int) : List Char := wordBytes (v % 4294967296).toNat

/-- Value of an `int` whose memory image is `bs`. -/
def bytesInt (bs : List Char) : Int :=
  if bytesWord bs < 2147483648 then (bytesWord bs : Int) else (bytesWord bs : Int) - 4294967296

/-- Memory image of an `unsigned int`. -/
def uintBytes (v : Nat) : List Char := wordBytes (v % 4294967296)

/-- Call `fread(dst, 1, k, f)`: the bytes of `dst` after it.  As many of the first `k` bytes
of `dst` as the file still holds are overwritten (the file then advances by `k`, see
the callers). -/
def fread (dst : List Char) (k : Nat) (f : List Char) : List Char :=
  f.take k ++ dst.drop (f.take k).length

/-- The C string held in a buffer: its bytes up to the first NUL. -/
def cstr (buf : List Char) : List Char := buf.takeWhile (fun c => c ≠ Char.ofNat 0)

/-- The bytes written by the `fwrite` calls of `game_save`, in order. -/
def game_save_bytes (game : gameType) : List Char :=
  PROG_NAME ++ intBytes game.passes ++ intBytes game.pTypeO ++ intBytes game.pTypeX
    ++ [game.whoseTurn] ++ uintBytes game.board.n
    ++ ((game.board.s.take game.board.n).map (fun row => row.take game.board.n)).flatten

/-- Function `game_save`; `fopenOk` tells whether `fopen(fname, "w")` succeeds. -/
def game_save (fname : List Char) (fopenOk : Bool) (game : gameType) : Proc :=
  let game := game_set_fname fname game
  if fname.length = 0 then sysMessage 9 game
  else if fopenOk = false then sysMessage 8 game
  else { sysMessage 4 game with file := some (fname, game_save_bytes game) }

/-- The row loop of `game_load`: one `fread` of `n` bytes into each row. -/
def game_load_rows (n : Nat) : List (List Char) → List Char → List (List Char)
  | [], _ => []
  | row :: rest, f => fread row n f :: game_load_rows n rest (f.drop n)

/-- Function `game_load`; `fopen` is the content of the file when `fopen(fname, "r")`
succeeds.  The result is `none` when `board_ini` writes outside the board. -/
def game_load (fname : List Char) (fopen : Option (List Char)) (game : gameType) :
    Option Proc :=
  let game := game_set_fname fname game
  if fname.length = 0 then some (sysMessage 7 game)
  else
    match fopen with
    | none => some (sysMessage 7 game)
    | some f =>
      let validator := fread (List.replicate 5 (Char.ofNat 0)) PROG_NAME.length f
      if cstr validator ≠ PROG_NAME then some (sysMessage 7 game)
      else
        let f := f.drop PROG_NAME.length
        let passes := bytesInt (fread (intBytes game.passes) 4 f)
        let f := f.drop 4
        let pTypeO := bytesInt (fread (intBytes game.pTypeO) 4 f)
        let f := f.drop 4
        let pTypeX := bytesInt (fread (intBytes game.pTypeX) 4 f)
        let f := f.drop 4
        let whoseTurn := (fread [game.whoseTurn] 1 f).getD 0 game.whoseTurn
        let f := f.drop 1
        let n := bytesWord (fread (uintBytes game.board.n) 4 f)
        let f := f.drop 4
        match board_ini n, board_ini n with
        | some board, some validMove =>
          let board :=
            { board with
              s := game_load_rows board.n (board.s.take board.n) f ++ board.s.drop board.n }
          some
            { game :=
                { game with
                  passes := passes, pTypeO := pTypeO, pTypeX := pTypeX,
                  whoseTurn := whoseTurn, board := board, validMove := validMove },
              out := [], status := none, file := none }
        | _, _ => none

/-! ## High-level gameplay -/

/-- Conversion of an `int` to `unsigned int`. -/
def toUnsigned (v : Int) : Nat := (v % 4294967296).toNat

/-- Function `player_try_move`.  In `x > n - 1` the `int` is compared as `unsigned int`. -/
def player_try_move (x y : Int) (game : gameType) : Option Proc :=
  if toUnsigned x > toUnsigned ((game.board.n : Int) - 1)
      ∨ toUnsigned y > toUnsigned ((game.board.n : Int) - 1) then
    some { game := game, out := [], status := none, file := none }
  else if game.validMove.cell x y ≠ game.whoseTurn then
    some { game := game, out := [], status := none, file := none }
  else
    match game_put_tile x y game with
    | none => none
    | some game =>
      some
        { game := { game_next_player game with passes := 0 },
          out := [board_print game.board], status := none, file := none }

/-- The `while (1)` loop of `ai_turn`, entered at `(x, y)`.  The result is the position
at which the loop breaks, or `none` when it walks off the board (`sysMessage(0)`). -/
def ai_turn_loop (size dy : Int) (game : gameType) :
    Nat → Int → Int → Option (Option (Int × Int))
  | 0, _, _ => none
  | fuel + 1, x, y =>
    if game.validMove.cell x y = game.whoseTurn then some (some (x, y))
    else
      let y1 := y + dy
      let x2 := if y1 < 0 then x - 1 else if y1 ≥ size then x + 1 else x
      let y2 := if y1 < 0 then size - 1 else if y1 ≥ size then 0 else y1
      if x2 < 0 ∨ x2 ≥ size then some none
      else ai_turn_loop size dy game fuel x2 y2

/-- Function `ai_turn`.  The loop looks at each cell at most once, so `n * n + 1` rounds
of fuel are enough. -/
def ai_turn (playerType : Int) (game : gameType) : Option Proc :=
  let size : Int := game.validMove.n
  let x := if playerType = 1 then 0 else size - 1
  let y := if playerType = 1 then 0 else size - 1
  let dy := if playerType = 1 then 1 else -1
  match ai_turn_loop size dy game (game.validMove.n * game.validMove.n + 1) x y with
  | none => none
  | some none => some (sysMessage 0 game)
  | some (some (x, y)) =>
    match game_put_tile x y game with
    | none => none
    | some game =>
      some
        { game := { game_next_player game with passes := 0 },
          out := [Out.moves game.whoseTurn x y, board_print game.board],
          status := none, file := none }

/-- What the line reader of `input_turn` hands to `parse_turn`; the reading and
splitting of the line itself is not part of the model. -/
inductive Input where
  /-- End of input with nothing read: `sysMessage(10)`. -/
  | eof
  /-- A line starting with `s`: save under `fname`; `fopenOk` is the outcome of `fopen`. -/
  | save (fname : List Char) (fopenOk : Bool)
  /-- Two numeric arguments; `a`, `b` are the values returned by `atoi`. -/
  | move (a b : Int)
  /-- Any other line: nothing is done. -/
  | other
deriving DecidableEq

/-- Functions `input_turn` and `parse_turn`, after the line has been read and split. -/
def input_turn (inp : Input) (game : gameType) : Option Proc :=
  match inp with
  | Input.eof =>
    some { sysMessage 10 game with out := Out.prompt game.whoseTurn :: (sysMessage 10 game).out }
  | Input.save fname fopenOk =>
    some
      { game_save fname fopenOk game with
        out := Out.prompt game.whoseTurn :: (game_save fname fopenOk game).out }
  | Input.move a b =>
    if a = INT_MAX ∨ b = INT_MAX ∨ a < 0 ∨ b < 0 then
      some { game := game, out := [Out.prompt game.whoseTurn], status := none, file := none }
    else
      match player_try_move a b game with
      | none => none
      | some p => some { p with out := Out.prompt game.whoseTurn :: p.out }
  | Input.other =>
    some { game := game, out := [Out.prompt game.whoseTurn], status := none, file := none }

/-- Function `turn_decision`: one round of the `while (1)` loop of `play`.  `inp` is what
the input layer delivers if this turn asks for input.  The pass counter is an unbounded
integer here; it agrees with the `int` counter of the code as long as it is below `INT_MAX`
before the increment, and the theorems that state its value after a pass are restricted to
that range. -/
def turn_decision (inp : Input) (game : gameType) : Option Proc :=
  let player := game.whoseTurn
  match game_update_valid_moves game with
  | none => none
  | some game =>
    let game := game_update_scoring game
    if board_missing_char '.' game.board then some (sysMessage 2 game)
    else if board_missing_char player game.validMove then
      let game1 : gameType := { game_next_player game with passes := game.passes + 1 }
      if game1.passes > 1 then
        some
          { sysMessage 3 game1 with
            out := Out.passes game.whoseTurn :: (sysMessage 3 game1).out }
      else
        some { game := game1, out := [Out.passes game.whoseTurn], status := none, file := none }
    else if player = 'O' ∧ game.pTypeO ≠ 0 then ai_turn game.pTypeO game
    else if player = 'X' ∧ game.pTypeX ≠ 0 then ai_turn game.pTypeX game
    else input_turn inp game

/-- The turn that gave `p` went through `input_turn`, which prints the prompt and then
reads one line of the input; no other function prints the prompt or reads input. -/
def readsInput (p : Proc) : Bool :=
  p.out.any fun o =>
    match o with
    | Out.prompt _ => true
    | _ => false

/-- The `while (1)` loop of `play`: `turn_decision` is called until a call terminates the
process.  `inputs` are the lines still to be read (end of input once the list is empty),
`out` is what has been printed so far.  The result is `none` when the fuel runs out. -/
def play_loop : Nat → List Input → gameType → List Out → Option Proc
  | 0, _, _, _ => none
  | fuel + 1, inputs, game, out =>
    match turn_decision (inputs.headD Input.eof) game with
    | none => none
    | some p =>
      if p.status.isSome then some { p with out := out ++ p.out }
      else play_loop fuel (if readsInput p then inputs.tail else inputs) p.game (out ++ p.out)

/-- Function `play`: the board is printed, then the loop runs. -/
def play (fuel : Nat) (inputs : List Input) (game : gameType) : Option Proc :=
  play_loop fuel inputs game [board_print game.board]

/-! ## Start-up -/

/-- Function `string_is_numeric`. -/
def string_is_numeric (s : List Char) : Bool :=
  if s = [] then false
  else s.all (fun c => !(decide (c > '9') || decide (c < '0')))

/-- Function `string_strip_nondigit`: the string is cut at its first non-digit. -/
def string_strip_nondigit (s : List Char) : List Char :=
  s.takeWhile (fun c => !(decide (c > '9') || decide (c < '0')))

/-- The number written by a string of decimal digits. -/
def decimal (s : List Char) : Int :=
  s.foldl (fun a c => 10 * a + ((c.toNat : Int) - 48)) 0

/-- Library function `atoi` on a string of digits (the only strings it is called on).
The C library computes `(int) strtol(s, NULL, 10)`: `strtol` returns `LONG_MAX`, which is
`2^63 - 1`, for every value above it, and the conversion to `int` keeps the low 32 bits,
read in two's complement. -/
def atoi (s : List Char) : Int :=
  let l : Int := if decimal s ≤ 9223372036854775807 then decimal s else 9223372036854775807
  (l + 2147483648) % 4294967296 - 2147483648

/-- Function `parse_setup`; `argv` holds the `argc` arguments.  The function ends by
calling `play`, which never returns: a result with `status = none` is the state in which
`play` starts. -/
def parse_setup (argv : List (List Char)) (game : gameType) : Option Proc :=
  let argc := argv.length
  let argv :=
    if argc = 4 then argv.set 3 (string_strip_nondigit (argv.getD 3 []))
    else if argc = 5 then argv.set 4 (string_strip_nondigit (argv.getD 4 []))
    else argv
  match ((List.range argc).drop 2).find? (fun i => !string_is_numeric (argv.getD i [])) with
  | some i => if i = 2 then some (sysMessage 5 game) else some (sysMessage 6 game)
  | none =>
    let b : Int := if argc ≥ 4 then atoi (argv.getD 3 []) else 0
    let c : Int := if argc ≥ 4 ∧ argc = 5 then atoi (argv.getD 4 []) else 0
    let a : Int := atoi (argv.getD 2 [])
    if a ≤ 3 then some (sysMessage 5 game)
    else if b > 2 ∨ c > 2 ∨ b < 0 ∨ c < 0 then some (sysMessage 6 game)
    else
      match board_ini a.toNat, board_ini a.toNat with
      | some board, some validMove =>
        some
          { game := { game with board := board, validMove := validMove, pTypeX := b, pTypeO := c },
            out := [], status := none, file := none }
      | _, _ => none

/-- Function `parse_ini`; `fopen` is the content of the file named by `argv[2]`, if it
can be opened.  As in `parse_setup`, a result with `status = none` is the state in
which `play` starts. -/
def parse_ini (argv : List (List Char)) (fopen : Option (List Char)) (game : gameType) :
    Option Proc :=
  let argc := argv.length
  if argc = 1 then some (sysMessage 1 game)
  else if argv.getD 1 [] = ['n', 'e', 'w'] ∧ argc > 2 ∧ argc ≤ 5 then parse_setup argv game
  else if argv.getD 1 [] = ['l', 'o', 'a', 'd'] ∧ argc = 3 then
    game_load (argv.getD 2 []) fopen game
  else some (sysMessage 11 game)

/-- Function `main`, started on `argv` with the uninitialised state `game`. -/
def main (argv : List (List Char)) (fopen : Option (List Char)) (game : gameType) :
    Option Proc :=
  parse_ini argv fopen (game_ini game)

/-- The game states the program passes through: `Reachable g0 g st` says that the `while (1)`
loop of `play`, started in `g0`, can stand in state `g` after some number of calls of
`turn_decision`, with `st` the exit status if the last call terminated the process. -/
inductive Reachable (g0 : gameType) : gameType → Option Int → Prop where
  | start : Reachable g0 g0 none
  | turn {g : gameType} (inp : Input) (p : Proc) :
      Reachable g0 g none → turn_decision inp g = some p → Reachable g0 p.game p.status

/-! ## Vocabulary of the properties -/

/-- A board whose `s` holds `n` rows of `n` cells. -/
def boardType.wf (b : boardType) : Prop :=
  b.s.length = b.n ∧ ∀ row ∈ b.s, row.length = b.n

instance (b : boardType) : Decidable b.wf := by
  unfold boardType.wf; infer_instance

/-- Every stored cell is one of `.`, `O`, `X`. -/
def boardType.cellsOK (b : boardType) : Prop :=
  ∀ row ∈ b.s, ∀ c ∈ row, c = '.' ∨ c = 'O' ∨ c = 'X'

instance (b : boardType) : Decidable b.cellsOK := by
  unfold boardType.cellsOK; infer_instance

/-- Both boards of the game are `n` by `n`, with the same `n`. -/
def gameType.wf (g : gameType) : Prop :=
  g.board.wf ∧ g.validMove.wf ∧ g.validMove.n = g.board.n

instance (g : gameType) : Decidable g.wf := by
  unfold gameType.wf; infer_instance

/-- Number of cells of the board that hold `c`. -/
def countCells (c : Char) (b : boardType) : Nat :=
  (cells b.n).countP (fun p => b.cell p.1 p.2 = c)

/-- Position `(i, j)` is a cell of the board. -/
def inBoard (b : boardType) (i j : Int) : Prop := 0 ≤ i ∧ 0 ≤ j ∧ i < b.n ∧ j < b.n

instance (b : boardType) (i j : Int) : Decidable (inBoard b i j) := by
  unfold inBoard; infer_instance

/-- Cell value `c` is a tile of the opponent of `tile`: neither empty nor `tile`. -/
def opposing (tile c : Char) : Prop := c ≠ '.' ∧ c ≠ tile

instance (tile c : Char) : Decidable (opposing tile c) := by
  unfold opposing; infer_instance

/-- On the ray from `(x, y)` in direction `(dx, dy)`, the first `k` cells are on the board
and opposing, and the next one is on the board and holds `tile`. -/
def bracket (b : boardType) (x y dx dy : Int) (tile : Char) (k : Nat) : Prop :=
  (∀ m, m < k → inBoard b (x + (m + 1) * dx) (y + (m + 1) * dy)
      ∧ opposing tile (b.cell (x + (m + 1) * dx) (y + (m + 1) * dy)))
    ∧ inBoard b (x + (k + 1) * dx) (y + (k + 1) * dy)
    ∧ b.cell (x + (k + 1) * dx) (y + (k + 1) * dy) = tile

instance (b : boardType) (x y dx dy : Int) (tile : Char) (k : Nat) :
    Decidable (bracket b x y dx dy tile k) := by
  unfold bracket; infer_instance

/-- Direction `(dx, dy)` captures from `(x, y)`: one or more opposing cells followed by a
`tile` cell. -/
def captures (b : boardType) (x y dx dy : Int) (tile : Char) : Prop :=
  ∃ k, 1 ≤ k ∧ bracket b x y dx dy tile k

/-- A bracket of one or more cells fits on the board: `captures` can be decided by
looking at `k < n` only. -/
theorem bracket_lt (b : boardType) (x y dx dy : Int) (tile : Char) (k : Nat) (hk : 1 ≤ k)
    (h : bracket b x y dx dy tile k) : k < b.n := by
  obtain ⟨h1, h2, h3⟩ := h
  obtain ⟨⟨a1, a2, a3, a4⟩, o1, o2⟩ := h1 0 (by omega)
  obtain ⟨c1, c2, c3, c4⟩ := h2
  simp only [Nat.cast_zero, zero_add, one_mul] at a1 a2 a3 a4 o2
  by_cases hz : dx = 0 ∧ dy = 0
  · exfalso
    obtain ⟨rfl, rfl⟩ := hz
    simp only [mul_zero, add_zero] at h3 o2
    exact o2 h3
  · have hk' : (1 : Int) ≤ k := by exact_mod_cast hk
    have key : ∀ d : Int, d ≠ 0 → ∀ z : Int, 0 ≤ z + d → z + d < b.n →
        0 ≤ z + ((k : Int) + 1) * d → z + ((k : Int) + 1) * d < b.n → (k : Int) < b.n := by
      intro d hd z z1 z2 z3 z4
      rcases lt_or_gt_of_ne hd with hneg | hpos
      · have : (k : Int) * d ≤ (k : Int) * (-1) :=
          mul_le_mul_of_nonneg_left (by omega) (by omega)
        have e : z + ((k : Int) + 1) * d = z + d + (k : Int) * d := by ring
        omega
      · have : (k : Int) * 1 ≤ (k : Int) * d :=
          mul_le_mul_of_nonneg_left (by omega) (by omega)
        have e : z + ((k : Int) + 1) * d = z + d + (k : Int) * d := by ring
        omega
    have : (k : Int) < b.n := by
      by_cases hdx : dx = 0
      · have hdy : dy ≠ 0 := fun e => hz ⟨hdx, e⟩
        exact key dy hdy y a2 a4 c2 c4
      · exact key dx hdx x a1 a3 c1 c3
    exact_mod_cast this

theorem captures_iff (b : boardType) (x y dx dy : Int) (tile : Char) :
    captures b x y dx dy tile ↔ ∃ k, k < b.n ∧ (1 ≤ k ∧ bracket b x y dx dy tile k) := by
  constructor
  · rintro ⟨k, hk, hb⟩
    exact ⟨k, bracket_lt b x y dx dy tile k hk hb, hk, hb⟩
  · rintro ⟨k, _, hk, hb⟩
    exact ⟨k, hk, hb⟩

instance (b : boardType) (x y dx dy : Int) (tile : Char) :
    Decidable (captures b x y dx dy tile) :=
  decidable_of_iff _ (captures_iff b x y dx dy tile).symm

/-- Cell `(i, j)` lies inside a bracket from `(x, y)` along one of the directions `ds`:
it is one of the `k` opposing cells of a bracket of some direction. -/
def flipped (b : boardType) (x y : Int) (t : Char) (ds : List (Int × Int)) (i j : Int) :
    Prop :=
  ∃ d ∈ ds, ∃ k m : Nat, bracket b x y d.1 d.2 t k ∧ m < k
    ∧ i = x + ((m : Int) + 1) * d.1 ∧ j = y + ((m : Int) + 1) * d.2

theorem flipped_iff (b : boardType) (x y : Int) (t : Char) (ds : List (Int × Int))
    (i j : Int) :
    flipped b x y t ds i j ↔
      ∃ d ∈ ds, ∃ k, k < b.n ∧ ∃ m, m < k ∧ (bracket b x y d.1 d.2 t k
        ∧ i = x + ((m : Int) + 1) * d.1 ∧ j = y + ((m : Int) + 1) * d.2) := by
  constructor
  · rintro ⟨d, hd, k, m, hk, hm, hi, hj⟩
    exact ⟨d, hd, k, bracket_lt b x y d.1 d.2 t k (by omega) hk, m, hm, hk, hi, hj⟩
  · rintro ⟨d, hd, k, _, m, hm, hk, hi, hj⟩
    exact ⟨d, hd, k, m, hk, hm, hi, hj⟩

instance (b : boardType) (x y : Int) (t : Char) (ds : List (Int × Int)) (i j : Int) :
    Decidable (flipped b x y t ds i j) :=
  decidable_of_iff _ (flipped_iff b x y t ds i j).symm

/-- The board has no empty cell. -/
def boardFull (b : boardType) : Prop := ∀ p ∈ cells b.n, b.cell p.1 p.2 ≠ '.'

instance (b : boardType) : Decidable (boardFull b) := by
  unfold boardFull; infer_instance

/-- Placing `tile` on cell `(i, j)` is a legal move: the cell is empty and some direction
captures. -/
def legalMove (b : boardType) (tile : Char) (i j : Int) : Prop :=
  b.cell i j = '.' ∧ ∃ d ∈ vect, captures b i j d.1 d.2 tile

instance (b : boardType) (tile : Char) (i j : Int) : Decidable (legalMove b tile i j) := by
  unfold legalMove; infer_instance

/-- Player `tile` has no legal move on the board. -/
def noLegalMove (b : boardType) (tile : Char) : Prop :=
  ∀ p ∈ cells b.n, ¬ legalMove b tile p.1 p.2

instance (b : boardType) (tile : Char) : Decidable (noLegalMove b tile) := by
  unfold noLegalMove; infer_instance

/-- Position `(a, b)` comes no later than `(c, d)` in the order
`(0,0), (0,1), ..., (0,N-1), (1,0), ..., (N-1,N-1)`. -/
def posLE (a b c d : Int) : Prop := a < c ∨ (a = c ∧ b ≤ d)

instance (a b c d : Int) : Decidable (posLE a b c d) := by
  unfold posLE; infer_instance

/-- Cell `(i, j)` of the valid-move grid is marked for the current player. -/
def marked (g : gameType) (i j : Int) : Prop :=
  inBoard g.validMove i j ∧ g.validMove.cell i j = g.whoseTurn

instance (g : gameType) (i j : Int) : Decidable (marked g i j) := by
  unfold marked; infer_instance

/-- The opening position on a board of side 4. -/
def opening4 : boardType :=
  { s := [['.', '.', '.', '.'], ['.', 'O', 'X', '.'], ['.', 'X', 'O', '.'], ['.', '.', '.', '.']],
    n := 4,
    border := ['-', '-', '-', '-'] }


/-- The board keeps property `P` and the turn stays with a player: what one call of a
function of the play loop preserves. -/
def keeps (P : boardType → Prop) (g : gameType) : Prop :=
  P g.board ∧ (g.whoseTurn = 'O' ∨ g.whoseTurn = 'X')

/-- The uninitialised state of `main` used in the examples. -/
def blank : gameType :=
  { passes := 7, pTypeO := 7, pTypeX := 7, scoreO := 7, scoreX := 7, filepath := ['?'],
    whoseTurn := '?', board := { s := [], n := 0, border := [] },
    validMove := { s := [], n := 0, border := [] } }

/-- The state in which `flip new 4` starts to play. -/
def new4 : gameType :=
  { passes := 0, pTypeO := 0, pTypeX := 0, scoreO := 0, scoreX := 0, filepath := [],
    whoseTurn := 'O', board := opening4, validMove := opening4 }


/-- The state `new4` once `game_update_valid_moves` has marked the moves of `O`. -/
def new4_ready : gameType :=
  { new4 with
    validMove :=
      { s := [['.', '.', 'O', '.'], ['.', '.', '.', 'O'], ['O', '.', '.', '.'],
          ['.', 'O', '.', '.']],
        n := 4,
        border := ['-', '-', '-', '-'] } }


/-- A full board of side 4. -/
def full4 : gameType :=
  { new4 with
    board :=
      { s := [['O', 'O', 'O', 'X'], ['O', 'X', 'X', 'X'], ['O', 'O', 'X', 'X'],
          ['X', 'O', 'O', 'O']],
        n := 4,
        border := ['-', '-', '-', '-'] } }

/-- A board of side 4 with one empty cell on which neither player can move. -/
def stuck4 : gameType :=
  { new4 with
    board :=
      { s := [['O', 'O', 'O', 'O'], ['O', 'O', 'O', 'O'], ['O', 'O', 'O', 'O'],
          ['O', 'O', 'O', '.']],
        n := 4,
        border := ['-', '-', '-', '-'] } }


/-- What the first turn of `flip new 4` leaves when `O` plays `0 2`. -/
def new4_moved : Proc :=
  { game :=
      { passes := 0, pTypeO := 0, pTypeX := 0, scoreO := 2, scoreX := 2, filepath := [],
        whoseTurn := 'X',
        board :=
          { s := [['.', '.', 'O', '.'], ['.', 'O', 'O', '.'], ['.', 'X', 'O', '.'],
              ['.', '.', '.', '.']],
            n := 4,
            border := ['-', '-', '-', '-'] },
        validMove := new4_ready.validMove },
    out :=
      [Out.prompt 'O',
        Out.board ['-', '-', '-', '-']
          [['.', '.', 'O', '.'], ['.', 'O', 'O', '.'], ['.', 'X', 'O', '.'],
            ['.', '.', '.', '.']]],
    status := none,
    file := none }

/-- A board of side 258 whose first row is an empty cell, 256 `X` tiles and an `O`
tile; every other cell is empty. -/
def longRow : boardType :=
  { s := ('.' :: (List.replicate 256 'X' ++ ['O']))
      :: List.replicate 257 (List.replicate 258 '.'),
    n := 258,
    border := List.replicate 258 '-' }



/-- On the ray from `(x, y)` in direction `(dx, dy)`, the first `k` cells are on the board
and opposing, and the walk then leaves the board or lands on an empty cell. -/
def blockedRun (b : boardType) (x y dx dy : Int) (tile : Char) (k : Nat) : Prop :=
  (∀ m, m < k → inBoard b (x + (m + 1) * dx) (y + (m + 1) * dy)
      ∧ opposing tile (b.cell (x + (m + 1) * dx) (y + (m + 1) * dy)))
    ∧ (¬ inBoard b (x + (k + 1) * dx) (y + (k + 1) * dy)
      ∨ b.cell (x + (k + 1) * dx) (y + (k + 1) * dy) = '.')

instance (b : boardType) (x y dx dy : Int) (tile : Char) (k : Nat) :
    Decidable (blockedRun b x y dx dy tile k) := by
  unfold blockedRun; infer_instance


/-- Cell `(i, j)` lies inside a bracket, in one of the directions `ds`, whose number of
cells is not a multiple of 256: the brackets for which `board_walk` reports a capture. -/
def turned (b : boardType) (x y : Int) (t : Char) (ds : List (Int × Int)) (i j : Int) :
    Prop :=
  ∃ d ∈ ds, ∃ k m : Nat, bracket b x y d.1 d.2 t k ∧ k % 256 ≠ 0 ∧ m < k
    ∧ i = x + ((m : Int) + 1) * d.1 ∧ j = y + ((m : Int) + 1) * d.2

theorem turned_iff (b : boardType) (x y : Int) (t : Char) (ds : List (Int × Int))
    (i j : Int) :
    turned b x y t ds i j ↔
      ∃ d ∈ ds, ∃ k, k < b.n ∧ ∃ m, m < k ∧ (bracket b x y d.1 d.2 t k ∧ k % 256 ≠ 0
        ∧ i = x + ((m : Int) + 1) * d.1 ∧ j = y + ((m : Int) + 1) * d.2) := by
  constructor
  · rintro ⟨d, hd, k, m, hk, h256, hm, hi, hj⟩
    exact ⟨d, hd, k, bracket_lt b x y d.1 d.2 t k (by omega) hk, m, hm, hk, h256, hi, hj⟩
  · rintro ⟨d, hd, k, _, m, hm, hk, h256, hi, hj⟩
    exact ⟨d, hd, k, m, hk, h256, hm, hi, hj⟩

instance (b : boardType) (x y : Int) (t : Char) (ds : List (Int × Int)) (i j : Int) :
    Decidable (turned b x y t ds i j) :=
  decidable_of_iff _ (turned_iff b x y t ds i j).symm

/-- A game state with two AI players: both boards are `n` by `n`, the current player is
`O` or `X`, both player types are 1 or 2, and the pass counter can be incremented. -/
def aiGame (g : gameType) : Prop :=
  g.wf ∧ (g.whoseTurn = 'O' ∨ g.whoseTurn = 'X') ∧ g.passes < 2147483647
    ∧ (g.pTypeO = 1 ∨ g.pTypeO = 2) ∧ (g.pTypeX = 1 ∨ g.pTypeX = 2)

instance (g : gameType) : Decidable (aiGame g) := by
  unfold aiGame; infer_instance

/-- A bound on the number of calls of `turn_decision` still to come before the game is
over: three for each empty cell, and the passes left before the counter exceeds 1. -/
def turnsLeft (g : gameType) : Nat :=
  3 * countCells '.' g.board + (2 - g.passes).toNat

/-- A 4 by 4 opening with AI type 1 for `O` and AI type 2 for `X`. -/
def ai4 : gameType := { new4 with pTypeO := 1, pTypeX := 2 }


/-- The board `longRow` with a second, short bracket for `O` from `(0, 0)`: an `X` at
`(1, 0)` and an `O` at `(2, 0)`. -/
def longCross : boardType :=
  { s := ('.' :: (List.replicate 256 'X' ++ ['O']))
      :: ('X' :: List.replicate 257 '.')
      :: ('O' :: List.replicate 257 '.')
      :: List.replicate 255 (List.replicate 258 '.'),
    n := 258,
    border := List.replicate 258 '-' }

/-- A game between two human players on `longCross` with `O` to move, as `flip load` gives
it for a file that holds this board. -/
def longCrossGame : gameType :=
  { passes := 0, pTypeO := 0, pTypeX := 0, scoreO := 0, scoreX := 0, filepath := [],
    whoseTurn := 'O', board := longCross, validMove := longCross }

/-- The opening position of side 4 with the turn byte `.`, as `flip load` gives it for a
file that holds this byte. -/
def dotTurn4 : gameType := { new4 with whoseTurn := '.' }


/-! ## Cells of a board -/

theorem setCell_n (b : boardType) (i j : Int) (c : Char) : (b.setCell i j c).n = b.n := rfl

theorem setCell_border (b : boardType) (i j : Int) (c : Char) :
    (b.setCell i j c).border = b.border := rfl

theorem cell_setCell_of_ne (b : boardType) (i j i' j' : Int) (c : Char)
    (h : i'.toNat ≠ i.toNat ∨ j'.toNat ≠ j.toNat) :
    (b.setCell i j c).cell i' j' = b.cell i' j' := by
  unfold boardType.setCell boardType.cell
  simp only [List.getD_eq_getElem?_getD, List.getElem?_set]
  by_cases hi : i.toNat = i'.toNat
  · have hj : j.toNat ≠ j'.toNat := by
      rcases h with h | h
      · exact absurd hi.symm h
      · exact fun e => h e.symm
    simp only [hi, if_true]
    by_cases hlt : i'.toNat < b.s.length
    · simp [hlt, List.getElem?_set, hj]
    · simp [hlt]
      have : b.s[i'.toNat]? = none := by simp; omega
      simp [this]
  · simp [hi]

theorem cell_setCell_self (b : boardType) (i j : Int) (c : Char)
    (hi : i.toNat < b.s.length) (hj : j.toNat < (b.s.getD i.toNat []).length) :
    (b.setCell i j c).cell i j = c := by
  unfold boardType.setCell boardType.cell
  simp only [List.getD_eq_getElem?_getD, List.getElem?_set] at *
  simp only [hi, List.getElem?_eq_getElem, Option.getD_some] at hj
  simp [hi, hj, List.getElem?_set]

theorem setCell_wf (b : boardType) (i j : Int) (c : Char) (h : b.wf) : (b.setCell i j c).wf := by
  obtain ⟨h1, h2⟩ := h
  refine ⟨by simp [boardType.setCell, h1], ?_⟩
  intro row hrow
  simp only [boardType.setCell] at hrow ⊢
  rcases List.mem_or_eq_of_mem_set hrow with h | h
  · exact h2 row h
  · subst h
    simp only [List.length_set]
    by_cases hlt : i.toNat < b.s.length
    · apply h2
      simp [List.getD_eq_getElem?_getD, hlt]
    · rw [List.set_eq_of_length_le (by omega)] at hrow
      have hnone : b.s.getD i.toNat [] = [] := by
        have : b.s[i.toNat]? = none := List.getElem?_eq_none (by omega)
        simp [List.getD_eq_getElem?_getD, this]
      rw [hnone] at hrow ⊢
      simpa using h2 _ hrow
theorem setCell_cellsOK (b : boardType) (i j : Int) (c : Char) (h : b.cellsOK)
    (hc : c = '.' ∨ c = 'O' ∨ c = 'X') : (b.setCell i j c).cellsOK := by
  intro row hrow a ha
  simp only [boardType.setCell] at hrow
  rcases List.mem_or_eq_of_mem_set hrow with h1 | h1
  · exact h row h1 a ha
  · subst h1
    rcases List.mem_or_eq_of_mem_set ha with h2 | h2
    · by_cases hlt : i.toNat < b.s.length
      · refine h (b.s.getD i.toNat []) ?_ a h2
        simp [List.getD_eq_getElem?_getD, hlt]
      · have : b.s[i.toNat]? = none := List.getElem?_eq_none (by omega)
        simp [List.getD_eq_getElem?_getD, this] at h2
    · rw [h2]; exact hc

theorem mem_cells (n : Nat) (p : Int × Int) :
    p ∈ cells n ↔ 0 ≤ p.1 ∧ 0 ≤ p.2 ∧ p.1 < n ∧ p.2 < n := by
  obtain ⟨i, j⟩ := p
  simp only [cells, List.mem_flatMap, List.mem_range, List.mem_map, Prod.mk.injEq]
  constructor
  · rintro ⟨a, ha, b, hb, rfl, rfl⟩
    omega
  · rintro ⟨h1, h2, h3, h4⟩
    exact ⟨i.toNat, by omega, j.toNat, by omega, by omega, by omega⟩

theorem length_cells (n : Nat) : (cells n).length = n * n := by
  simp [cells, List.length_flatMap, Function.comp_def]

theorem cell_mem (b : boardType) (h : b.wf) (i j : Int) (hin : 0 ≤ i ∧ 0 ≤ j ∧ i < b.n ∧ j < b.n) :
    ∃ row ∈ b.s, b.cell i j ∈ row := by
  obtain ⟨h1, h2⟩ := h
  have hi : i.toNat < b.s.length := by omega
  have hrow : b.s[i.toNat] ∈ b.s := List.getElem_mem hi
  have hj : j.toNat < (b.s[i.toNat]).length := by rw [h2 _ hrow]; omega
  refine ⟨b.s[i.toNat], hrow, ?_⟩
  have : b.cell i j = (b.s[i.toNat])[j.toNat] := by
    simp [boardType.cell, List.getD_eq_getElem?_getD, hi, hj]
  rw [this]
  exact List.getElem_mem hj

theorem cell_ok (b : boardType) (h : b.wf) (hc : b.cellsOK) (p : Int × Int) (hp : p ∈ cells b.n) :
    b.cell p.1 p.2 = '.' ∨ b.cell p.1 p.2 = 'O' ∨ b.cell p.1 p.2 = 'X' := by
  obtain ⟨row, hrow, hmem⟩ := cell_mem b h p.1 p.2 ((mem_cells _ _).mp hp)
  exact hc row hrow _ hmem

theorem scoring_fold (f : Int × Int → Char) :
    ∀ (l : List (Int × Int)) (acc : Int × Int),
      (∀ p ∈ l, f p = '.' ∨ f p = 'O' ∨ f p = 'X') →
      (l.foldl (fun (acc : Int × Int) p =>
          if f p = 'O' then (acc.1 + 1, acc.2)
          else if f p = 'X' then (acc.1, acc.2 + 1) else acc) acc).1
        + (l.foldl (fun (acc : Int × Int) p =>
          if f p = 'O' then (acc.1 + 1, acc.2)
          else if f p = 'X' then (acc.1, acc.2 + 1) else acc) acc).2
        + (l.countP (fun p => f p = '.') : Nat)
      = acc.1 + acc.2 + l.length := by
  intro l
  induction l with
  | nil => intro acc _; simp
  | cons p rest ih =>
    intro acc h
    have hp := h p (by simp)
    have hrest : ∀ q ∈ rest, f q = '.' ∨ f q = 'O' ∨ f q = 'X' :=
      fun q hq => h q (List.mem_cons_of_mem _ hq)
    have key := ih (if f p = 'O' then (acc.1 + 1, acc.2)
      else if f p = 'X' then (acc.1, acc.2 + 1) else acc) hrest
    simp only [List.foldl_cons, List.length_cons, List.countP_cons]
    push_cast
    rcases hp with hp | hp | hp
    · simp only [hp] at key ⊢
      simp only [show ('.' : Char) ≠ 'O' by decide, show ('.' : Char) ≠ 'X' by decide,
        if_false, decide_True, if_true] at key ⊢
      linarith
    · simp only [hp] at key ⊢
      simp only [show ('O' : Char) ≠ '.' by decide, if_true, decide_False] at key ⊢
      simp at key ⊢
      linarith
    · simp only [hp] at key ⊢
      simp only [show ('X' : Char) ≠ '.' by decide, show ('X' : Char) ≠ 'O' by decide,
        if_true, if_false, decide_False] at key ⊢
      simp at key ⊢
      linarith

theorem scoring_identity (g : gameType) (h : g.board.wf) (hc : g.board.cellsOK) :
    (game_update_scoring g).scoreO + (game_update_scoring g).scoreX
      + (countCells '.' g.board : Int) = (g.board.n : Int) * g.board.n := by
  have := scoring_fold (fun p => g.board.cell p.1 p.2) (cells g.board.n) (0, 0)
    (fun p hp => cell_ok g.board h hc p hp)
  simp only [game_update_scoring, countCells]
  rw [this, length_cells]
  push_cast; ring

/-! ## The walk along a ray -/

theorem board_walk_loop_isSome_aux (dx dy : Int) (tile : Char) (action : Int)
    (φ : Int → Int → Int) (n : Nat)
    (hpos : ∀ i j : Int, 0 ≤ i → 0 ≤ j → i < (n : Int) → j < (n : Int) → 1 ≤ φ i j)
    (hdec : ∀ i j : Int, φ (i + dx) (j + dy) + 1 ≤ φ i j) :
    ∀ (fuel : Nat) (i j : Int) (e : Nat) (b : boardType), b.n = n → 1 ≤ fuel →
      (φ (i + dx) (j + dy) < fuel ∨
        (i + dx < 0 ∨ j + dy < 0 ∨ i + dx ≥ n ∨ j + dy ≥ n)) →
      (board_walk_loop dx dy tile action fuel i j e b).isSome = true := by
  intro fuel
  induction fuel with
  | zero => intro i j e b _ h; omega
  | succ f ih =>
    intro i j e b hn _ hφ
    unfold board_walk_loop
    simp only [hn]
    by_cases h1 : i + dx < 0 ∨ j + dy < 0 ∨ i + dx ≥ n ∨ j + dy ≥ n
    · simp [h1]
    · rw [if_neg h1]
      by_cases h2 : b.cell (i + dx) (j + dy) = '.'
      · simp [h2]
      · rw [if_neg h2]
        by_cases h3 : b.cell (i + dx) (j + dy) ≠ tile
        · rw [if_pos h3]
          have hin : 0 ≤ i + dx ∧ 0 ≤ j + dy ∧ i + dx < n ∧ j + dy < n := by omega
          have hp := hpos _ _ hin.1 hin.2.1 hin.2.2.1 hin.2.2.2
          have hd := hdec (i + dx) (j + dy)
          have hlt : φ (i + dx) (j + dy) < ((f + 1 : Nat) : Int) := by
            rcases hφ with h | h
            · exact h
            · exact absurd h h1
          push_cast at hlt
          apply ih
          · split_ifs <;> simp [setCell_n, hn]
          · omega
          · left; omega
        · rw [if_neg h3]; rfl

theorem board_walk_isSome (x y dx dy : Int) (tile : Char) (b : boardType) (action : Int)
    (hd : dx ≠ 0 ∨ dy ≠ 0) : (board_walk x y dx dy tile b action).isSome = true := by
  unfold board_walk
  rcases hd with hd | hd
  · rcases lt_or_gt_of_ne hd with h | h
    · apply board_walk_loop_isSome_aux dx dy tile action (fun i _ => i + 1) b.n
        (by intro i j; beta_reduce; omega) (by intro i j; beta_reduce; omega) _ _ _ _ _ rfl
        (by omega)
      beta_reduce; push_cast; omega
    · apply board_walk_loop_isSome_aux dx dy tile action (fun i _ => b.n - i) b.n
        (by intro i j; beta_reduce; omega) (by intro i j; beta_reduce; omega) _ _ _ _ _ rfl
        (by omega)
      beta_reduce; push_cast; omega
  · rcases lt_or_gt_of_ne hd with h | h
    · apply board_walk_loop_isSome_aux dx dy tile action (fun _ j => j + 1) b.n
        (by intro i j; beta_reduce; omega) (by intro i j; beta_reduce; omega) _ _ _ _ _ rfl
        (by omega)
      beta_reduce; push_cast; omega
    · apply board_walk_loop_isSome_aux dx dy tile action (fun _ j => b.n - j) b.n
        (by intro i j; beta_reduce; omega) (by intro i j; beta_reduce; omega) _ _ _ _ _ rfl
        (by omega)
      beta_reduce; push_cast; omega

theorem board_walk_loop_validate (dx dy : Int) (tile : Char) :
    ∀ (fuel : Nat) (i j : Int) (e : Nat) (b : boardType) (r : Nat) (b' : boardType),
      board_walk_loop dx dy tile WALK_VALIDATE fuel i j e b = some (r, b') →
      b' = b ∧ (r ≠ 0 → ∃ k, bracket b i j dx dy tile k ∧ r = (e + k) % 256) := by
  intro fuel
  induction fuel with
  | zero => intro i j e b r b' h; simp [board_walk_loop] at h
  | succ f ih =>
    intro i j e b r b' h
    unfold board_walk_loop at h
    simp only [] at h
    by_cases h1 : i + dx < 0 ∨ j + dy < 0 ∨ i + dx ≥ b.n ∨ j + dy ≥ b.n
    · rw [if_pos h1] at h
      simp only [Option.some.injEq, Prod.mk.injEq] at h
      exact ⟨h.2.symm, fun hr => absurd h.1.symm hr⟩
    · rw [if_neg h1] at h
      by_cases h2 : b.cell (i + dx) (j + dy) = '.'
      · rw [if_pos h2] at h
        simp only [Option.some.injEq, Prod.mk.injEq] at h
        exact ⟨h.2.symm, fun hr => absurd h.1.symm hr⟩
      · rw [if_neg h2] at h
        have hin : inBoard b (i + dx) (j + dy) := by unfold inBoard; omega
        by_cases h3 : b.cell (i + dx) (j + dy) ≠ tile
        · rw [if_pos h3, if_neg (by decide)] at h
          obtain ⟨hb, hk⟩ := ih _ _ _ _ _ _ h
          refine ⟨hb, fun hr => ?_⟩
          obtain ⟨k, hbr, hrk⟩ := hk hr
          refine ⟨k + 1, ⟨?_, ?_, ?_⟩, by rw [hrk]; congr 1; omega⟩
          · intro m hm
            rcases Nat.eq_zero_or_pos m with hm0 | hm0
            · subst hm0
              simpa using ⟨hin, h2, h3⟩
            · have := hbr.1 (m - 1) (by omega)
              have e1 : i + dx + ((m - 1 : Nat) + 1 : Int) * dx = i + ((m : Int) + 1) * dx := by
                have : ((m - 1 : Nat) : Int) = (m : Int) - 1 := by omega
                rw [this]; ring
              have e2 : j + dy + ((m - 1 : Nat) + 1 : Int) * dy = j + ((m : Int) + 1) * dy := by
                have : ((m - 1 : Nat) : Int) = (m : Int) - 1 := by omega
                rw [this]; ring
              rw [e1, e2] at this
              exact this
          · have := hbr.2.1
            have e1 : i + dx + ((k : Int) + 1) * dx = i + (((k + 1 : Nat) : Int) + 1) * dx := by
              push_cast; ring
            have e2 : j + dy + ((k : Int) + 1) * dy = j + (((k + 1 : Nat) : Int) + 1) * dy := by
              push_cast; ring
            rw [e1, e2] at this
            exact this
          · have := hbr.2.2
            have e1 : i + dx + ((k : Int) + 1) * dx = i + (((k + 1 : Nat) : Int) + 1) * dx := by
              push_cast; ring
            have e2 : j + dy + ((k : Int) + 1) * dy = j + (((k + 1 : Nat) : Int) + 1) * dy := by
              push_cast; ring
            rw [e1, e2] at this
            exact this
        · rw [if_neg h3] at h
          simp only [Option.some.injEq, Prod.mk.injEq] at h
          refine ⟨h.2.symm, fun _ => ⟨0, ⟨?_, ?_, ?_⟩, by simp [h.1]⟩⟩
          · intro m hm; omega
          · simpa using hin
          · simpa using h3

theorem vect_ne_zero : ∀ d ∈ vect, d.1 ≠ 0 ∨ d.2 ≠ 0 := by decide

theorem board_walk_validate (x y dx dy : Int) (tile : Char) (b : boardType) (r : Nat)
    (b' : boardType) (h : board_walk x y dx dy tile b WALK_VALIDATE = some (r, b')) :
    b' = b ∧ (r ≠ 0 → captures b x y dx dy tile) := by
  obtain ⟨hb, hk⟩ := board_walk_loop_validate dx dy tile _ _ _ _ _ _ _ h
  refine ⟨hb, fun hr => ?_⟩
  obtain ⟨k, hbr, hrk⟩ := hk hr
  refine ⟨k, ?_, hbr⟩
  rcases Nat.eq_zero_or_pos k with h0 | h0
  · subst h0; simp at hrk; exact absurd hrk hr
  · exact h0

theorem move_valid_loop_spec (x y : Int) (tile : Char) (b : boardType) :
    ∀ ds : List (Int × Int), (∀ d ∈ ds, d.1 ≠ 0 ∨ d.2 ≠ 0) →
      ∃ r, move_valid_loop x y tile b ds = some r
        ∧ (r = true → ∃ d ∈ ds, captures b x y d.1 d.2 tile) := by
  intro ds
  induction ds with
  | nil => intro _; exact ⟨false, rfl, by simp⟩
  | cons d rest ih =>
    intro hds
    obtain ⟨dx, dy⟩ := d
    have hsome := board_walk_isSome x y dx dy tile b WALK_VALIDATE (hds (dx, dy) (by simp))
    obtain ⟨⟨r, b'⟩, hw⟩ := Option.isSome_iff_exists.mp hsome
    obtain ⟨_, hcap⟩ := board_walk_validate _ _ _ _ _ _ _ _ hw
    simp only [move_valid_loop, hw]
    by_cases hr : r ≠ 0
    · rw [if_pos hr]
      exact ⟨true, rfl, fun _ => ⟨(dx, dy), by simp, hcap hr⟩⟩
    · rw [if_neg hr]
      obtain ⟨r', h1, h2⟩ := ih (fun d hd => hds d (List.mem_cons_of_mem _ hd))
      refine ⟨r', h1, fun hr' => ?_⟩
      obtain ⟨d, hd, hc⟩ := h2 hr'
      exact ⟨d, List.mem_cons_of_mem _ hd, hc⟩

theorem move_valid_spec (x y : Int) (tile : Char) (b : boardType) :
    ∃ r, move_valid x y tile b = some r
      ∧ (r = true → b.cell x y = '.' ∧ ∃ d ∈ vect, captures b x y d.1 d.2 tile) := by
  unfold move_valid
  by_cases h : b.cell x y ≠ '.'
  · rw [if_pos h]; exact ⟨false, rfl, by simp⟩
  · rw [if_neg h]
    obtain ⟨r, h1, h2⟩ := move_valid_loop_spec x y tile b vect vect_ne_zero
    exact ⟨r, h1, fun hr => ⟨not_not.mp h, h2 hr⟩⟩

/-- C2: on any board, for an in-bounds `(x, y)` and any tile, `move_valid` returns false
when the cell is not empty, and returns false when the cell is empty but none of the 8
directions has one or more opposing cells followed by a cell of the tile. -/
theorem move_valid_rejects (b : boardType) (x y : Int) (tile : Char) (_hin : inBoard b x y)
    (h : b.cell x y ≠ '.'
      ∨ (b.cell x y = '.' ∧ ∀ d ∈ vect, ¬ captures b x y d.1 d.2 tile)) :
    move_valid x y tile b = some false := by
  obtain ⟨r, h1, h2⟩ := move_valid_spec x y tile b
  cases r with
  | false => exact h1
  | true =>
    exfalso
    obtain ⟨he, d, hd, hc⟩ := h2 rfl
    rcases h with h | h
    · exact h he
    · exact h.2 d hd hc

theorem move_valid_rejects_witness :
    move_valid 1 1 'X' opening4 = some false ∧ move_valid 0 1 'O' opening4 = some false :=
  ⟨move_valid_rejects opening4 1 1 'X' (by decide) (Or.inl (by decide)),
    move_valid_rejects opening4 0 1 'O' (by decide) (Or.inr (by decide))⟩


/-! ## What the play loop preserves -/

theorem board_walk_loop_preserves (P : boardType → Prop) (dx dy : Int) (tile : Char)
    (action : Int) (hP : ∀ b i j, P b → P (b.setCell i j tile)) :
    ∀ (fuel : Nat) (i j : Int) (e : Nat) (b : boardType) (r : Nat) (b' : boardType),
      board_walk_loop dx dy tile action fuel i j e b = some (r, b') → P b → P b' := by
  intro fuel
  induction fuel with
  | zero => intro i j e b r b' h; simp [board_walk_loop] at h
  | succ f ih =>
    intro i j e b r b' h hb
    unfold board_walk_loop at h
    simp only [] at h
    split_ifs at h with h1 h2 h3 h4
    · simp only [Option.some.injEq, Prod.mk.injEq] at h; rw [← h.2]; exact hb
    · simp only [Option.some.injEq, Prod.mk.injEq] at h; rw [← h.2]; exact hb
    · exact ih _ _ _ _ _ _ h (hP _ _ _ hb)
    · exact ih _ _ _ _ _ _ h hb
    · simp only [Option.some.injEq, Prod.mk.injEq] at h; rw [← h.2]; exact hb

theorem game_put_tile_loop_spec (P : boardType → Prop) (x y : Int) (tile : Char)
    (hP : ∀ b i j, P b → P (b.setCell i j tile)) :
    ∀ (ds : List (Int × Int)) (b : boardType), (∀ d ∈ ds, d.1 ≠ 0 ∨ d.2 ≠ 0) → P b →
      ∃ b', game_put_tile_loop x y tile ds b = some b' ∧ P b' := by
  intro ds
  induction ds with
  | nil => intro b _ hb; exact ⟨b, rfl, hb⟩
  | cons d rest ih =>
    intro b hds hb
    obtain ⟨dx, dy⟩ := d
    have hd := hds (dx, dy) (by simp)
    have hrest : ∀ d ∈ rest, d.1 ≠ 0 ∨ d.2 ≠ 0 := fun d hd => hds d (List.mem_cons_of_mem _ hd)
    obtain ⟨⟨r, b1⟩, hw⟩ :=
      Option.isSome_iff_exists.mp (board_walk_isSome x y dx dy tile b WALK_VALIDATE hd)
    have hb1 : b1 = b := (board_walk_validate _ _ _ _ _ _ _ _ hw).1
    subst hb1
    simp only [game_put_tile_loop, hw]
    by_cases hr : r ≠ 0
    · rw [if_pos hr]
      obtain ⟨⟨r2, b2⟩, hw2⟩ :=
        Option.isSome_iff_exists.mp (board_walk_isSome x y dx dy tile b1 WALK_REPLACE hd)
      simp only [hw2]
      exact ih b2 hrest (board_walk_loop_preserves P dx dy tile _ hP _ _ _ _ _ _ _ hw2 hb)
    · rw [if_neg hr]
      exact ih b1 hrest hb

theorem game_put_tile_spec (P : boardType → Prop) (x y : Int) (g : gameType)
    (hP : ∀ b i j, P b → P (b.setCell i j g.whoseTurn))
    (hb : P (g.board.setCell x y g.whoseTurn)) :
    ∃ b', game_put_tile x y g = some { g with board := b' } ∧ P b' := by
  obtain ⟨b', h1, h2⟩ := game_put_tile_loop_spec P x y g.whoseTurn hP vect
    (g.board.setCell x y g.whoseTurn) vect_ne_zero hb
  exact ⟨b', by simp [game_put_tile, h1], h2⟩

theorem game_update_valid_moves_loop_isSome (g : gameType) :
    ∀ (l : List (Int × Int)) (vm : boardType),
      ∃ vm', game_update_valid_moves_loop g l vm = some vm' := by
  intro l
  induction l with
  | nil => intro vm; exact ⟨vm, rfl⟩
  | cons p rest ih =>
    intro vm
    obtain ⟨i, j⟩ := p
    obtain ⟨r, hr, _⟩ := move_valid_spec i j g.whoseTurn g.board
    simp only [game_update_valid_moves_loop, hr]
    exact ih _

theorem game_update_valid_moves_spec (g : gameType) :
    ∃ vm, game_update_valid_moves g = some { g with validMove := vm }
      ∧ game_update_valid_moves_loop g (cells g.validMove.n) (board_cleanup g.validMove)
        = some vm := by
  obtain ⟨vm, h⟩ := game_update_valid_moves_loop_isSome g (cells g.validMove.n)
    (board_cleanup g.validMove)
  exact ⟨vm, by simp [game_update_valid_moves, h], h⟩

theorem sysMessage_game (msgId : Int) (g : gameType) : (sysMessage msgId g).game = g := by
  unfold sysMessage
  simp only [apply_ite Proc.game, ite_self]

theorem sysMessage_file (msgId : Int) (g : gameType) : (sysMessage msgId g).file = none := by
  unfold sysMessage
  simp only [apply_ite Proc.file, ite_self]

theorem game_next_player_board (g : gameType) : (game_next_player g).board = g.board := by
  unfold game_next_player; split_ifs <;> rfl

theorem game_next_player_turn (g : gameType) :
    (game_next_player g).whoseTurn = 'O' ∨ (game_next_player g).whoseTurn = 'X' := by
  unfold game_next_player; split_ifs <;> simp

theorem place_keeps (P : boardType → Prop)
    (hP : ∀ b i j c, (c = 'O' ∨ c = 'X') → P b → P (b.setCell i j c))
    (x y : Int) (g g' : gameType) (hg : keeps P g) (h : game_put_tile x y g = some g') :
    keeps P { game_next_player g' with passes := 0 } := by
  obtain ⟨b', h1, h2⟩ := game_put_tile_spec P x y g (fun b i j hb => hP b i j _ hg.2 hb)
    (hP _ _ _ _ hg.2 hg.1)
  rw [h1] at h
  simp only [Option.some.injEq] at h
  subst h
  refine ⟨?_, ?_⟩
  · show P (game_next_player _).board
    rw [game_next_player_board]; exact h2
  · exact game_next_player_turn _

theorem player_try_move_keeps (P : boardType → Prop)
    (hP : ∀ b i j c, (c = 'O' ∨ c = 'X') → P b → P (b.setCell i j c))
    (x y : Int) (g : gameType) (p : Proc) (hg : keeps P g)
    (h : player_try_move x y g = some p) : keeps P p.game := by
  unfold player_try_move at h
  split_ifs at h with h1 h2
  · simp only [Option.some.injEq] at h; subst h; exact hg
  · simp only [Option.some.injEq] at h; subst h; exact hg
  · cases hput : game_put_tile x y g with
    | none => simp [hput] at h
    | some g' =>
      simp only [hput, Option.some.injEq] at h
      subst h
      exact place_keeps P hP x y g g' hg hput

theorem ai_turn_keeps (P : boardType → Prop)
    (hP : ∀ b i j c, (c = 'O' ∨ c = 'X') → P b → P (b.setCell i j c))
    (t : Int) (g : gameType) (p : Proc) (hg : keeps P g)
    (h : ai_turn t g = some p) : keeps P p.game := by
  unfold ai_turn at h
  simp only [] at h
  split at h
  · simp at h
  · simp only [Option.some.injEq] at h; subst h; rw [sysMessage_game]; exact hg
  · rename_i x y _
    cases hput : game_put_tile x y g with
    | none => simp [hput] at h
    | some g' =>
      simp only [hput, Option.some.injEq] at h
      subst h
      exact place_keeps P hP x y g g' hg hput

theorem input_turn_keeps (P : boardType → Prop)
    (hP : ∀ b i j c, (c = 'O' ∨ c = 'X') → P b → P (b.setCell i j c))
    (inp : Input) (g : gameType) (p : Proc) (hg : keeps P g)
    (h : input_turn inp g = some p) : keeps P p.game := by
  unfold input_turn at h
  cases inp with
  | eof =>
    simp only [Option.some.injEq] at h; subst h
    show keeps P (sysMessage 10 g).game
    rw [sysMessage_game]; exact hg
  | save fname ok =>
    simp only [Option.some.injEq] at h; subst h
    show keeps P (game_save fname ok g).game
    unfold game_save
    simp only []
    split_ifs <;> (try rw [sysMessage_game]) <;> exact hg
  | move a b =>
    simp only [] at h
    split_ifs at h
    · simp only [Option.some.injEq] at h; subst h; exact hg
    · cases hm : player_try_move a b g with
      | none => simp [hm] at h
      | some q =>
        simp only [hm, Option.some.injEq] at h
        subst h
        exact player_try_move_keeps P hP a b g q hg hm
  | other =>
    simp only [Option.some.injEq] at h; subst h; exact hg

theorem turn_decision_keeps (P : boardType → Prop)
    (hP : ∀ b i j c, (c = 'O' ∨ c = 'X') → P b → P (b.setCell i j c))
    (inp : Input) (g : gameType) (p : Proc) (hg : keeps P g)
    (h : turn_decision inp g = some p) : keeps P p.game := by
  obtain ⟨vm, hvm, _⟩ := game_update_valid_moves_spec g
  unfold turn_decision at h
  simp only [hvm] at h
  have hg1 : keeps P (game_update_scoring { g with validMove := vm }) := hg
  generalize game_update_scoring { g with validMove := vm } = g1 at h hg1
  split_ifs at h with h1 h2 h3 h4
  · simp only [Option.some.injEq] at h; subst h; rw [sysMessage_game]; exact hg1
  · simp only [Option.some.injEq] at h; subst h
    show keeps P (sysMessage 3 _).game
    rw [sysMessage_game]
    exact ⟨by show P (game_next_player g1).board; rw [game_next_player_board]; exact hg1.1,
      game_next_player_turn _⟩
  · simp only [Option.some.injEq] at h; subst h
    exact ⟨by show P (game_next_player g1).board; rw [game_next_player_board]; exact hg1.1,
      game_next_player_turn _⟩
  · exact ai_turn_keeps P hP _ g1 p hg1 h
  · exact ai_turn_keeps P hP _ g1 p hg1 h
  · exact input_turn_keeps P hP inp g1 p hg1 h

theorem board_ini_spec (size : Nat) (b : boardType) (h : board_ini size = some b) :
    b.wf ∧ b.cellsOK ∧ b.n = size := by
  unfold board_ini at h
  simp only [] at h
  split_ifs at h
  simp only [Option.some.injEq] at h
  subst h
  refine ⟨?_, ?_, rfl⟩
  · iterate 4 apply setCell_wf
    refine ⟨by simp, ?_⟩
    intro row hrow
    rw [List.eq_of_mem_replicate hrow]
    simp
  · iterate 4 apply setCell_cellsOK _ _ _ _ _ (by simp)
    intro row hrow c hc
    rw [List.eq_of_mem_replicate hrow] at hc
    left
    exact List.eq_of_mem_replicate hc

theorem parse_setup_spec (argv : List (List Char)) (g : gameType) (p : Proc)
    (h : parse_setup argv g = some p) (hs : p.status = none) :
    ∃ (a : Int) (board validMove : boardType), 3 < a
      ∧ board_ini a.toNat = some board ∧ board_ini a.toNat = some validMove
      ∧ p.game.board = board ∧ p.game.validMove = validMove
      ∧ p.game.whoseTurn = g.whoseTurn ∧ p.game.passes = g.passes := by
  unfold parse_setup at h
  simp only [] at h
  split at h
  · split_ifs at h <;>
      (simp only [Option.some.injEq] at h; subst h; simp [sysMessage] at hs)
  · split_ifs at h <;>
      first
        | (simp only [Option.some.injEq] at h; subst h; simp [sysMessage] at hs)
        | (split at h <;>
            first
              | (simp at h; done)
              | (rename_i board validMove hb hv
                 simp only [Option.some.injEq] at h
                 subst h
                 exact ⟨_, board, validMove, by omega, hb, hv, rfl, rfl, rfl, rfl⟩))


/-! ## The valid-move grid -/

theorem cell_setCell (b : boardType) (hwf : b.wf) (i j a c : Int) (t : Char)
    (hij : inBoard b i j) (hac : inBoard b a c) :
    (b.setCell a c t).cell i j = if i = a ∧ j = c then t else b.cell i j := by
  obtain ⟨h1, h2⟩ := hwf
  obtain ⟨i0, j0, i1, j1⟩ := hij
  obtain ⟨a0, c0, a1, c1⟩ := hac
  by_cases h : i = a ∧ j = c
  · obtain ⟨rfl, rfl⟩ := h
    rw [if_pos ⟨rfl, rfl⟩]
    have hi : i.toNat < b.s.length := by omega
    apply cell_setCell_self b i j t hi
    have hrow : b.s.getD i.toNat [] ∈ b.s := by
      simp [List.getD_eq_getElem?_getD, hi]
    rw [h2 _ hrow]; omega
  · rw [if_neg h]
    apply cell_setCell_of_ne
    by_contra hcon
    push_neg at hcon
    exact h ⟨by omega, by omega⟩

theorem cell_board_cleanup (b : boardType) (hwf : b.wf) (i j : Int) (hij : inBoard b i j) :
    (board_cleanup b).cell i j = '.' := by
  obtain ⟨h1, h2⟩ := hwf
  obtain ⟨i0, j0, i1, j1⟩ := hij
  have hi : i.toNat < b.s.length := by omega
  have hrow : b.s[i.toNat] ∈ b.s := List.getElem_mem hi
  have hlen := h2 _ hrow
  simp only [board_cleanup, boardType.cell, List.getD_eq_getElem?_getD]
  rw [List.take_of_length_le (by omega), List.drop_of_length_le (by omega), List.append_nil]
  simp only [List.getElem?_map, List.getElem?_eq_getElem hi, Option.map_some', Option.getD_some]
  rw [hlen, Nat.min_self, List.drop_of_length_le (by omega), List.append_nil]
  rw [List.getElem?_replicate, if_pos (by omega)]
  rfl

theorem board_cleanup_wf (b : boardType) (hwf : b.wf) :
    (board_cleanup b).wf ∧ (board_cleanup b).n = b.n := by
  obtain ⟨h1, h2⟩ := hwf
  refine ⟨⟨?_, ?_⟩, rfl⟩
  · simp [board_cleanup, h1]
  · intro row hrow
    simp only [board_cleanup] at hrow ⊢
    rw [List.take_of_length_le (by omega), List.drop_of_length_le (by omega),
      List.append_nil] at hrow
    obtain ⟨r, hr, rfl⟩ := List.mem_map.mp hrow
    have := h2 r hr
    simp [this]

theorem game_update_valid_moves_loop_cell (g : gameType) :
    ∀ (l : List (Int × Int)) (vm vm' : boardType), vm.wf →
      (∀ p ∈ l, inBoard vm p.1 p.2) →
      game_update_valid_moves_loop g l vm = some vm' →
      vm'.wf ∧ vm'.n = vm.n ∧ ∀ i j, inBoard vm i j →
        vm'.cell i j =
          if (i, j) ∈ l ∧ move_valid i j g.whoseTurn g.board = some true then g.whoseTurn
          else vm.cell i j := by
  intro l
  induction l with
  | nil =>
    intro vm vm' hwf _ h
    simp only [game_update_valid_moves_loop, Option.some.injEq] at h
    subst h
    exact ⟨hwf, rfl, fun i j _ => by simp⟩
  | cons p rest ih =>
    intro vm vm' hwf hl h
    obtain ⟨a, c⟩ := p
    have hac : inBoard vm a c := hl (a, c) (by simp)
    obtain ⟨r, hr, _⟩ := move_valid_spec a c g.whoseTurn g.board
    simp only [game_update_valid_moves_loop, hr] at h
    have hwf1 : (if r = true then vm.setCell a c g.whoseTurn else vm).wf := by
      split_ifs
      · exact setCell_wf _ _ _ _ hwf
      · exact hwf
    have hn1 : (if r = true then vm.setCell a c g.whoseTurn else vm).n = vm.n := by
      split_ifs <;> rfl
    have hl1 : ∀ p ∈ rest,
        inBoard (if r = true then vm.setCell a c g.whoseTurn else vm) p.1 p.2 := by
      intro p hp
      have := hl p (List.mem_cons_of_mem _ hp)
      unfold inBoard at this ⊢
      rw [hn1]; exact this
    obtain ⟨hwf', hn', hcell⟩ := ih _ vm' hwf1 hl1 h
    refine ⟨hwf', by rw [hn', hn1], ?_⟩
    intro i j hij
    have hij1 : inBoard (if r = true then vm.setCell a c g.whoseTurn else vm) i j := by
      unfold inBoard at hij ⊢
      rw [hn1]; exact hij
    rw [hcell i j hij1]
    by_cases hrest : (i, j) ∈ rest ∧ move_valid i j g.whoseTurn g.board = some true
    · rw [if_pos hrest, if_pos ⟨List.mem_cons_of_mem _ hrest.1, hrest.2⟩]
    · rw [if_neg hrest]
      by_cases heq : i = a ∧ j = c
      · obtain ⟨rfl, rfl⟩ := heq
        cases r with
        | true =>
          simp only [if_true]
          rw [cell_setCell vm hwf i j i j _ hij hij]
          simp [hr]
        | false =>
          simp only [Bool.false_eq_true, if_false]
          rw [if_neg]
          rintro ⟨_, h2⟩
          rw [hr] at h2
          simp at h2
      · have hne : ¬ ((i, j) ∈ (a, c) :: rest
            ∧ move_valid i j g.whoseTurn g.board = some true) := by
          rintro ⟨h1, h2⟩
          rcases List.mem_cons.mp h1 with h1 | h1
          · simp only [Prod.mk.injEq] at h1; exact heq h1
          · exact hrest ⟨h1, h2⟩
        rw [if_neg hne]
        split_ifs
        · rw [cell_setCell vm hwf i j a c _ hij hac, if_neg heq]
        · rfl

/-- After `game_update_valid_moves`, only `validMove` has changed; it is again `n` by `n`
and marks exactly the cells for which `move_valid` holds. -/
theorem game_update_valid_moves_cells (g : gameType) (hwf : g.validMove.wf) :
    ∃ vm, game_update_valid_moves g = some { g with validMove := vm }
      ∧ vm.wf ∧ vm.n = g.validMove.n
      ∧ ∀ i j, inBoard g.validMove i j →
        vm.cell i j =
          if move_valid i j g.whoseTurn g.board = some true then g.whoseTurn else '.' := by
  obtain ⟨vm, h1, h2⟩ := game_update_valid_moves_spec g
  obtain ⟨hcw, hcn⟩ := board_cleanup_wf g.validMove hwf
  have hl : ∀ p ∈ cells g.validMove.n, inBoard (board_cleanup g.validMove) p.1 p.2 := by
    intro p hp
    have := (mem_cells _ _).mp hp
    unfold inBoard
    rw [hcn]; exact this
  obtain ⟨hw, hn, hc⟩ := game_update_valid_moves_loop_cell g _ _ vm hcw hl h2
  refine ⟨vm, h1, hw, by rw [hn, hcn], ?_⟩
  intro i j hij
  have hij' : inBoard (board_cleanup g.validMove) i j := by
    unfold inBoard at hij ⊢
    rw [hcn]; exact hij
  rw [hc i j hij', cell_board_cleanup _ hwf i j hij]
  have hmem : (i, j) ∈ cells g.validMove.n := (mem_cells _ _).mpr hij
  simp [hmem]


/-! ## Human moves -/

theorem toUnsigned_of_range (v : Int) (h0 : 0 ≤ v) (h1 : v < 4294967296) :
    (toUnsigned v : Int) = v := by
  unfold toUnsigned
  rw [Int.emod_eq_of_lt h0 h1]
  omega

/-- C5, counterexample: with the turn byte `.` (a state that `flip load` gives for a file
holding this byte) the recomputed valid-move grid is all `.`, so it marks every cell for
the current turn byte; `player_try_move` at the occupied cell `(1, 1)` does not leave the
state as it was: the `O` tile there is overwritten by `.` and the turn goes to `X`. -/
theorem player_try_move_dot_turn :
    (main [['f', 'l', 'i', 'p'], ['l', 'o', 'a', 'd'], ['s']]
        (some (game_save_bytes dotTurn4)) blank).map
        (fun p => (p.status, p.game.whoseTurn, p.game.board.s))
      = some (none, '.', dotTurn4.board.s)
    ∧ (game_update_valid_moves dotTurn4).map
        (fun g1 => (g1.board.cell 1 1, g1.validMove.cell 1 1, g1.whoseTurn))
      = some ('O', '.', '.')
    ∧ ((game_update_valid_moves dotTurn4).bind (player_try_move 1 1)).map
        (fun p => (p.game.board.cell 1 1, p.game.whoseTurn))
      = some ('.', 'X')
    ∧ (turn_decision (Input.move 1 1) dotTurn4).map
        (fun p => (p.game.board.s, p.game.whoseTurn))
      = some ([['.', '.', '.', '.'], ['.', '.', 'X', '.'], ['.', 'X', 'O', '.'],
          ['.', '.', '.', '.']], 'X') := by
  decide

/-- C5, as amended: when the current-turn byte is not `.`, once the valid moves have been
recomputed, `player_try_move` on a position `(x, y)` with `x, y ≥ 0` that is out of bounds,
or occupied, or not marked for the current player in the valid-move grid, returns with the
game state as it was and prints nothing. -/
theorem player_try_move_ignores (g g1 : gameType) (hwf : g.wf) (hn : 0 < g.board.n)
    (hn32 : g.board.n < 4294967296) (hturn : g.whoseTurn ≠ '.')
    (hupd : game_update_valid_moves g = some g1) (x y : Int) (hx : 0 ≤ x) (hy : 0 ≤ y)
    (hxi : x ≤ INT_MAX) (hyi : y ≤ INT_MAX)
    (h : (x ≥ g1.board.n ∨ y ≥ g1.board.n) ∨ g1.board.cell x y ≠ '.'
      ∨ g1.validMove.cell x y ≠ g1.whoseTurn) :
    player_try_move x y g1 = some { game := g1, out := [], status := none, file := none } := by
  obtain ⟨hb, hv, hvn⟩ := hwf
  obtain ⟨vm, h1, _, _, hcell⟩ := game_update_valid_moves_cells g hv
  rw [h1] at hupd
  simp only [Option.some.injEq] at hupd
  subst hupd
  simp only [INT_MAX] at hxi hyi
  have ux := toUnsigned_of_range x hx (by omega)
  have uy := toUnsigned_of_range y hy (by omega)
  have un := toUnsigned_of_range ((g.board.n : Int) - 1) (by omega) (by omega)
  unfold player_try_move
  simp only []
  by_cases hc : toUnsigned x > toUnsigned ((g.board.n : Int) - 1)
      ∨ toUnsigned y > toUnsigned ((g.board.n : Int) - 1)
  · rw [if_pos hc]
  · rw [if_neg hc]
    have hin : inBoard g.validMove x y := by
      unfold inBoard
      rw [hvn]
      omega
    have hne : vm.cell x y ≠ g.whoseTurn := by
      rcases h with h | h | h
      · exfalso; simp only [] at h; omega
      · have hmv : move_valid x y g.whoseTurn g.board = some false := by
          simp only [] at h
          simp [move_valid, h]
        rw [hcell x y hin, hmv]
        simpa using fun e => hturn e.symm
      · exact h
    rw [if_pos hne]

theorem player_try_move_ignores_witness :
    player_try_move 4 0 new4_ready
        = some { game := new4_ready, out := [], status := none, file := none }
      ∧ player_try_move 1 1 new4_ready
        = some { game := new4_ready, out := [], status := none, file := none }
      ∧ player_try_move 0 1 new4_ready
        = some { game := new4_ready, out := [], status := none, file := none } :=
  ⟨player_try_move_ignores new4 new4_ready (by decide) (by decide) (by decide) (by decide)
      (by decide) 4 0 (by decide) (by decide) (by decide) (by decide) (Or.inl (by decide)),
    player_try_move_ignores new4 new4_ready (by decide) (by decide) (by decide) (by decide)
      (by decide) 1 1 (by decide) (by decide) (by decide) (by decide)
      (Or.inr (Or.inl (by decide))),
    player_try_move_ignores new4 new4_ready (by decide) (by decide) (by decide) (by decide)
      (by decide) 0 1 (by decide) (by decide) (by decide) (by decide)
      (Or.inr (Or.inr (by decide)))⟩


/-! ## The scan of the AI players -/

theorem ai_turn_loop_forward (g : gameType) (n : Nat) (hn : g.validMove.n = n) :
    ∀ (fuel : Nat) (x y : Int), 0 ≤ x → x < n → 0 ≤ y → y < n →
      ((n : Int) - 1 - x) * n + (n - 1 - y) < fuel →
      ∃ r, ai_turn_loop n 1 g fuel x y = some r ∧
        match r with
        | some (a, b) => marked g a b ∧ posLE x y a b
            ∧ ∀ i j, marked g i j → posLE x y i j → posLE a b i j
        | none => ∀ i j, marked g i j → ¬ posLE x y i j := by
  intro fuel
  induction fuel with
  | zero =>
    intro x y hx0 hx1 hy0 hy1 hf
    exfalso
    have : 0 ≤ ((n : Int) - 1 - x) * n := mul_nonneg (by omega) (by omega)
    simp only [Nat.cast_zero] at hf
    omega
  | succ f ih =>
    intro x y hx0 hx1 hy0 hy1 hf
    unfold ai_turn_loop
    by_cases hm : g.validMove.cell x y = g.whoseTurn
    · rw [if_pos hm]
      refine ⟨some (x, y), rfl, ⟨⟨?_, hm⟩, Or.inr ⟨rfl, le_refl _⟩, fun i j _ h => h⟩⟩
      unfold inBoard; rw [hn]; omega
    · rw [if_neg hm]
      simp only []
      have hy1' : ¬ (y + 1 < 0) := by omega
      simp only [if_neg hy1']
      have hnot : ∀ i j, marked g i j → ¬ (i = x ∧ j = y) := by
        rintro i j ⟨_, hc⟩ ⟨rfl, rfl⟩
        exact hm hc
      by_cases hw : y + 1 ≥ (n : Int)
      · simp only [if_pos hw]
        by_cases hx : x + 1 < 0 ∨ x + 1 ≥ (n : Int)
        · rw [if_pos hx]
          refine ⟨none, rfl, ?_⟩
          intro i j hmk hle
          have hne := hnot i j hmk
          obtain ⟨⟨_, _, hi, hj⟩, _⟩ := hmk
          rw [hn] at hi hj
          unfold posLE at hle
          omega
        · rw [if_neg hx]
          have e : ((n : Int) - 1 - (x + 1)) * n = ((n : Int) - 1 - x) * n - n := by ring
          obtain ⟨r, hr, hspec⟩ := ih (x + 1) 0 (by omega) (by omega) (by omega) (by omega)
            (by rw [e]; push_cast at hf; omega)
          refine ⟨r, hr, ?_⟩
          cases r with
          | none =>
            intro i j hmk hle
            have hne := hnot i j hmk
            have := hspec i j hmk
            obtain ⟨⟨_, hj0, hi, hj⟩, _⟩ := hmk
            rw [hn] at hi hj
            unfold posLE at hle this
            omega
          | some ab =>
            obtain ⟨a, b⟩ := ab
            obtain ⟨h1, h2, h3⟩ := hspec
            refine ⟨h1, ?_, ?_⟩
            · unfold posLE at h2 ⊢; omega
            · intro i j hmk hle
              apply h3 i j hmk
              have hne := hnot i j hmk
              obtain ⟨⟨_, hj0, hi, hj⟩, _⟩ := hmk
              rw [hn] at hi hj
              unfold posLE at hle ⊢
              omega
      · simp only [if_neg hw]
        have hx : ¬ (x < 0 ∨ x ≥ (n : Int)) := by omega
        rw [if_neg hx]
        obtain ⟨r, hr, hspec⟩ := ih x (y + 1) hx0 hx1 (by omega) (by omega)
          (by push_cast at hf; omega)
        refine ⟨r, hr, ?_⟩
        cases r with
        | none =>
          intro i j hmk hle
          have hne := hnot i j hmk
          have := hspec i j hmk
          unfold posLE at hle this
          omega
        | some ab =>
          obtain ⟨a, b⟩ := ab
          obtain ⟨h1, h2, h3⟩ := hspec
          refine ⟨h1, ?_, ?_⟩
          · unfold posLE at h2 ⊢; omega
          · intro i j hmk hle
            apply h3 i j hmk
            have hne := hnot i j hmk
            unfold posLE at hle ⊢
            omega

theorem ai_turn_loop_backward (g : gameType) (n : Nat) (hn : g.validMove.n = n) :
    ∀ (fuel : Nat) (x y : Int), 0 ≤ x → x < n → 0 ≤ y → y < n →
      x * n + y < fuel →
      ∃ r, ai_turn_loop n (-1) g fuel x y = some r ∧
        match r with
        | some (a, b) => marked g a b ∧ posLE a b x y
            ∧ ∀ i j, marked g i j → posLE i j x y → posLE i j a b
        | none => ∀ i j, marked g i j → ¬ posLE i j x y := by
  intro fuel
  induction fuel with
  | zero =>
    intro x y hx0 hx1 hy0 hy1 hf
    exfalso
    have : 0 ≤ x * n := mul_nonneg (by omega) (by omega)
    simp only [Nat.cast_zero] at hf
    omega
  | succ f ih =>
    intro x y hx0 hx1 hy0 hy1 hf
    unfold ai_turn_loop
    by_cases hm : g.validMove.cell x y = g.whoseTurn
    · rw [if_pos hm]
      refine ⟨some (x, y), rfl, ⟨⟨?_, hm⟩, Or.inr ⟨rfl, le_refl _⟩, fun i j _ h => h⟩⟩
      unfold inBoard; rw [hn]; omega
    · rw [if_neg hm]
      simp only []
      have hnot : ∀ i j, marked g i j → ¬ (i = x ∧ j = y) := by
        rintro i j ⟨_, hc⟩ ⟨rfl, rfl⟩
        exact hm hc
      by_cases hw : y + -1 < 0
      · simp only [if_pos hw]
        by_cases hx : x - 1 < 0 ∨ x - 1 ≥ (n : Int)
        · rw [if_pos hx]
          refine ⟨none, rfl, ?_⟩
          intro i j hmk hle
          have hne := hnot i j hmk
          obtain ⟨⟨hi, hj, _, _⟩, _⟩ := hmk
          unfold posLE at hle
          omega
        · rw [if_neg hx]
          have e : (x - 1) * (n : Int) = x * n - n := by ring
          obtain ⟨r, hr, hspec⟩ := ih (x - 1) (n - 1) (by omega) (by omega) (by omega)
            (by omega) (by rw [e]; push_cast at hf; omega)
          refine ⟨r, hr, ?_⟩
          cases r with
          | none =>
            intro i j hmk hle
            have hne := hnot i j hmk
            have := hspec i j hmk
            obtain ⟨⟨hi0, hj0, hi, hj⟩, _⟩ := hmk
            rw [hn] at hi hj
            unfold posLE at hle this
            omega
          | some ab =>
            obtain ⟨a, b⟩ := ab
            obtain ⟨h1, h2, h3⟩ := hspec
            refine ⟨h1, ?_, ?_⟩
            · unfold posLE at h2 ⊢; omega
            · intro i j hmk hle
              apply h3 i j hmk
              have hne := hnot i j hmk
              obtain ⟨⟨hi0, hj0, hi, hj⟩, _⟩ := hmk
              rw [hn] at hi hj
              unfold posLE at hle ⊢
              omega
      · simp only [if_neg hw]
        have hw2 : ¬ (y + -1 ≥ (n : Int)) := by omega
        simp only [if_neg hw2]
        have hx : ¬ (x < 0 ∨ x ≥ (n : Int)) := by omega
        rw [if_neg hx]
        obtain ⟨r, hr, hspec⟩ := ih x (y + -1) hx0 hx1 (by omega) (by omega)
          (by push_cast at hf; omega)
        refine ⟨r, hr, ?_⟩
        cases r with
        | none =>
          intro i j hmk hle
          have hne := hnot i j hmk
          have := hspec i j hmk
          unfold posLE at hle this
          omega
        | some ab =>
          obtain ⟨a, b⟩ := ab
          obtain ⟨h1, h2, h3⟩ := hspec
          refine ⟨h1, ?_, ?_⟩
          · unfold posLE at h2 ⊢; omega
          · intro i j hmk hle
            apply h3 i j hmk
            have hne := hnot i j hmk
            unfold posLE at hle ⊢
            omega


/-! ## Game over and passes -/

theorem scoring_fold_counts (f : Int × Int → Char) :
    ∀ (l : List (Int × Int)) (acc : Int × Int),
      l.foldl (fun (acc : Int × Int) p =>
          if f p = 'O' then (acc.1 + 1, acc.2)
          else if f p = 'X' then (acc.1, acc.2 + 1) else acc) acc
      = (acc.1 + (l.countP (fun p => f p = 'O') : Nat),
          acc.2 + (l.countP (fun p => f p = 'X') : Nat)) := by
  intro l
  induction l with
  | nil => intro acc; simp
  | cons p rest ih =>
    intro acc
    simp only [List.foldl_cons, List.countP_cons]
    rw [ih]
    by_cases hO : f p = 'O'
    · have hX : f p ≠ 'X' := by rw [hO]; decide
      simp [hO]
      ring
    · by_cases hX : f p = 'X'
      · simp [hX]
        ring
      · simp [hO, hX]

theorem game_update_scoring_counts (g : gameType) :
    game_update_scoring g
      = { g with scoreO := countCells 'O' g.board, scoreX := countCells 'X' g.board } := by
  unfold game_update_scoring countCells
  simp only []
  rw [scoring_fold_counts (fun p => g.board.cell p.1 p.2)]
  simp

theorem board_missing_char_iff (c : Char) (b : boardType) :
    board_missing_char c b = true ↔ ∀ p ∈ cells b.n, b.cell p.1 p.2 ≠ c := by
  unfold board_missing_char
  simp [List.any_eq_true]

theorem countCells_le (c : Char) (b : boardType) : countCells c b ≤ b.n * b.n := by
  unfold countCells
  exact Nat.le_trans (List.countP_le_length _) (le_of_eq (length_cells b.n))

theorem game_next_player_switch (g : gameType) :
    (g.whoseTurn = 'O' → (game_next_player g).whoseTurn = 'X')
      ∧ (g.whoseTurn = 'X' → (game_next_player g).whoseTurn = 'O') := by
  unfold game_next_player
  constructor
  · intro h; rw [if_neg (by rw [h]; decide)]
  · intro h; rw [if_pos h]

theorem game_next_player_passes (g : gameType) : (game_next_player g).passes = g.passes := by
  unfold game_next_player; split_ifs <;> rfl

theorem game_next_player_validMove (g : gameType) :
    (game_next_player g).validMove = g.validMove := by
  unfold game_next_player; split_ifs <;> rfl

theorem game_next_player_scores (g : gameType) :
    (game_next_player g).scoreO = g.scoreO ∧ (game_next_player g).scoreX = g.scoreX := by
  unfold game_next_player; split_ifs <;> exact ⟨rfl, rfl⟩

/-- A turn on which the current player has no legal move and the board is not full: what
`turn_decision` returns. -/
theorem turn_decision_pass (g : gameType) (hwf : g.wf) (hturn : g.whoseTurn ≠ '.')
    (hnf : ¬ boardFull g.board) (hno : noLegalMove g.board g.whoseTurn) (inp : Input) :
    ∃ vm game1, vm.wf ∧ vm.n = g.validMove.n
      ∧ game1 = { game_next_player
            { g with validMove := vm, scoreO := countCells 'O' g.board,
                     scoreX := countCells 'X' g.board } with passes := g.passes + 1 }
      ∧ turn_decision inp g = some
          (if g.passes + 1 > 1 then
            { game := game1,
              out := [Out.passes g.whoseTurn,
                Out.gameOver (countCells 'O' g.board) (countCells 'X' g.board)],
              status := some 0, file := none }
          else { game := game1, out := [Out.passes g.whoseTurn], status := none, file := none }) := by
  obtain ⟨_, hv, hvn⟩ := hwf
  obtain ⟨vm, hvm, hvw, hvmn, hcell⟩ := game_update_valid_moves_cells g hv
  refine ⟨vm, _, hvw, hvmn, rfl, ?_⟩
  have h1 : ¬ board_missing_char '.' g.board = true := by
    rw [board_missing_char_iff]; exact hnf
  have h2 : board_missing_char g.whoseTurn vm = true := by
    rw [board_missing_char_iff]
    intro p hp
    rw [hvmn] at hp
    have hin : inBoard g.validMove p.1 p.2 := (mem_cells _ _).mp hp
    rw [hcell p.1 p.2 hin]
    obtain ⟨r, hr, hspec⟩ := move_valid_spec p.1 p.2 g.whoseTurn g.board
    cases r with
    | true =>
      exfalso
      rw [hvn] at hp
      exact hno p hp (hspec rfl)
    | false =>
      rw [hr]
      simpa using fun e => hturn e.symm
  unfold turn_decision
  simp only [hvm]
  rw [game_update_scoring_counts]
  simp only []
  rw [if_neg h1, if_pos h2]
  by_cases hp : g.passes + 1 > 1
  · rw [if_pos hp, if_pos hp]
    simp [sysMessage, game_next_player_scores]
  · rw [if_neg hp, if_neg hp]

theorem cell_setCell_keep (b : boardType) (i j x y : Int) (t : Char) :
    (b.setCell i j t).cell x y = t ∨ (b.setCell i j t).cell x y = b.cell x y := by
  by_cases h : x.toNat ≠ i.toNat ∨ y.toNat ≠ j.toNat
  · exact Or.inr (cell_setCell_of_ne b i j x y t h)
  · push_neg at h
    obtain ⟨h1, h2⟩ := h
    unfold boardType.setCell boardType.cell
    simp only [List.getD_eq_getElem?_getD, h1, h2]
    by_cases hi : i.toNat < b.s.length
    · simp only [List.getElem?_set, hi, if_true, List.getElem?_eq_getElem, Option.getD_some]
      by_cases hj : j.toNat < (b.s[i.toNat]).length
      · left; simp [List.getElem?_set, hj]
      · right
        have : (b.s[i.toNat])[j.toNat]? = none := List.getElem?_eq_none (by omega)
        simp [List.getElem?_set, hj, this]
    · right
      have : b.s[i.toNat]? = none := List.getElem?_eq_none (by omega)
      simp [List.getElem?_set, this, hi]

theorem game_put_tile_frame (x y : Int) (g : gameType) (hwf : g.board.wf)
    (hin : inBoard g.board x y) :
    ∃ b', game_put_tile x y g = some { g with board := b' } ∧ b'.wf ∧ b'.n = g.board.n
      ∧ b'.cell x y = g.whoseTurn := by
  apply game_put_tile_spec
    (fun b => b.wf ∧ b.n = g.board.n ∧ b.cell x y = g.whoseTurn) x y g
  · rintro b i j ⟨h1, h2, h3⟩
    refine ⟨setCell_wf b i j _ h1, by rw [setCell_n, h2], ?_⟩
    rcases cell_setCell_keep b i j x y g.whoseTurn with h | h
    · exact h
    · rw [h, h3]
  · refine ⟨setCell_wf _ _ _ _ hwf, rfl, ?_⟩
    rw [cell_setCell g.board hwf x y x y _ hin hin]
    simp

theorem game_put_tile_total (x y : Int) (g : gameType) :
    ∃ b', game_put_tile x y g = some { g with board := b' } := by
  obtain ⟨b', h, _⟩ := game_put_tile_spec (fun _ => True) x y g (fun _ _ _ _ => trivial) trivial
  exact ⟨b', h⟩

/-- With a marked cell in the valid-move grid, `ai_turn` stops at the first marked cell
of its scan and places a tile there. -/
theorem ai_turn_spec (g : gameType) (t : Int) (hex : ∃ i j, marked g i j) :
    ∃ x y b', marked g x y
      ∧ (t = 1 → ∀ i j, marked g i j → posLE x y i j)
      ∧ (t ≠ 1 → ∀ i j, marked g i j → posLE i j x y)
      ∧ game_put_tile x y g = some { g with board := b' }
      ∧ ai_turn t g = some
          { game := { game_next_player { g with board := b' } with passes := 0 },
            out := [Out.moves g.whoseTurn x y, board_print b'],
            status := none, file := none } := by
  obtain ⟨i0, j0, hm0⟩ := hex
  have hm0' := hm0
  obtain ⟨⟨hi0, hj0, hi1, hj1⟩, _⟩ := hm0'
  have hn : (1 : Int) ≤ g.validMove.n := by omega
  by_cases ht : t = 1
  · have e : ((g.validMove.n : Int) - 1 - 0) * g.validMove.n + (g.validMove.n - 1 - 0)
        < ((g.validMove.n * g.validMove.n + 1 : Nat) : Int) := by
      push_cast
      simp only [sub_zero]
      have : ((g.validMove.n : Int) - 1) * g.validMove.n
          = (g.validMove.n : Int) * g.validMove.n - g.validMove.n := by ring
      omega
    obtain ⟨r, hr, hspec⟩ := ai_turn_loop_forward g g.validMove.n rfl _ 0 0 (le_refl _)
      (by omega) (le_refl _) (by omega) e
    cases r with
    | none =>
      exfalso
      apply hspec i0 j0 hm0
      unfold posLE; omega
    | some ab =>
      obtain ⟨a, b⟩ := ab
      obtain ⟨h1, _, h3⟩ := hspec
      obtain ⟨b', hput⟩ := game_put_tile_total a b g
      refine ⟨a, b, b', h1, ?_, fun h => absurd ht h, hput, ?_⟩
      · intro _ i j hm
        apply h3 i j hm
        obtain ⟨⟨hi, hj, _, _⟩, _⟩ := hm
        unfold posLE; omega
      · unfold ai_turn
        simp only [if_pos ht, hr, hput]
  · have e : ((g.validMove.n : Int) - 1) * g.validMove.n + (g.validMove.n - 1)
        < ((g.validMove.n * g.validMove.n + 1 : Nat) : Int) := by
      push_cast
      have : ((g.validMove.n : Int) - 1) * g.validMove.n
          = (g.validMove.n : Int) * g.validMove.n - g.validMove.n := by ring
      omega
    obtain ⟨r, hr, hspec⟩ := ai_turn_loop_backward g g.validMove.n rfl _
      ((g.validMove.n : Int) - 1) ((g.validMove.n : Int) - 1) (by omega) (by omega)
      (by omega) (by omega) e
    cases r with
    | none =>
      exfalso
      apply hspec i0 j0 hm0
      unfold posLE; omega
    | some ab =>
      obtain ⟨a, b⟩ := ab
      obtain ⟨h1, _, h3⟩ := hspec
      obtain ⟨b', hput⟩ := game_put_tile_total a b g
      refine ⟨a, b, b', h1, fun h => absurd h ht, ?_, hput, ?_⟩
      · intro _ i j hm
        apply h3 i j hm
        obtain ⟨⟨_, _, hi, hj⟩, _⟩ := hm
        unfold posLE; omega
      · unfold ai_turn
        simp only [if_neg ht, hr, hput]

/-- C9: when the valid-move grid holds a cell marked for the current player, `ai_turn`
places the tile of the current player on the first marked cell of its scan: in mode 1
the marked cell that is least in the order `(0,0), (0,1), ..., (N-1,N-1)`, in mode 2 the
marked cell that is greatest in that order. -/
theorem ai_turn_first_marked (g : gameType) (hwf : g.wf) (t : Int)
    (hex : ∃ i j, marked g i j) :
    ∃ x y p, ai_turn t g = some p ∧ p.status = none ∧ marked g x y
      ∧ (t = 1 → ∀ i j, marked g i j → posLE x y i j)
      ∧ (t = 2 → ∀ i j, marked g i j → posLE i j x y)
      ∧ p.game.board.cell x y = g.whoseTurn
      ∧ p.out = [Out.moves g.whoseTurn x y, board_print p.game.board] := by
  obtain ⟨x, y, b', hm, h1, h2, hput, hai⟩ := ai_turn_spec g t hex
  have hin : inBoard g.board x y := by
    have := hm.1
    unfold inBoard at this ⊢
    rw [← hwf.2.2]; exact this
  obtain ⟨b'', hput', _, _, hcell⟩ := game_put_tile_frame x y g hwf.1 hin
  rw [hput] at hput'
  simp only [Option.some.injEq, gameType.mk.injEq, true_and, and_true] at hput'
  subst hput'
  refine ⟨x, y, _, hai, rfl, hm, h1, ?_, ?_, ?_⟩
  · intro h; exact h2 (by rw [h]; decide)
  · show (game_next_player _).board.cell x y = _
    rw [game_next_player_board]; exact hcell
  · show _ = [_, board_print (game_next_player _).board]
    rw [game_next_player_board]

theorem ai_turn_first_marked_witness :
    ∃ x y p, ai_turn 2 new4_ready = some p ∧ p.status = none ∧ marked new4_ready x y
      ∧ ((2 : Int) = 1 → ∀ i j, marked new4_ready i j → posLE x y i j)
      ∧ ((2 : Int) = 2 → ∀ i j, marked new4_ready i j → posLE i j x y)
      ∧ p.game.board.cell x y = new4_ready.whoseTurn
      ∧ p.out = [Out.moves new4_ready.whoseTurn x y, board_print p.game.board] :=
  ai_turn_first_marked new4_ready (by decide) 2 ⟨0, 2, by decide⟩


/-! ## Transitions of the turn state machine -/

theorem player_try_move_legal (g : gameType) (hwf : g.wf) (hn32 : g.board.n < 4294967296)
    (x y : Int) (hm : marked g x y) :
    ∃ b', game_put_tile x y g = some { g with board := b' }
      ∧ player_try_move x y g = some
          { game := { game_next_player { g with board := b' } with passes := 0 },
            out := [board_print b'], status := none, file := none } := by
  obtain ⟨b', hput⟩ := game_put_tile_total x y g
  refine ⟨b', hput, ?_⟩
  obtain ⟨⟨hx0, hy0, hx1, hy1⟩, hc⟩ := hm
  rw [hwf.2.2] at hx1 hy1
  have ux := toUnsigned_of_range x hx0 (by omega)
  have uy := toUnsigned_of_range y hy0 (by omega)
  have un := toUnsigned_of_range ((g.board.n : Int) - 1) (by omega) (by omega)
  unfold player_try_move
  rw [if_neg (by omega), if_neg (by simpa using hc)]
  simp only [hput]

set_option maxRecDepth 100000 in
theorem toNat_ofNat_byte : ∀ b, b < 256 → (Char.ofNat b).toNat = b := by decide

theorem bytesWord_wordBytes (u : Nat) (h : u < 4294967296) : bytesWord (wordBytes u) = u := by
  unfold bytesWord wordBytes
  simp only [List.getD_cons_zero, List.getD_cons_succ]
  rw [toNat_ofNat_byte _ (Nat.mod_lt _ (by decide)), toNat_ofNat_byte _ (Nat.mod_lt _ (by decide)),
    toNat_ofNat_byte _ (Nat.mod_lt _ (by decide)), toNat_ofNat_byte _ (Nat.mod_lt _ (by decide))]
  omega

theorem bytesWord_append (a b c d : Char) (rest : List Char) :
    bytesWord (a :: b :: c :: d :: rest) = bytesWord [a, b, c, d] := by
  simp [bytesWord]

theorem bytesInt_intBytes (v : Int) (h0 : -2147483648 ≤ v) (h1 : v < 2147483648) :
    bytesInt (intBytes v) = v := by
  unfold bytesInt intBytes
  have hlt : (v % 4294967296).toNat < 4294967296 := by omega
  rw [bytesWord_wordBytes _ hlt]
  split_ifs <;> omega

theorem game_load_rows_flatten (n : Nat) :
    ∀ (rows0 rows : List (List Char)) (rest : List Char), rows0.length = rows.length →
      (∀ r ∈ rows0, r.length ≤ n) → (∀ r ∈ rows, r.length = n) →
      game_load_rows n rows0 (rows.flatten ++ rest) = rows := by
  intro rows0
  induction rows0 with
  | nil =>
    intro rows rest hl _ _
    cases rows with
    | nil => rfl
    | cons _ _ => simp at hl
  | cons r0 rs0 ih =>
    intro rows rest hl h0 h
    cases rows with
    | nil => simp at hl
    | cons r rs =>
      have hr : r.length = n := h r (by simp)
      have hr0 : r0.length ≤ n := h0 r0 (by simp)
      simp only [game_load_rows, List.flatten_cons, List.append_assoc]
      have htake : (r ++ (rs.flatten ++ rest)).take n = r := by
        rw [← hr]; exact List.take_left' rfl
      have hdrop : (r ++ (rs.flatten ++ rest)).drop n = rs.flatten ++ rest := by
        rw [← hr]; exact List.drop_left' rfl
      rw [hdrop, ih rs rest (by simpa using hl) (fun q hq => h0 q (List.mem_cons_of_mem _ hq))
        (fun q hq => h q (List.mem_cons_of_mem _ hq))]
      unfold fread
      rw [htake, List.drop_of_length_le (by omega), List.append_nil]

theorem board_ini_some (n : Nat) (h2 : 2 ≤ n) (h32 : n < 4294967296) :
    ∃ b, board_ini n = some b := by
  unfold board_ini
  simp only []
  have : ((n : Int) - 1) % 4294967296 = (n : Int) - 1 := Int.emod_eq_of_lt (by omega) (by omega)
  rw [this, if_pos (by omega)]
  exact ⟨_, rfl⟩

theorem save_rows_flatten (b : boardType) (hwf : b.wf) :
    ((b.s.take b.n).map (fun row => row.take b.n)).flatten = b.s.flatten := by
  obtain ⟨h1, h2⟩ := hwf
  rw [List.take_of_length_le (by omega)]
  congr 1
  conv_rhs => rw [← List.map_id b.s]
  apply List.map_congr_left
  intro r hr
  rw [List.take_of_length_le (by rw [h2 r hr])]
  rfl

/-- C4: loading the bytes that `game_save` writes for a game state gives back the same
side `N`, the same `N × N` cells, the same pass counter, the same AI mode of each player
and the same current-turn byte, for any board contents and any values of these fields.
The board is `N` rows of `N` cells with `N ≥ 2`, as is every board that `board_ini`
builds, and the fields fit their C types. -/
theorem load_save_roundtrip (g g0 : gameType) (fname : List Char) (hf : fname ≠ [])
    (hwf : g.board.wf) (h2 : 2 ≤ g.board.n) (h32 : g.board.n < 4294967296)
    (hp : -2147483648 ≤ g.passes ∧ g.passes < 2147483648)
    (hO : -2147483648 ≤ g.pTypeO ∧ g.pTypeO < 2147483648)
    (hX : -2147483648 ≤ g.pTypeX ∧ g.pTypeX < 2147483648) :
    ∃ p, game_load fname (some (game_save_bytes g)) g0 = some p ∧ p.status = none
      ∧ p.game.board.n = g.board.n ∧ p.game.board.s = g.board.s
      ∧ p.game.passes = g.passes ∧ p.game.pTypeO = g.pTypeO ∧ p.game.pTypeX = g.pTypeX
      ∧ p.game.whoseTurn = g.whoseTurn := by
  obtain ⟨b0, hb0⟩ := board_ini_some g.board.n h2 h32
  obtain ⟨hb0wf, _, hb0n⟩ := board_ini_spec _ _ hb0
  have hlen : fname.length ≠ 0 := by
    intro h; exact hf (List.length_eq_zero.mp h)
  have hmod : g.board.n % 4294967296 = g.board.n := Nat.mod_eq_of_lt h32
  have hn : bytesWord (wordBytes (g.board.n % 4294967296)) = g.board.n := by
    rw [bytesWord_wordBytes _ (Nat.mod_lt _ (by decide)), hmod]
  have e1 := bytesInt_intBytes g.passes hp.1 hp.2
  have e2 := bytesInt_intBytes g.pTypeO hO.1 hO.2
  have e3 := bytesInt_intBytes g.pTypeX hX.1 hX.2
  unfold intBytes at e1 e2 e3
  unfold bytesInt at e1 e2 e3
  unfold wordBytes at hn e1 e2 e3
  unfold game_load game_save_bytes
  simp only [if_neg hlen, save_rows_flatten g.board hwf]
  simp only [PROG_NAME, intBytes, uintBytes, wordBytes, fread, cstr, List.cons_append,
    List.nil_append, List.length_cons, List.length_nil, List.take_succ_cons, List.take_zero,
    List.drop_succ_cons, List.drop_zero, List.replicate, List.append_nil, Nat.reduceAdd,
    List.getD_cons_zero, List.drop_nil, bytesInt, bytesWord_append]
  rw [if_neg (by decide)]
  simp only [hn, hb0, e1, e2, e3]
  refine ⟨_, rfl, rfl, ?_, ?_, rfl, rfl, rfl, rfl⟩
  · exact hb0n
  · show game_load_rows b0.n (b0.s.take b0.n) g.board.s.flatten ++ b0.s.drop b0.n = g.board.s
    have := game_load_rows_flatten b0.n (b0.s.take b0.n) g.board.s [] (by
        rw [List.length_take, hb0wf.1, hwf.1, hb0n]; simp)
      (fun r hr => by rw [hb0wf.2 r (List.mem_of_mem_take hr)])
      (fun r hr => by rw [hwf.2 r hr, hb0n])
    rw [List.append_nil] at this
    rw [this, List.drop_of_length_le (by rw [hb0wf.1]), List.append_nil]

theorem load_save_roundtrip_witness :
    ∃ p, game_load ['s'] (some (game_save_bytes new4)) blank = some p ∧ p.status = none
      ∧ p.game.board.n = new4.board.n ∧ p.game.board.s = new4.board.s
      ∧ p.game.passes = new4.passes ∧ p.game.pTypeO = new4.pTypeO
      ∧ p.game.pTypeX = new4.pTypeX ∧ p.game.whoseTurn = new4.whoseTurn :=
  load_save_roundtrip new4 blank ['s'] (by decide) (by decide) (by decide) (by decide)
    (by decide) (by decide) (by decide)


/-! ## Save requests -/

/-- C10, counterexample: in the opening position of a game between two human players, a
save request with a writable path ends the process with exit status 0. -/
theorem save_request_exits_new4 :
    (turn_decision (Input.save ['s'] true) new4).map (fun p => p.status) = some (some 0) := by
  decide

/-- C10, as amended: while a human move is awaited, a save request with a non-empty
writable path writes the save file, prints `Game saved.` and terminates the process with
exit status 0; the board, the current player, the pass counter and the AI modes are at
that point what they were before the request. -/
theorem save_request_terminates (g : gameType) (fname : List Char) (hf : fname ≠ []) :
    ∃ p, input_turn (Input.save fname true) g = some p ∧ p.status = some 0
      ∧ p.out = [Out.prompt g.whoseTurn, Out.saved]
      ∧ p.file = some (fname, game_save_bytes g)
      ∧ p.game.board = g.board ∧ p.game.whoseTurn = g.whoseTurn
      ∧ p.game.passes = g.passes ∧ p.game.pTypeO = g.pTypeO ∧ p.game.pTypeX = g.pTypeX := by
  have hlen : fname.length ≠ 0 := by
    intro h; exact hf (List.length_eq_zero.mp h)
  refine ⟨_, rfl, ?_⟩
  simp [game_save, hlen, sysMessage, game_set_fname, game_save_bytes]

theorem save_request_terminates_witness :
    ∃ p, input_turn (Input.save ['s'] true) new4_ready = some p ∧ p.status = some 0
      ∧ p.out = [Out.prompt new4_ready.whoseTurn, Out.saved]
      ∧ p.file = some (['s'], game_save_bytes new4_ready)
      ∧ p.game.board = new4_ready.board ∧ p.game.whoseTurn = new4_ready.whoseTurn
      ∧ p.game.passes = new4_ready.passes ∧ p.game.pTypeO = new4_ready.pTypeO
      ∧ p.game.pTypeX = new4_ready.pTypeX :=
  save_request_terminates new4_ready ['s'] (by decide)


/-! ## Captures -/

theorem bracket_shift (b : boardType) (i j dx dy : Int) (t : Char) (k : Nat)
    (h : bracket b i j dx dy t (k + 1)) : bracket b (i + dx) (j + dy) dx dy t k := by
  obtain ⟨h1, h2, h3⟩ := h
  have e1 : ∀ m : Nat, i + dx + ((m : Int) + 1) * dx = i + (((m + 1 : Nat) : Int) + 1) * dx := by
    intro m; push_cast; ring
  have e2 : ∀ m : Nat, j + dy + ((m : Int) + 1) * dy = j + (((m + 1 : Nat) : Int) + 1) * dy := by
    intro m; push_cast; ring
  refine ⟨?_, ?_, ?_⟩
  · intro m hm
    rw [e1, e2]
    exact h1 (m + 1) (by omega)
  · rw [e1, e2]; exact h2
  · rw [e1, e2]; exact h3

theorem bracket_first (b : boardType) (i j dx dy : Int) (t : Char) (k : Nat)
    (h : bracket b i j dx dy t (k + 1)) :
    inBoard b (i + dx) (j + dy) ∧ opposing t (b.cell (i + dx) (j + dy)) := by
  have := h.1 0 (by omega)
  simpa using this

theorem bracket_zero (b : boardType) (i j dx dy : Int) (t : Char)
    (h : bracket b i j dx dy t 0) :
    inBoard b (i + dx) (j + dy) ∧ b.cell (i + dx) (j + dy) = t := by
  have := h.2
  simpa using this

theorem bracket_unique (b : boardType) (i j dx dy : Int) (t : Char) (k k' : Nat)
    (h : bracket b i j dx dy t k) (h' : bracket b i j dx dy t k') : k = k' := by
  rcases Nat.lt_trichotomy k k' with hlt | heq | hgt
  · exact absurd h.2.2 (h'.1 k hlt).2.2
  · exact heq
  · exact absurd h'.2.2 (h.1 k' hgt).2.2

/-- In validate mode a bracket of `k` cells makes the walk return `k` modulo 256. -/
theorem board_walk_loop_validate_bracket (dx dy : Int) (t : Char) (ht : t ≠ '.') :
    ∀ (k fuel : Nat) (i j : Int) (e : Nat) (b : boardType), bracket b i j dx dy t k →
      k < fuel →
      board_walk_loop dx dy t WALK_VALIDATE fuel i j e b = some ((e + k) % 256, b) := by
  intro k
  induction k with
  | zero =>
    intro fuel i j e b hb hf
    obtain ⟨f, rfl⟩ : ∃ f, fuel = f + 1 := ⟨fuel - 1, by omega⟩
    obtain ⟨hin, hc⟩ := bracket_zero b i j dx dy t hb
    unfold inBoard at hin
    unfold board_walk_loop
    simp only []
    rw [if_neg (by omega), if_neg (by rw [hc]; exact ht), if_neg (by simpa using hc)]
    rfl
  | succ k ih =>
    intro fuel i j e b hb hf
    obtain ⟨f, rfl⟩ : ∃ f, fuel = f + 1 := ⟨fuel - 1, by omega⟩
    obtain ⟨hin, ho1, ho2⟩ := bracket_first b i j dx dy t k hb
    unfold inBoard at hin
    unfold board_walk_loop
    simp only []
    rw [if_neg (by omega), if_neg ho1, if_pos ho2, if_neg (by decide)]
    rw [ih f _ _ _ _ (bracket_shift b i j dx dy t k hb) (by omega)]
    congr 2
    omega

theorem board_walk_validate_bracket (x y dx dy : Int) (t : Char) (ht : t ≠ '.')
    (b : boardType) (k : Nat) (hb : bracket b x y dx dy t k) :
    board_walk x y dx dy t b WALK_VALIDATE = some (k % 256, b) := by
  unfold board_walk
  have hk : k < b.n + 1 := by
    rcases Nat.eq_zero_or_pos k with h | h
    · omega
    · have := bracket_lt b x y dx dy t k h hb
      omega
  rw [board_walk_loop_validate_bracket dx dy t ht k _ x y 0 b hb hk]
  simp

theorem board_walk_validate_no_bracket (x y dx dy : Int) (t : Char) (b : boardType)
    (hd : dx ≠ 0 ∨ dy ≠ 0) (hno : ∀ k, ¬ bracket b x y dx dy t k) :
    board_walk x y dx dy t b WALK_VALIDATE = some (0, b) := by
  obtain ⟨⟨r, b'⟩, hw⟩ :=
    Option.isSome_iff_exists.mp (board_walk_isSome x y dx dy t b WALK_VALIDATE hd)
  obtain ⟨hb, hk⟩ := board_walk_loop_validate dx dy t _ _ _ _ _ _ _ hw
  subst hb
  by_cases hr : r = 0
  · rw [hw, hr]
  · obtain ⟨k, hbr, _⟩ := hk hr
    exact absurd hbr (hno k)

theorem bracket_congr (b b1 : boardType) (i j dx dy : Int) (t : Char) (k : Nat)
    (hn : b1.n = b.n)
    (hc : ∀ m : Nat, m ≤ k →
      inBoard b (i + ((m : Int) + 1) * dx) (j + ((m : Int) + 1) * dy) →
      b1.cell (i + ((m : Int) + 1) * dx) (j + ((m : Int) + 1) * dy)
        = b.cell (i + ((m : Int) + 1) * dx) (j + ((m : Int) + 1) * dy))
    (h : bracket b i j dx dy t k) : bracket b1 i j dx dy t k := by
  obtain ⟨h1, h2, h3⟩ := h
  refine ⟨fun m hm => ?_, ?_, ?_⟩
  · rw [hc m (by omega) (h1 m hm).1]
    exact ⟨by have := (h1 m hm).1; unfold inBoard at this ⊢; rw [hn]; exact this, (h1 m hm).2⟩
  · unfold inBoard at h2 ⊢; rw [hn]; exact h2
  · rw [hc k (le_refl _) h2]; exact h3

theorem step_ne (dx dy : Int) (hd : dx ≠ 0 ∨ dy ≠ 0) (i j : Int) (m : Nat) :
    ¬ (i + ((m : Int) + 1) * dx = i ∧ j + ((m : Int) + 1) * dy = j) := by
  rintro ⟨h1, h2⟩
  have hm : ((m : Int) + 1) ≠ 0 := by omega
  rcases hd with hd | hd
  · have : ((m : Int) + 1) * dx = 0 := by omega
    rcases mul_eq_zero.mp this with h | h
    · exact hm h
    · exact hd h
  · have : ((m : Int) + 1) * dy = 0 := by omega
    rcases mul_eq_zero.mp this with h | h
    · exact hm h
    · exact hd h

/-- In replace mode a bracket of `k` cells is turned into `k` cells of the tile; no other
cell of the board changes. -/
theorem board_walk_loop_replace_bracket (dx dy : Int) (hd : dx ≠ 0 ∨ dy ≠ 0) (t : Char)
    (ht : t ≠ '.') :
    ∀ (k fuel : Nat) (i j : Int) (e : Nat) (b : boardType), b.wf →
      bracket b i j dx dy t k → k < fuel →
      ∃ b', board_walk_loop dx dy t WALK_REPLACE fuel i j e b = some ((e + k) % 256, b')
        ∧ b'.wf ∧ b'.n = b.n
        ∧ ∀ a c, inBoard b a c →
          b'.cell a c =
            if ∃ m : Nat, m < k ∧ a = i + ((m : Int) + 1) * dx ∧ c = j + ((m : Int) + 1) * dy
            then t else b.cell a c := by
  intro k
  induction k with
  | zero =>
    intro fuel i j e b hwf hb hf
    obtain ⟨f, rfl⟩ : ∃ f, fuel = f + 1 := ⟨fuel - 1, by omega⟩
    obtain ⟨hin, hc⟩ := bracket_zero b i j dx dy t hb
    unfold inBoard at hin
    refine ⟨b, ?_, hwf, rfl, ?_⟩
    · unfold board_walk_loop
      simp only []
      rw [if_neg (by omega), if_neg (by rw [hc]; exact ht), if_neg (by simpa using hc)]
      rfl
    · intro a c _
      rw [if_neg]
      rintro ⟨m, hm, _⟩
      omega
  | succ k ih =>
    intro fuel i j e b hwf hb hf
    obtain ⟨f, rfl⟩ : ∃ f, fuel = f + 1 := ⟨fuel - 1, by omega⟩
    obtain ⟨hin, ho1, ho2⟩ := bracket_first b i j dx dy t k hb
    have hsh := bracket_shift b i j dx dy t k hb
    have hwf1 : (b.setCell (i + dx) (j + dy) t).wf := setCell_wf _ _ _ _ hwf
    have hb1 : bracket (b.setCell (i + dx) (j + dy) t) (i + dx) (j + dy) dx dy t k := by
      apply bracket_congr b (b.setCell (i + dx) (j + dy) t) _ _ _ _ _ _ rfl _ hsh
      intro m _ hmin
      rw [cell_setCell b hwf _ _ _ _ t hmin hin, if_neg (step_ne dx dy hd _ _ m)]
    obtain ⟨b', hw, hw1, hw2, hw3⟩ := ih f (i + dx) (j + dy) (e + 1) _ hwf1 hb1 (by omega)
    unfold inBoard at hin
    refine ⟨b', ?_, hw1, by rw [hw2]; rfl, ?_⟩
    · unfold board_walk_loop
      simp only []
      rw [if_neg (by omega), if_neg ho1, if_pos ho2, if_true, hw]
      congr 3
      omega
    · intro a c hac
      have hinner : (b.setCell (i + dx) (j + dy) t).cell a c
          = if a = i + dx ∧ c = j + dy then t else b.cell a c :=
        cell_setCell b hwf a c _ _ t hac (by unfold inBoard; exact hin)
      rw [hw3 a c hac, hinner]
      by_cases h1 : ∃ m : Nat, m < k ∧ a = i + dx + ((m : Int) + 1) * dx
          ∧ c = j + dy + ((m : Int) + 1) * dy
      · obtain ⟨m, hm, ha, hc⟩ := h1
        rw [if_pos ⟨m, hm, ha, hc⟩, if_pos]
        exact ⟨m + 1, by omega, by rw [ha]; push_cast; ring, by rw [hc]; push_cast; ring⟩
      · rw [if_neg h1]
        by_cases h0 : a = i + dx ∧ c = j + dy
        · rw [if_pos h0, if_pos]
          exact ⟨0, by omega, by simpa using h0.1, by simpa using h0.2⟩
        · rw [if_neg h0, if_neg]
          rintro ⟨m, hm, ha, hc⟩
          rcases Nat.eq_zero_or_pos m with hm0 | hm0
          · subst hm0
            exact h0 ⟨by simpa using ha, by simpa using hc⟩
          · apply h1
            refine ⟨m - 1, by omega, ?_, ?_⟩
            · rw [ha]
              have : ((m - 1 : Nat) : Int) = (m : Int) - 1 := by omega
              rw [this]; ring
            · rw [hc]
              have : ((m - 1 : Nat) : Int) = (m : Int) - 1 := by omega
              rw [this]; ring

theorem rays_disjoint (x y : Int) (d d' : Int × Int) (hd : d ∈ vect) (hd' : d' ∈ vect)
    (hne : d ≠ d') (m m' : Nat) :
    ¬ (x + ((m : Int) + 1) * d.1 = x + ((m' : Int) + 1) * d'.1
      ∧ y + ((m : Int) + 1) * d.2 = y + ((m' : Int) + 1) * d'.2) := by
  simp only [vect, List.mem_cons, List.mem_singleton, List.not_mem_nil, or_false] at hd hd'
  rintro ⟨h1, h2⟩
  rcases hd with rfl | rfl | rfl | rfl | rfl | rfl | rfl | rfl <;>
    rcases hd' with rfl | rfl | rfl | rfl | rfl | rfl | rfl | rfl <;>
    first
      | exact hne rfl
      | (simp only [] at h1 h2; omega)

theorem game_put_tile_loop_flips (b0 : boardType) (x y : Int) (t : Char) (ht : t ≠ '.')
    (hshort : ∀ d ∈ vect, ∀ k, bracket b0 x y d.1 d.2 t k → k < 256) :
    ∀ (ds : List (Int × Int)) (b : boardType), ds.Nodup → (∀ d ∈ ds, d ∈ vect) → b.wf →
      b.n = b0.n →
      (∀ d ∈ ds, ∀ m : Nat,
        inBoard b0 (x + ((m : Int) + 1) * d.1) (y + ((m : Int) + 1) * d.2) →
        b.cell (x + ((m : Int) + 1) * d.1) (y + ((m : Int) + 1) * d.2)
          = b0.cell (x + ((m : Int) + 1) * d.1) (y + ((m : Int) + 1) * d.2)) →
      ∃ b', game_put_tile_loop x y t ds b = some b' ∧ b'.wf ∧ b'.n = b0.n
        ∧ ∀ i j, inBoard b0 i j →
          b'.cell i j = if flipped b0 x y t ds i j then t else b.cell i j := by
  intro ds
  induction ds with
  | nil =>
    intro b _ _ hwf hn _
    refine ⟨b, rfl, hwf, hn, fun i j _ => ?_⟩
    rw [if_neg]
    rintro ⟨d, hd, _⟩
    simp at hd
  | cons d rest ih =>
    intro b hnd hsub hwf hn hray
    obtain ⟨dx, dy⟩ := d
    have hdv : (dx, dy) ∈ vect := hsub _ (by simp)
    have hdne : dx ≠ 0 ∨ dy ≠ 0 := vect_ne_zero _ hdv
    have hnd' : rest.Nodup := (List.nodup_cons.mp hnd).2
    have hnotin : (dx, dy) ∉ rest := (List.nodup_cons.mp hnd).1
    have hsub' : ∀ d ∈ rest, d ∈ vect := fun d hd => hsub d (List.mem_cons_of_mem _ hd)
    have hray' : ∀ d ∈ rest, ∀ m : Nat,
        inBoard b0 (x + ((m : Int) + 1) * d.1) (y + ((m : Int) + 1) * d.2) →
        b.cell (x + ((m : Int) + 1) * d.1) (y + ((m : Int) + 1) * d.2)
          = b0.cell (x + ((m : Int) + 1) * d.1) (y + ((m : Int) + 1) * d.2) :=
      fun d hd => hray d (List.mem_cons_of_mem _ hd)
    have hto : ∀ k, bracket b0 x y dx dy t k → bracket b x y dx dy t k := by
      intro k hk
      exact bracket_congr b0 b x y dx dy t k hn (fun m _ hin => hray (dx, dy) (by simp) m hin) hk
    have hfrom : ∀ k, bracket b x y dx dy t k → bracket b0 x y dx dy t k := by
      intro k hk
      refine bracket_congr b b0 x y dx dy t k hn.symm (fun m _ hin => ?_) hk
      have hin0 : inBoard b0 (x + ((m : Int) + 1) * dx) (y + ((m : Int) + 1) * dy) := by
        unfold inBoard at hin ⊢; rw [← hn]; exact hin
      exact (hray (dx, dy) (by simp) m hin0).symm
    -- the outcome when this direction flips nothing
    have hskip : (∀ k m : Nat, bracket b0 x y dx dy t k → ¬ m < k) →
        game_put_tile_loop x y t rest b = game_put_tile_loop x y t ((dx, dy) :: rest) b →
        ∃ b', game_put_tile_loop x y t ((dx, dy) :: rest) b = some b' ∧ b'.wf ∧ b'.n = b0.n
          ∧ ∀ i j, inBoard b0 i j →
            b'.cell i j = if flipped b0 x y t ((dx, dy) :: rest) i j then t else b.cell i j := by
      intro hnone heq
      obtain ⟨b', h1, h2, h3, h4⟩ := ih b hnd' hsub' hwf hn hray'
      refine ⟨b', by rw [← heq]; exact h1, h2, h3, fun i j hij => ?_⟩
      rw [h4 i j hij]
      by_cases hf : flipped b0 x y t rest i j
      · obtain ⟨d, hd, hrest⟩ := hf
        rw [if_pos ⟨d, hd, hrest⟩, if_pos ⟨d, List.mem_cons_of_mem _ hd, hrest⟩]
      · rw [if_neg hf, if_neg]
        rintro ⟨d, hd, k, m, hk, hm, hi, hj⟩
        rcases List.mem_cons.mp hd with rfl | hd
        · exact hnone k m hk hm
        · exact hf ⟨d, hd, k, m, hk, hm, hi, hj⟩
    by_cases hex : ∃ k, bracket b0 x y dx dy t k
    · obtain ⟨k, hk⟩ := hex
      have hk256 : k % 256 = k := Nat.mod_eq_of_lt (hshort _ hdv k hk)
      have hval := board_walk_validate_bracket x y dx dy t ht b k (hto k hk)
      rw [hk256] at hval
      rcases Nat.eq_zero_or_pos k with hk0 | hk0
      · subst hk0
        apply hskip
        · intro k' m hk' hm
          have := bracket_unique b0 x y dx dy t _ _ hk hk'
          omega
        · simp only [game_put_tile_loop, hval]
          simp
      · have hrep := board_walk_loop_replace_bracket dx dy hdne t ht k (b.n + 1) x y 0 b hwf
          (hto k hk) (by have := bracket_lt b x y dx dy t k hk0 (hto k hk); omega)
        obtain ⟨b1, hr1, hwf1, hn1, hc1⟩ := hrep
        have hray1 : ∀ d ∈ rest, ∀ m : Nat,
            inBoard b0 (x + ((m : Int) + 1) * d.1) (y + ((m : Int) + 1) * d.2) →
            b1.cell (x + ((m : Int) + 1) * d.1) (y + ((m : Int) + 1) * d.2)
              = b0.cell (x + ((m : Int) + 1) * d.1) (y + ((m : Int) + 1) * d.2) := by
          intro d hd m hin
          have hinb : inBoard b (x + ((m : Int) + 1) * d.1) (y + ((m : Int) + 1) * d.2) := by
            unfold inBoard at hin ⊢; rw [hn]; exact hin
          rw [hc1 _ _ hinb, if_neg, hray' d hd m hin]
          rintro ⟨m', _, h1, h2⟩
          have hne : d ≠ (dx, dy) := fun e => hnotin (e ▸ hd)
          exact rays_disjoint x y d (dx, dy) (hsub' d hd) hdv hne m m' ⟨h1, h2⟩
        obtain ⟨b', h1, h2, h3, h4⟩ := ih b1 hnd' hsub' hwf1 (by rw [hn1, hn]) hray1
        refine ⟨b', ?_, h2, h3, fun i j hij => ?_⟩
        · have hr1' : board_walk x y dx dy t b WALK_REPLACE = some ((0 + k) % 256, b1) := hr1
          simp only [game_put_tile_loop, hval, hr1']
          rw [if_pos (by omega)]
          exact h1
        · have hijb : inBoard b i j := by
            unfold inBoard at hij ⊢; rw [hn]; exact hij
          rw [h4 i j hij, hc1 i j hijb]
          by_cases hf : flipped b0 x y t rest i j
          · obtain ⟨d, hd, hrest⟩ := hf
            rw [if_pos ⟨d, hd, hrest⟩, if_pos ⟨d, List.mem_cons_of_mem _ hd, hrest⟩]
          · rw [if_neg hf]
            by_cases hon : ∃ m : Nat, m < k ∧ i = x + ((m : Int) + 1) * dx
                ∧ j = y + ((m : Int) + 1) * dy
            · obtain ⟨m, hm, hi, hj⟩ := hon
              rw [if_pos ⟨m, hm, hi, hj⟩, if_pos]
              exact ⟨(dx, dy), by simp, k, m, hk, hm, hi, hj⟩
            · rw [if_neg hon, if_neg]
              rintro ⟨d, hd, k', m, hk', hm, hi, hj⟩
              rcases List.mem_cons.mp hd with rfl | hd
              · have := bracket_unique b0 x y dx dy t _ _ hk hk'
                subst this
                exact hon ⟨m, hm, hi, hj⟩
              · exact hf ⟨d, hd, k', m, hk', hm, hi, hj⟩
    · push_neg at hex
      have hval := board_walk_validate_no_bracket x y dx dy t b hdne
        (fun k hk => hex k (hfrom k hk))
      apply hskip
      · intro k m hk _
        exact hex k hk
      · simp only [game_put_tile_loop, hval]
        simp

/-- Capture correctness of `game_put_tile` as long as no bracket from `(x, y)` holds 256
cells or more (as on every board of side at most 257): the placed cell gets the tile of
the current player, the cells inside a bracket of one of the 8 directions get it too, and
every other cell keeps its value. -/
theorem game_put_tile_captures (g : gameType) (x y : Int) (hwf : g.board.wf)
    (hin : inBoard g.board x y) (ht : g.whoseTurn ≠ '.')
    (hshort : ∀ d ∈ vect, ∀ k, bracket g.board x y d.1 d.2 g.whoseTurn k → k < 256) :
    ∃ b', game_put_tile x y g = some { g with board := b' } ∧ b'.wf ∧ b'.n = g.board.n
      ∧ b'.cell x y = g.whoseTurn
      ∧ ∀ i j, inBoard g.board i j → ¬ (i = x ∧ j = y) →
        b'.cell i j = if flipped g.board x y g.whoseTurn vect i j then g.whoseTurn
          else g.board.cell i j := by
  have hray : ∀ d ∈ vect, ∀ m : Nat,
      inBoard g.board (x + ((m : Int) + 1) * d.1) (y + ((m : Int) + 1) * d.2) →
      (g.board.setCell x y g.whoseTurn).cell (x + ((m : Int) + 1) * d.1)
          (y + ((m : Int) + 1) * d.2)
        = g.board.cell (x + ((m : Int) + 1) * d.1) (y + ((m : Int) + 1) * d.2) := by
    intro d hd m hm
    rw [cell_setCell g.board hwf _ _ x y _ hm hin,
      if_neg (step_ne d.1 d.2 (vect_ne_zero d hd) x y m)]
  obtain ⟨b', h1, h2, h3, h4⟩ := game_put_tile_loop_flips g.board x y g.whoseTurn ht hshort
    vect (g.board.setCell x y g.whoseTurn) (by decide) (fun d hd => hd)
    (setCell_wf _ _ _ _ hwf) rfl hray
  obtain ⟨b'', hput, _, _, hxy⟩ := game_put_tile_frame x y g hwf hin
  have hput' : game_put_tile x y g = some { g with board := b' } := by
    simp [game_put_tile, h1]
  rw [hput'] at hput
  simp only [Option.some.injEq, gameType.mk.injEq, true_and, and_true] at hput
  subst hput
  refine ⟨b', hput', h2, h3, hxy, fun i j hij hne => ?_⟩
  rw [h4 i j hij, cell_setCell g.board hwf i j x y _ hij hin, if_neg hne]


/-- On a board of side at most 256 no bracket holds 256 cells, so `game_put_tile` flips
exactly the cells inside the brackets of the 8 directions. -/
theorem game_put_tile_captures_small (g : gameType) (x y : Int) (hwf : g.board.wf)
    (hin : inBoard g.board x y) (ht : g.whoseTurn ≠ '.') (hn : g.board.n ≤ 256) :
    ∃ b', game_put_tile x y g = some { g with board := b' } ∧ b'.wf ∧ b'.n = g.board.n
      ∧ b'.cell x y = g.whoseTurn
      ∧ ∀ i j, inBoard g.board i j → ¬ (i = x ∧ j = y) →
        b'.cell i j = if flipped g.board x y g.whoseTurn vect i j then g.whoseTurn
          else g.board.cell i j := by
  apply game_put_tile_captures g x y hwf hin ht
  intro d _ k hk
  rcases Nat.eq_zero_or_pos k with h | h
  · omega
  · have := bracket_lt g.board x y d.1 d.2 g.whoseTurn k h hk
    omega

/-! ## The opening position -/

theorem cells_nodup (n : Nat) : (cells n).Nodup := by
  unfold cells
  rw [List.nodup_flatMap]
  refine ⟨?_, ?_⟩
  · intro i _
    apply List.Nodup.map _ (List.nodup_range n)
    intro a b h
    simp only [Prod.mk.injEq, true_and] at h
    exact_mod_cast h
  · apply List.Nodup.pairwise_of_forall_ne (List.nodup_range n)
    intro a _ b _ hab
    simp only [Function.onFun, List.disjoint_left, List.mem_map, List.mem_range]
    rintro p ⟨j, _, rfl⟩ ⟨j', _, h⟩
    simp only [Prod.mk.injEq] at h
    exact hab (by exact_mod_cast h.1.symm)

theorem countP_single (a : Int × Int) :
    ∀ l : List (Int × Int), l.Nodup → a ∈ l → l.countP (fun q => decide (q = a)) = 1 := by
  intro l
  induction l with
  | nil => intro _ h; simp at h
  | cons q rest ih =>
    intro hnd hmem
    obtain ⟨hq, hrest⟩ := List.nodup_cons.mp hnd
    rw [List.countP_cons]
    by_cases h1 : q = a
    · subst h1
      have : rest.countP (fun r => decide (r = q)) = 0 := by
        rw [List.countP_eq_zero]
        intro r hr
        simp only [decide_eq_true_eq]
        rintro rfl
        exact hq hr
      simp [this]
    · have hmem' : a ∈ rest := by
        rcases List.mem_cons.mp hmem with h | h
        · exact absurd h.symm h1
        · exact h
      simp [h1, ih hrest hmem']

theorem countP_pair (a b : Int × Int) (hab : a ≠ b) :
    ∀ l : List (Int × Int),
      l.countP (fun q => decide (q = a ∨ q = b))
        = l.countP (fun q => decide (q = a)) + l.countP (fun q => decide (q = b)) := by
  intro l
  induction l with
  | nil => simp
  | cons q rest ih =>
    rw [List.countP_cons, List.countP_cons, List.countP_cons, ih]
    by_cases h1 : q = a
    · subst h1
      have : ¬ (q = b) := hab
      simp [this]
      omega
    · by_cases h2 : q = b
      · subst h2
        simp [h1]
        omega
      · simp [h1, h2]

theorem countP_two (l : List (Int × Int)) (hnd : l.Nodup) (a b : Int × Int) (ha : a ∈ l)
    (hb : b ∈ l) (hab : a ≠ b) (p : Int × Int → Bool)
    (hp : ∀ q ∈ l, p q = true ↔ q = a ∨ q = b) : l.countP p = 2 := by
  have h1 : l.countP p = l.countP (fun q => decide (q = a ∨ q = b)) := by
    apply List.countP_congr
    intro q hq
    simp [hp q hq]
  rw [h1, countP_pair a b hab, countP_single a l hnd ha, countP_single b l hnd hb]

/-- C11: for every `N > 3`, `board_ini N` builds an `N` by `N` board whose only non-empty
cells are the 2 by 2 block at rows and columns `m` and `m + 1`, `m = (N - 1) / 2`: `O` on
`(m, m)` and `(m + 1, m + 1)`, `X` on `(m + 1, m)` and `(m, m + 1)`; the opening score
computed by `game_update_scoring` is `O = 2`, `X = 2`. -/
theorem board_ini_opening (N : Nat) (h3 : 3 < N) (h32 : N < 4294967296) :
    ∃ b, board_ini N = some b ∧ b.wf ∧ b.n = N
      ∧ (∀ i j, inBoard b i j →
        b.cell i j =
          if (i = ((N - 1) / 2 : Nat) ∧ j = ((N - 1) / 2 : Nat))
              ∨ (i = ((N - 1) / 2 : Nat) + 1 ∧ j = ((N - 1) / 2 : Nat) + 1) then 'O'
          else if (i = ((N - 1) / 2 : Nat) + 1 ∧ j = ((N - 1) / 2 : Nat))
              ∨ (i = ((N - 1) / 2 : Nat) ∧ j = ((N - 1) / 2 : Nat) + 1) then 'X'
          else '.')
      ∧ countCells 'O' b = 2 ∧ countCells 'X' b = 2
      ∧ ∀ g : gameType, g.board = b →
        (game_update_scoring g).scoreO = 2 ∧ (game_update_scoring g).scoreX = 2 := by
  obtain ⟨b, hb⟩ := board_ini_some N (by omega) h32
  obtain ⟨hwf, _, hn⟩ := board_ini_spec N b hb
  have hmid : (((N : Int) - 1) % 4294967296) / 2 = (((N - 1) / 2 : Nat) : Int) := by
    rw [Int.emod_eq_of_lt (by omega) (by omega)]
    omega
  have hm1 : (((N - 1) / 2 : Nat) : Int) + 1 < N := by omega
  have hcell : ∀ i j, inBoard b i j →
      b.cell i j =
        if (i = ((N - 1) / 2 : Nat) ∧ j = ((N - 1) / 2 : Nat))
            ∨ (i = ((N - 1) / 2 : Nat) + 1 ∧ j = ((N - 1) / 2 : Nat) + 1) then 'O'
        else if (i = ((N - 1) / 2 : Nat) + 1 ∧ j = ((N - 1) / 2 : Nat))
            ∨ (i = ((N - 1) / 2 : Nat) ∧ j = ((N - 1) / 2 : Nat) + 1) then 'X'
        else '.' := by
    intro i j hij
    unfold board_ini at hb
    simp only [hmid, if_pos hm1, Option.some.injEq] at hb
    subst hb
    simp only [inBoard, setCell_n] at hij
    set m : Int := (((N - 1) / 2 : Nat) : Int) with hm
    set b0 : boardType :=
      { s := List.replicate N (List.replicate N '.'), n := N, border := List.replicate N '-' }
      with hb0
    have hwf0 : b0.wf := by
      refine ⟨by simp [hb0], ?_⟩
      intro row hrow
      rw [List.eq_of_mem_replicate hrow]
      simp [hb0]
    have hin : ∀ a c : Int, 0 ≤ a → 0 ≤ c → a < N → c < N → ∀ b' : boardType, b'.n = N →
        inBoard b' a c := by
      intro a c h1 h2 h3 h4 b' hb'
      unfold inBoard; rw [hb']; exact ⟨h1, h2, h3, h4⟩
    have h0 : b0.cell i j = '.' := by
      have hi : i.toNat < N := by omega
      have hj : j.toNat < N := by omega
      simp [boardType.cell, hb0, List.getD_eq_getElem?_getD, hi, hj, List.getElem?_replicate]
    rw [cell_setCell _ (setCell_wf _ _ _ _ (setCell_wf _ _ _ _ (setCell_wf _ _ _ _ hwf0)))
        i j _ _ _ (hin i j hij.1 hij.2.1 hij.2.2.1 hij.2.2.2 _ rfl)
        (hin _ _ (by omega) (by omega) (by omega) (by omega) _ rfl),
      cell_setCell _ (setCell_wf _ _ _ _ (setCell_wf _ _ _ _ hwf0))
        i j _ _ _ (hin i j hij.1 hij.2.1 hij.2.2.1 hij.2.2.2 _ rfl)
        (hin _ _ (by omega) (by omega) (by omega) (by omega) _ rfl),
      cell_setCell _ (setCell_wf _ _ _ _ hwf0)
        i j _ _ _ (hin i j hij.1 hij.2.1 hij.2.2.1 hij.2.2.2 _ rfl)
        (hin _ _ (by omega) (by omega) (by omega) (by omega) _ rfl),
      cell_setCell _ hwf0
        i j _ _ _ (hin i j hij.1 hij.2.1 hij.2.2.1 hij.2.2.2 _ rfl)
        (hin _ _ (by omega) (by omega) (by omega) (by omega) _ rfl), h0]
    by_cases c1 : i = m + 1 ∧ j = m + 1
    · rw [if_pos c1, if_pos (Or.inr c1)]
    · rw [if_neg c1]
      by_cases c2 : i = m ∧ j = m + 1
      · rw [if_pos c2, if_neg (by omega), if_pos (Or.inr c2)]
      · rw [if_neg c2]
        by_cases c3 : i = m + 1 ∧ j = m
        · rw [if_pos c3, if_neg (by omega), if_pos (Or.inl c3)]
        · rw [if_neg c3]
          by_cases c4 : i = m ∧ j = m
          · rw [if_pos c4, if_pos (Or.inl c4)]
          · rw [if_neg c4, if_neg (by omega), if_neg (by omega)]
  have hcO : countCells 'O' b = 2 := by
    unfold countCells
    apply countP_two _ (cells_nodup _) ((((N - 1) / 2 : Nat) : Int), (((N - 1) / 2 : Nat) : Int))
      ((((N - 1) / 2 : Nat) : Int) + 1, (((N - 1) / 2 : Nat) : Int) + 1)
    · rw [mem_cells, hn]; simp only []; omega
    · rw [mem_cells, hn]; simp only []; omega
    · intro h; simp only [Prod.mk.injEq] at h; omega
    · intro q hq
      have hq' := (mem_cells _ _).mp hq
      rw [hcell q.1 q.2 hq']
      obtain ⟨q1, q2⟩ := q
      simp only [decide_eq_true_eq, Prod.mk.injEq]
      split_ifs with e1 e2
      · exact ⟨fun _ => e1, fun _ => rfl⟩
      · exact ⟨fun h => absurd h (by decide), fun h => absurd h e1⟩
      · exact ⟨fun h => absurd h (by decide), fun h => absurd h e1⟩
  have hcX : countCells 'X' b = 2 := by
    unfold countCells
    apply countP_two _ (cells_nodup _)
      ((((N - 1) / 2 : Nat) : Int) + 1, (((N - 1) / 2 : Nat) : Int))
      ((((N - 1) / 2 : Nat) : Int), (((N - 1) / 2 : Nat) : Int) + 1)
    · rw [mem_cells, hn]; simp only []; omega
    · rw [mem_cells, hn]; simp only []; omega
    · intro h; simp only [Prod.mk.injEq] at h; omega
    · intro q hq
      have hq' := (mem_cells _ _).mp hq
      rw [hcell q.1 q.2 hq']
      obtain ⟨q1, q2⟩ := q
      simp only [decide_eq_true_eq, Prod.mk.injEq]
      split_ifs with e1 e2
      · exact ⟨fun h => absurd h (by decide), fun h => by omega⟩
      · exact ⟨fun _ => e2, fun _ => rfl⟩
      · exact ⟨fun h => absurd h (by decide), fun h => absurd h e2⟩
  refine ⟨b, hb, hwf, hn, hcell, hcO, hcX, ?_⟩
  intro g hg
  rw [game_update_scoring_counts, hg, hcO, hcX]
  exact ⟨rfl, rfl⟩

theorem board_ini_opening_witness :
    ∃ b, board_ini 4 = some b ∧ b.wf ∧ b.n = 4
      ∧ (∀ i j, inBoard b i j →
        b.cell i j =
          if (i = ((4 - 1) / 2 : Nat) ∧ j = ((4 - 1) / 2 : Nat))
              ∨ (i = ((4 - 1) / 2 : Nat) + 1 ∧ j = ((4 - 1) / 2 : Nat) + 1) then 'O'
          else if (i = ((4 - 1) / 2 : Nat) + 1 ∧ j = ((4 - 1) / 2 : Nat))
              ∨ (i = ((4 - 1) / 2 : Nat) ∧ j = ((4 - 1) / 2 : Nat) + 1) then 'X'
          else '.')
      ∧ countCells 'O' b = 2 ∧ countCells 'X' b = 2
      ∧ ∀ g : gameType, g.board = b →
        (game_update_scoring g).scoreO = 2 ∧ (game_update_scoring g).scoreX = 2 :=
  board_ini_opening 4 (by decide) (by decide)

/-! ## The first move and the load failures -/

/-- C12, counterexample: in the opening position of `flip new 4` the submission `0 1` of
`O` does not lead to the score `O = 3`, `X = 1`, neither through `turn_decision` (which
ignores it) nor through a direct call of `game_put_tile` (which flips nothing). -/
theorem opening_move_score_not_3_1 :
    (turn_decision (Input.move 0 1) new4).map
        (fun p => ((game_update_scoring p.game).scoreO, (game_update_scoring p.game).scoreX))
      ≠ some (3, 1)
    ∧ (game_put_tile 0 1 new4).map
        (fun g => ((game_update_scoring g).scoreO, (game_update_scoring g).scoreX))
      ≠ some (3, 1) := by
  decide

/-- C12, as amended: `flip new 4` starts with `O` to move, `O` on `(1,1)` and `(2,2)`, `X`
on `(2,1)` and `(1,2)` and every other cell empty; no direction from `(0,1)` brackets a
cell of `X`, so when `O` submits `0 1` the move is ignored: no cell changes, `O` stays to
move and the score stays `O = 2`, `X = 2`.  (The legal move `0 2` flips `(1,2)` and gives
`O = 4`, `X = 1`.) -/
theorem opening_move_0_1_ignored :
    main [['f', 'l', 'i', 'p'], ['n', 'e', 'w'], ['4']] none blank
        = some { game := new4, out := [], status := none, file := none }
      ∧ new4.whoseTurn = 'O'
      ∧ new4.board.s
        = [['.', '.', '.', '.'], ['.', 'O', 'X', '.'], ['.', 'X', 'O', '.'], ['.', '.', '.', '.']]
      ∧ new4.board.cell 1 1 = 'O' ∧ new4.board.cell 2 2 = 'O'
      ∧ new4.board.cell 2 1 = 'X' ∧ new4.board.cell 1 2 = 'X'
      ∧ ¬ legalMove new4.board 'O' 0 1
      ∧ (turn_decision (Input.move 0 1) new4).map
          (fun p => (p.game.board, p.game.whoseTurn, p.status,
            (game_update_scoring p.game).scoreO, (game_update_scoring p.game).scoreX))
        = some (new4.board, 'O', none, 2, 2)
      ∧ (turn_decision (Input.move 0 2) new4).map
          (fun p => (p.game.board.s, p.game.whoseTurn,
            (game_update_scoring p.game).scoreO, (game_update_scoring p.game).scoreX))
        = some ([['.', '.', 'O', '.'], ['.', 'O', 'O', '.'], ['.', 'X', 'O', '.'],
            ['.', '.', '.', '.']], 'X', 4, 1) := by
  decide

theorem takeWhile_append_stop (p : Char → Bool) (a : Char) (ha : p a = false) :
    ∀ (l r : List Char), (l ++ a :: r).takeWhile p = l.takeWhile p := by
  intro l
  induction l with
  | nil => intro r; simp [List.takeWhile, ha]
  | cons c rest ih =>
    intro r
    simp only [List.cons_append, List.takeWhile_cons]
    split
    · rw [ih]
    · rfl

theorem cstr_validator (f : List Char) (h : f.take 4 ≠ PROG_NAME) :
    cstr (fread (List.replicate 5 (Char.ofNat 0)) PROG_NAME.length f) ≠ PROG_NAME := by
  intro hc
  apply h
  have hlen : (f.take 4).length ≤ 4 := by simp
  have hfread : fread (List.replicate 5 (Char.ofNat 0)) PROG_NAME.length f
      = f.take 4 ++ Char.ofNat 0 :: List.replicate (4 - (f.take 4).length) (Char.ofNat 0) := by
    unfold fread
    have : PROG_NAME.length = 4 := rfl
    rw [this, List.drop_replicate]
    have : 5 - (f.take 4).length = (4 - (f.take 4).length) + 1 := by omega
    rw [this, List.replicate_succ]
  rw [hfread] at hc
  unfold cstr at hc
  rw [takeWhile_append_stop _ _ (by simp)] at hc
  have hpre : (f.take 4).takeWhile (fun c => c ≠ Char.ofNat 0) <+: f.take 4 :=
    List.takeWhile_prefix _
  rw [hc] at hpre
  exact (hpre.eq_of_length (by
    have := hpre.length_le
    have h4 : PROG_NAME.length = 4 := rfl
    omega)).symm

/-- A load that fails on the magic tag: what `game_load` returns. -/
theorem game_load_bad_tag (fname f : List Char) (g : gameType) (h : f.take 4 ≠ PROG_NAME) :
    game_load fname (some f) g = some (sysMessage 7 (game_set_fname fname g)) := by
  unfold game_load
  simp only []
  split_ifs with h1 h2
  · rfl
  · rfl
  · exact absurd h2 (by simpa using cstr_validator f h)

/-- C13: when the first 4 bytes of the file are not `f`, `l`, `i`, `p` (also when the file
has fewer than 4 bytes), `game_load` prints the load error and exits with status 4; only
the file name has been stored, no field of the file has been read into the game. -/
theorem game_load_rejects_bad_magic (fname f : List Char) (g : gameType)
    (h : f.take 4 ≠ ['f', 'l', 'i', 'p']) :
    game_load fname (some f) g
      = some { game := { g with filepath := fname }, out := [Out.loadError],
               status := some 4, file := none } := by
  rw [game_load_bad_tag fname f g h]
  rfl

theorem game_load_rejects_bad_magic_witness :
    game_load ['s'] (some ['f', 'l', 'i']) new4
        = some { game := { new4 with filepath := ['s'] }, out := [Out.loadError],
                 status := some 4, file := none }
      ∧ game_load ['s'] (some ['f', 'l', 'o', 'p', 'x', 'y']) new4
        = some { game := { new4 with filepath := ['s'] }, out := [Out.loadError],
                 status := some 4, file := none } :=
  ⟨game_load_rejects_bad_magic ['s'] ['f', 'l', 'i'] new4 (by decide),
    game_load_rejects_bad_magic ['s'] ['f', 'l', 'o', 'p', 'x', 'y'] new4 (by decide)⟩

/-- C15, counterexample: a load with an empty path, a load of a file that cannot be opened
and a load of a file with a wrong magic tag print the same text and exit with the same
status. -/
theorem load_failures_same_outcome :
    (game_load [] none blank).map (fun p => (p.out, p.status))
        = (game_load ['x'] none blank).map (fun p => (p.out, p.status))
      ∧ (game_load ['x'] none blank).map (fun p => (p.out, p.status))
        = (game_load ['x'] (some ['j', 'u', 'n', 'k']) blank).map (fun p => (p.out, p.status)) := by
  decide

/-- C15, as amended: the three load failures (empty path, file that cannot be opened, wrong
magic tag) are reported alike, by the text `Error loading board.` and exit status 4. -/
theorem load_failures_reported_alike (fname : List Char) (fopen : Option (List Char))
    (g : gameType)
    (h : fname = [] ∨ fopen = none ∨ ∃ f, fopen = some f ∧ f.take 4 ≠ ['f', 'l', 'i', 'p']) :
    ∃ p, game_load fname fopen g = some p ∧ p.out = [Out.loadError] ∧ p.status = some 4 := by
  have hres : game_load fname fopen g = some (sysMessage 7 (game_set_fname fname g)) := by
    rcases h with h | h | ⟨f, h1, h2⟩
    · subst h; simp [game_load]
    · subst h
      unfold game_load
      simp only []
      split_ifs <;> rfl
    · subst h1
      exact game_load_bad_tag fname f g h2
  exact ⟨_, hres, rfl, rfl⟩

theorem load_failures_reported_alike_witness :
    (∃ p, game_load [] none blank = some p ∧ p.out = [Out.loadError] ∧ p.status = some 4)
      ∧ (∃ p, game_load ['x'] none blank = some p ∧ p.out = [Out.loadError]
        ∧ p.status = some 4)
      ∧ (∃ p, game_load ['x'] (some ['j', 'u', 'n', 'k']) blank = some p
        ∧ p.out = [Out.loadError] ∧ p.status = some 4) :=
  ⟨load_failures_reported_alike [] none blank (Or.inl rfl),
    load_failures_reported_alike ['x'] none blank (Or.inr (Or.inl rfl)),
    load_failures_reported_alike ['x'] (some ['j', 'u', 'n', 'k']) blank
      (Or.inr (Or.inr ⟨_, rfl, by decide⟩))⟩

/-! ## Command-line set-up -/

theorem strip_numeric (s : List Char) (h : string_is_numeric s = true) :
    string_strip_nondigit s = s := by
  unfold string_is_numeric at h
  split_ifs at h
  unfold string_strip_nondigit
  rw [List.takeWhile_eq_self_iff]
  exact List.all_eq_true.mp h

theorem decimal_fold_nonneg :
    ∀ (s : List Char) (acc : Int), 0 ≤ acc →
      (∀ c ∈ s, (!(decide (c > '9') || decide (c < '0'))) = true) →
      0 ≤ s.foldl (fun a c => 10 * a + ((c.toNat : Int) - 48)) acc := by
  intro s
  induction s with
  | nil => intro acc h _; simpa using h
  | cons c rest ih =>
    intro acc hacc hall
    simp only [List.foldl_cons]
    apply ih
    · have hc := hall c (by simp)
      simp only [Bool.not_eq_true', Bool.or_eq_false_iff, decide_eq_false_iff_not, not_lt] at hc
      have h0 : ('0' : Char) ≤ c := hc.2
      have : (48 : Nat) ≤ c.toNat := by
        have := Char.le_def.mp h0
        simpa using this
      omega
    · intro d hd
      exact hall d (List.mem_cons_of_mem _ hd)

theorem decimal_nonneg (s : List Char) (hn : string_is_numeric s = true) : 0 ≤ decimal s := by
  unfold string_is_numeric at hn
  split_ifs at hn
  unfold decimal
  exact decimal_fold_nonneg s 0 (le_refl _) (fun c hc => List.all_eq_true.mp hn c hc)

/-- On a string of digits whose value fits an `int`, `atoi` returns that value. -/
theorem atoi_of_fits (s : List Char) (hn : string_is_numeric s = true)
    (h : decimal s ≤ 2147483647) : atoi s = decimal s := by
  have h0 := decimal_nonneg s hn
  unfold atoi
  simp only []
  rw [if_pos (by omega)]
  omega

theorem atoi_zero : atoi ['0'] = 0 := by decide

theorem parse_setup_numeric (prog cmd sa : List Char) (modes : List (List Char))
    (g : gameType) (a b c : Int) (hlen : modes.length ≤ 2)
    (hna : string_is_numeric sa = true) (hnm : ∀ s ∈ modes, string_is_numeric s = true)
    (ha : atoi sa = a) (hb : atoi (modes.getD 0 ['0']) = b)
    (hc : atoi (modes.getD 1 ['0']) = c) :
    parse_setup (prog :: cmd :: sa :: modes) g =
      if a ≤ 3 then some (sysMessage 5 g)
      else if b > 2 ∨ c > 2 ∨ b < 0 ∨ c < 0 then some (sysMessage 6 g)
      else (board_ini a.toNat).map fun brd =>
        { game := { g with board := brd, validMove := brd, pTypeX := b, pTypeO := c },
          out := [], status := none, file := none } := by
  rcases modes with _ | ⟨sb, _ | ⟨sc, _ | ⟨sd, rest⟩⟩⟩
  · simp only [List.getD_nil] at hb hc
    rw [atoi_zero] at hb hc
    subst hb hc
    unfold parse_setup
    simp [List.range_succ, List.find?, hna, ha]
    split_ifs
    · rfl
    · cases board_ini a.toNat <;> rfl
  · have hnb : string_is_numeric sb = true := hnm sb (by simp)
    simp only [List.getD_cons_zero, List.getD_cons_succ, List.getD_nil] at hb hc
    rw [atoi_zero] at hc
    subst hc
    unfold parse_setup
    simp [List.range_succ, List.find?, hna, hnb, ha, hb, strip_numeric sb hnb]
    split_ifs
    · rfl
    · rfl
    · cases board_ini a.toNat <;> rfl
  · have hnb : string_is_numeric sb = true := hnm sb (by simp)
    have hnc : string_is_numeric sc = true := hnm sc (by simp)
    simp only [List.getD_cons_zero, List.getD_cons_succ] at hb hc
    unfold parse_setup
    simp [List.range_succ, List.find?, hna, hnb, hnc, ha, hb, hc, strip_numeric sc hnc]
    split_ifs
    · rfl
    · rfl
    · cases board_ini a.toNat <;> rfl
  · simp at hlen

/-- C14, counterexample: `flip new 2147483648` does not start a game although the size is
above 3: `atoi` returns `-2147483648` and the program prints the board-size error and exits
with status 2.  And `flip new 4294967300` starts a game on a board of side 4, the value
that `atoi` returns, not on a board of that side. -/
theorem new_game_size_overflow :
    main [['f', 'l', 'i', 'p'], ['n', 'e', 'w'],
        ['2', '1', '4', '7', '4', '8', '3', '6', '4', '8']] none blank
      = some { game := game_ini blank, out := [Out.badDimension], status := some 2,
               file := none }
    ∧ (main [['f', 'l', 'i', 'p'], ['n', 'e', 'w'],
        ['4', '2', '9', '4', '9', '6', '7', '3', '0', '0']] none blank).map
        (fun p => (p.status, p.game.board.n)) = some (none, 4) := by
  decide

/-- C14, as amended: for a board size and player modes given to `new` as strings of digits
whose values `a`, `b`, `c` fit an `int` (a missing mode counts as 0), the game starts, on an
`a` by `a` board with `pTypeX = b` and `pTypeO = c`, exactly when `a > 3` and both modes are
at most 2; for `a ≤ 3` the program prints the board-size error and exits with status 2; for
`a > 3` and a mode above 2 it prints the player-type error and exits with status 3. -/
theorem new_game_setup (prog sa : List Char) (modes : List (List Char))
    (fopen : Option (List Char)) (g0 : gameType) (a b c : Int) (hlen : modes.length ≤ 2)
    (hna : string_is_numeric sa = true) (hnm : ∀ s ∈ modes, string_is_numeric s = true)
    (ha : decimal sa = a) (hb : decimal (modes.getD 0 ['0']) = b)
    (hc : decimal (modes.getD 1 ['0']) = c)
    (hfit : a ≤ 2147483647 ∧ b ≤ 2147483647 ∧ c ≤ 2147483647) :
    (a ≤ 3 → main (prog :: ['n', 'e', 'w'] :: sa :: modes) fopen g0
        = some { game := game_ini g0, out := [Out.badDimension], status := some 2,
                 file := none })
      ∧ (3 < a → (2 < b ∨ 2 < c) → main (prog :: ['n', 'e', 'w'] :: sa :: modes) fopen g0
        = some { game := game_ini g0, out := [Out.badPlayerType], status := some 3,
                 file := none })
      ∧ (3 < a → b ≤ 2 → c ≤ 2 →
        ∃ brd, board_ini a.toNat = some brd ∧ brd.wf ∧ (brd.n : Int) = a
          ∧ main (prog :: ['n', 'e', 'w'] :: sa :: modes) fopen g0
            = some
              { game :=
                  { game_ini g0 with board := brd, validMove := brd, pTypeX := b, pTypeO := c },
                out := [], status := none, file := none }) := by
  have hmain : main (prog :: ['n', 'e', 'w'] :: sa :: modes) fopen g0
      = parse_setup (prog :: ['n', 'e', 'w'] :: sa :: modes) (game_ini g0) := by
    unfold main parse_ini
    simp only [List.length_cons, List.getD_cons_succ, List.getD_cons_zero]
    rw [if_neg (by omega), if_pos ⟨trivial, by omega, by omega⟩]
  have hnb : string_is_numeric (modes.getD 0 ['0']) = true := by
    rcases modes with _ | ⟨sb, rest⟩
    · decide
    · simpa using hnm sb (by simp)
  have hnc : string_is_numeric (modes.getD 1 ['0']) = true := by
    rcases modes with _ | ⟨sb, _ | ⟨sc, rest⟩⟩
    · decide
    · show string_is_numeric ['0'] = true
      decide
    · simpa using hnm sc (by simp)
  have ea : atoi sa = a := by rw [atoi_of_fits sa hna (by rw [ha]; exact hfit.1), ha]
  have eb : atoi (modes.getD 0 ['0']) = b := by
    rw [atoi_of_fits _ hnb (by rw [hb]; exact hfit.2.1), hb]
  have ec : atoi (modes.getD 1 ['0']) = c := by
    rw [atoi_of_fits _ hnc (by rw [hc]; exact hfit.2.2), hc]
  rw [hmain, parse_setup_numeric prog _ sa modes (game_ini g0) a b c hlen hna hnm ea eb ec]
  have ha0 : 0 ≤ a := by rw [← ha]; exact decimal_nonneg sa hna
  have hb0 : 0 ≤ b := by rw [← hb]; exact decimal_nonneg _ hnb
  have hc0 : 0 ≤ c := by rw [← hc]; exact decimal_nonneg _ hnc
  refine ⟨?_, ?_, ?_⟩
  · intro h
    rw [if_pos h]
    rfl
  · intro h hm
    rw [if_neg (by omega), if_pos (by omega)]
    rfl
  · intro h hb2 hc2
    obtain ⟨brd, hbrd⟩ := board_ini_some a.toNat (by omega) (by omega)
    obtain ⟨hwf, _, hn⟩ := board_ini_spec _ _ hbrd
    refine ⟨brd, hbrd, hwf, by rw [hn]; omega, ?_⟩
    rw [if_neg (by omega), if_neg (by omega), hbrd]
    rfl

theorem new_game_setup_witness :
    main [['f', 'l', 'i', 'p'], ['n', 'e', 'w'], ['3'], ['1'], ['2']] none blank
        = some { game := game_ini blank, out := [Out.badDimension], status := some 2,
                 file := none }
      ∧ main [['f', 'l', 'i', 'p'], ['n', 'e', 'w'], ['4'], ['3']] none blank
        = some { game := game_ini blank, out := [Out.badPlayerType], status := some 3,
                 file := none }
      ∧ ∃ brd, board_ini (4 : Int).toNat = some brd ∧ brd.wf ∧ (brd.n : Int) = 4
          ∧ main [['f', 'l', 'i', 'p'], ['n', 'e', 'w'], ['4'], ['1'], ['2']] none blank
            = some
              { game :=
                  { game_ini blank with board := brd, validMove := brd, pTypeX := 1,
                                        pTypeO := 2 },
                out := [], status := none, file := none } :=
  ⟨(new_game_setup ['f', 'l', 'i', 'p'] ['3'] [['1'], ['2']] none blank 3 1 2 (by decide)
      (by decide) (by decide) (by decide) (by decide) (by decide) (by decide)).1 (by decide),
    (new_game_setup ['f', 'l', 'i', 'p'] ['4'] [['3']] none blank 4 3 0 (by decide)
      (by decide) (by decide) (by decide) (by decide) (by decide) (by decide)).2.1 (by decide)
      (Or.inl (by decide)),
    (new_game_setup ['f', 'l', 'i', 'p'] ['4'] [['1'], ['2']] none blank 4 1 2 (by decide)
      (by decide) (by decide) (by decide) (by decide) (by decide) (by decide)).2.2 (by decide)
      (by decide) (by decide)⟩

/-! ## Recomputing the valid moves -/

theorem board_cleanup_eq (b : boardType) (hwf : b.wf) :
    board_cleanup b = { b with s := List.replicate b.n (List.replicate b.n '.') } := by
  obtain ⟨h1, h2⟩ := hwf
  unfold board_cleanup
  congr 1
  rw [List.take_of_length_le (by omega), List.drop_of_length_le (by omega), List.append_nil]
  apply List.ext_getElem
  · simp [h1]
  · intro i hi1 hi2
    simp only [List.getElem_map, List.getElem_replicate]
    have hi : i < b.s.length := by simpa using hi1
    have hlen := h2 _ (List.getElem_mem hi)
    rw [hlen, Nat.min_self, List.drop_of_length_le (by omega), List.append_nil]

theorem game_update_valid_moves_loop_border (g : gameType) :
    ∀ (l : List (Int × Int)) (vm vm' : boardType),
      game_update_valid_moves_loop g l vm = some vm' → vm'.border = vm.border := by
  intro l
  induction l with
  | nil =>
    intro vm vm' h
    simp only [game_update_valid_moves_loop, Option.some.injEq] at h
    rw [h]
  | cons p rest ih =>
    intro vm vm' h
    obtain ⟨i, j⟩ := p
    obtain ⟨r, hr, _⟩ := move_valid_spec i j g.whoseTurn g.board
    simp only [game_update_valid_moves_loop, hr] at h
    rw [ih _ _ h]
    split_ifs <;> rfl

theorem game_update_valid_moves_loop_congr (g g' : gameType) (ht : g'.whoseTurn = g.whoseTurn)
    (hb : g'.board = g.board) :
    ∀ (l : List (Int × Int)) (vm : boardType),
      game_update_valid_moves_loop g' l vm = game_update_valid_moves_loop g l vm := by
  intro l
  induction l with
  | nil => intro vm; rfl
  | cons p rest ih =>
    intro vm
    obtain ⟨i, j⟩ := p
    simp only [game_update_valid_moves_loop, ht, hb]
    cases move_valid i j g.whoseTurn g.board with
    | none => rfl
    | some r => exact ih _

/-- C16: running `game_update_valid_moves` a second time, with no placement in between,
gives the valid-move grid of the first run again, and neither run touches the board or the
current player. -/
theorem game_update_valid_moves_idempotent (g : gameType) (hwf : g.validMove.wf) :
    ∃ g1, game_update_valid_moves g = some g1 ∧ game_update_valid_moves g1 = some g1
      ∧ g1.board = g.board ∧ g1.whoseTurn = g.whoseTurn := by
  obtain ⟨vm, h1, hloop⟩ := game_update_valid_moves_spec g
  obtain ⟨hcw, hcn⟩ := board_cleanup_wf g.validMove hwf
  have hl : ∀ p ∈ cells g.validMove.n, inBoard (board_cleanup g.validMove) p.1 p.2 := by
    intro p hp
    have := (mem_cells _ _).mp hp
    unfold inBoard
    rw [hcn]; exact this
  obtain ⟨hw, hn, _⟩ := game_update_valid_moves_loop_cell g _ _ vm hcw hl hloop
  have hbd := game_update_valid_moves_loop_border g _ _ vm hloop
  have hn' : vm.n = g.validMove.n := by rw [hn, hcn]
  have hclean : board_cleanup vm = board_cleanup g.validMove := by
    rw [board_cleanup_eq vm hw, board_cleanup_eq g.validMove hwf, hn']
    have hbd' : vm.border = g.validMove.border := by
      rw [hbd]; rfl
    rw [hbd']
  refine ⟨_, h1, ?_, rfl, rfl⟩
  unfold game_update_valid_moves
  simp only []
  rw [hclean, hn',
    game_update_valid_moves_loop_congr g { g with validMove := vm } rfl rfl, hloop]

theorem game_update_valid_moves_idempotent_witness :
    ∃ g1, game_update_valid_moves new4 = some g1 ∧ game_update_valid_moves g1 = some g1
      ∧ g1.board = new4.board ∧ g1.whoseTurn = new4.whoseTurn :=
  game_update_valid_moves_idempotent new4 (by decide)

/-! ## Walks without a capture -/

set_option maxRecDepth 100000 in
/-- C17, the code at the failing input: for a tile other than `.`, the walk that passes `k`
opposing cells and lands on a cell of the tile returns `k % 256` in validate mode, the
count cut to the eight bits of the return type.  On `longRow` the walk from `(0, 0)` in
direction `(0, 1)` for `O` passes 256 cells of `X` and lands on the `O` at `(0, 257)`, and
`board_walk` returns 0, that is, no capture. -/
theorem board_walk_validate_wraps_at_256 :
    (∀ (b : boardType) (x y dx dy : Int) (t : Char) (k : Nat), t ≠ '.' →
        bracket b x y dx dy t k →
        board_walk x y dx dy t b WALK_VALIDATE = some (k % 256, b))
      ∧ longRow.wf ∧ longRow.n = 258 ∧ inBoard longRow 0 0
      ∧ bracket longRow 0 0 0 1 'O' 256
      ∧ board_walk 0 0 0 1 'O' longRow WALK_VALIDATE = some (0, longRow) :=
  ⟨fun b x y dx dy t k ht h => board_walk_validate_bracket x y dx dy t ht b k h,
    by decide, by decide, by decide, by decide, by decide⟩

theorem blockedRun_shift (b : boardType) (i j dx dy : Int) (t : Char) (k : Nat)
    (h : blockedRun b i j dx dy t (k + 1)) : blockedRun b (i + dx) (j + dy) dx dy t k := by
  obtain ⟨h1, h2⟩ := h
  have e1 : ∀ m : Nat, i + dx + ((m : Int) + 1) * dx = i + (((m + 1 : Nat) : Int) + 1) * dx := by
    intro m; push_cast; ring
  have e2 : ∀ m : Nat, j + dy + ((m : Int) + 1) * dy = j + (((m + 1 : Nat) : Int) + 1) * dy := by
    intro m; push_cast; ring
  refine ⟨?_, ?_⟩
  · intro m hm
    rw [e1, e2]
    exact h1 (m + 1) (by omega)
  · rw [e1, e2]; exact h2

theorem board_walk_loop_blocked (dx dy : Int) (t : Char) :
    ∀ (k fuel : Nat) (i j : Int) (e : Nat) (b : boardType), blockedRun b i j dx dy t k →
      k < fuel → board_walk_loop dx dy t WALK_VALIDATE fuel i j e b = some (0, b) := by
  intro k
  induction k with
  | zero =>
    intro fuel i j e b hb hf
    obtain ⟨f, rfl⟩ : ∃ f, fuel = f + 1 := ⟨fuel - 1, by omega⟩
    have h2 := hb.2
    simp only [Nat.cast_zero, zero_add, one_mul] at h2
    unfold board_walk_loop
    simp only []
    by_cases hin : i + dx < 0 ∨ j + dy < 0 ∨ i + dx ≥ b.n ∨ j + dy ≥ b.n
    · rw [if_pos hin]
    · rw [if_neg hin]
      rcases h2 with h2 | h2
      · exfalso; apply h2; unfold inBoard; omega
      · rw [if_pos h2]
  | succ k ih =>
    intro fuel i j e b hb hf
    obtain ⟨f, rfl⟩ : ∃ f, fuel = f + 1 := ⟨fuel - 1, by omega⟩
    have h0 := hb.1 0 (by omega)
    simp only [Nat.cast_zero, zero_add, one_mul] at h0
    obtain ⟨hin, ho1, ho2⟩ := h0
    unfold inBoard at hin
    unfold board_walk_loop
    simp only []
    rw [if_neg (by omega), if_neg ho1, if_pos ho2, if_neg (by decide)]
    exact ih f _ _ _ _ (blockedRun_shift b i j dx dy t k hb) (by omega)

theorem ray_span_le (n : Nat) (x y dx dy : Int) (hd : dx ≠ 0 ∨ dy ≠ 0) (k : Nat)
    (h1 : 0 ≤ x + dx ∧ 0 ≤ y + dy ∧ x + dx < n ∧ y + dy < n)
    (h2 : 0 ≤ x + ((k : Int) + 1) * dx ∧ 0 ≤ y + ((k : Int) + 1) * dy
      ∧ x + ((k : Int) + 1) * dx < n ∧ y + ((k : Int) + 1) * dy < n) : k < n := by
  have key : ∀ d : Int, d ≠ 0 → ∀ z : Int, 0 ≤ z + d → z + d < n →
      0 ≤ z + ((k : Int) + 1) * d → z + ((k : Int) + 1) * d < n → (k : Int) < n := by
    intro d hd z z1 z2 z3 z4
    have hk0 : (0 : Int) ≤ k := by omega
    rcases lt_or_gt_of_ne hd with hneg | hpos
    · have : (k : Int) * d ≤ (k : Int) * (-1) :=
        mul_le_mul_of_nonneg_left (by omega) hk0
      have e : z + ((k : Int) + 1) * d = z + d + (k : Int) * d := by ring
      omega
    · have : (k : Int) * 1 ≤ (k : Int) * d :=
        mul_le_mul_of_nonneg_left (by omega) hk0
      have e : z + ((k : Int) + 1) * d = z + d + (k : Int) * d := by ring
      omega
  have : (k : Int) < n := by
    rcases hd with hd | hd
    · exact key dx hd x h1.1 h1.2.2.1 h2.1 h2.2.2.1
    · exact key dy hd y h1.2.1 h1.2.2.2 h2.2.1 h2.2.2.2
  exact_mod_cast this

theorem blockedRun_le (b : boardType) (x y dx dy : Int) (t : Char) (k : Nat)
    (h : blockedRun b x y dx dy t k) : k ≤ b.n := by
  rcases Nat.eq_zero_or_pos k with hk | hk
  · omega
  · obtain ⟨h1, h2⟩ := h
    have hfirst := h1 0 hk
    simp only [Nat.cast_zero, zero_add, one_mul] at hfirst
    by_cases hz : dx = 0 ∧ dy = 0
    · exfalso
      obtain ⟨rfl, rfl⟩ := hz
      simp only [mul_zero, add_zero] at h2 hfirst
      rcases h2 with h2 | h2
      · exact h2 hfirst.1
      · exact hfirst.2.1 h2
    · have hd : dx ≠ 0 ∨ dy ≠ 0 := by
        by_contra hcon
        push_neg at hcon
        exact hz hcon
      have hlast := (h1 (k - 1) (by omega)).1
      have e : (((k - 1 : Nat) : Int) + 1) = ((k - 1 : Nat) : Int) + 1 := rfl
      have := ray_span_le b.n x y dx dy hd (k - 1) hfirst.1 hlast
      omega

/-- C18: in validate mode `board_walk` returns 0 and leaves the board as it is when the
walk leaves the board or lands on an empty cell before it reaches a cell of the tile, and
when the first cell after `(x, y)` already holds the tile. -/
theorem board_walk_validate_no_capture (b : boardType) (x y dx dy : Int) (t : Char)
    (h : (∃ k, blockedRun b x y dx dy t k) ∨ bracket b x y dx dy t 0) :
    board_walk x y dx dy t b WALK_VALIDATE = some (0, b) := by
  rcases h with ⟨k, hk⟩ | h0
  · unfold board_walk
    exact board_walk_loop_blocked dx dy t k _ x y 0 b hk
      (by have := blockedRun_le b x y dx dy t k hk; omega)
  · by_cases ht : t = '.'
    · unfold board_walk
      apply board_walk_loop_blocked dx dy t 0 _ x y 0 b _ (by omega)
      refine ⟨fun m hm => by omega, Or.inr ?_⟩
      rw [h0.2.2, ht]
    · have := board_walk_validate_bracket x y dx dy t ht b 0 h0
      simpa using this

theorem board_walk_validate_no_capture_witness :
    board_walk 0 0 1 1 'X' opening4 WALK_VALIDATE = some (0, opening4)
      ∧ board_walk 0 0 (-1) 0 'X' opening4 WALK_VALIDATE = some (0, opening4)
      ∧ board_walk 0 1 1 0 'O' opening4 WALK_VALIDATE = some (0, opening4) :=
  ⟨board_walk_validate_no_capture opening4 0 0 1 1 'X' (Or.inl ⟨2, by decide⟩),
    board_walk_validate_no_capture opening4 0 0 (-1) 0 'X' (Or.inl ⟨0, by decide⟩),
    board_walk_validate_no_capture opening4 0 1 1 0 'O' (Or.inr (by decide))⟩

/-! ## Replace mode run twice -/

theorem board_walk_stops_first (b : boardType) (x y dx dy : Int) (t : Char) (action : Int)
    (h : ¬ inBoard b (x + dx) (y + dy) ∨ b.cell (x + dx) (y + dy) = '.'
      ∨ b.cell (x + dx) (y + dy) = t) :
    board_walk x y dx dy t b action = some (0, b) := by
  unfold board_walk board_walk_loop
  simp only []
  by_cases hin : x + dx < 0 ∨ y + dy < 0 ∨ x + dx ≥ b.n ∨ y + dy ≥ b.n
  · rw [if_pos hin]
  · rw [if_neg hin]
    rcases h with h | h | h
    · exfalso; apply h; unfold inBoard; omega
    · rw [if_pos h]
    · by_cases hdot : b.cell (x + dx) (y + dy) = '.'
      · rw [if_pos hdot]
      · rw [if_neg hdot, if_neg (by simp [h])]

theorem board_walk_replace_first (b : boardType) (x y dx dy : Int) (t : Char)
    (hin : inBoard b (x + dx) (y + dy)) (hdot : b.cell (x + dx) (y + dy) ≠ '.')
    (ht : b.cell (x + dx) (y + dy) ≠ t) :
    board_walk x y dx dy t b WALK_REPLACE
      = board_walk_loop dx dy t WALK_REPLACE b.n (x + dx) (y + dy) 1
          (b.setCell (x + dx) (y + dy) t) := by
  unfold inBoard at hin
  unfold board_walk
  rw [board_walk_loop]
  simp only []
  rw [if_neg (by omega), if_neg hdot, if_pos ht, if_true]

theorem board_walk_replace_twice (b : boardType) (hwf : b.wf) (x y dx dy : Int) (t : Char) :
    ∃ r1 b1, board_walk x y dx dy t b WALK_REPLACE = some (r1, b1) ∧ b1.wf ∧ b1.n = b.n
      ∧ board_walk x y dx dy t b1 WALK_REPLACE = some (0, b1) := by
  by_cases h : ¬ inBoard b (x + dx) (y + dy) ∨ b.cell (x + dx) (y + dy) = '.'
      ∨ b.cell (x + dx) (y + dy) = t
  · have e := board_walk_stops_first b x y dx dy t WALK_REPLACE h
    exact ⟨0, b, e, hwf, rfl, e⟩
  · push_neg at h
    obtain ⟨hin, hdot, ht⟩ := h
    have hfirst := board_walk_replace_first b x y dx dy t hin hdot ht
    have hset : (b.setCell (x + dx) (y + dy) t).cell (x + dx) (y + dy) = t := by
      rw [cell_setCell b hwf _ _ _ _ t hin hin, if_pos ⟨rfl, rfl⟩]
    have hres : ∃ r1 b1, board_walk x y dx dy t b WALK_REPLACE = some (r1, b1) ∧ b1.wf
        ∧ b1.n = b.n ∧ b1.cell (x + dx) (y + dy) = t := by
      by_cases hd : dx ≠ 0 ∨ dy ≠ 0
      · have hs := board_walk_isSome x y dx dy t b WALK_REPLACE hd
        obtain ⟨⟨r1, b1⟩, e⟩ := Option.isSome_iff_exists.mp hs
        refine ⟨r1, b1, e, ?_⟩
        rw [hfirst] at e
        exact board_walk_loop_preserves
          (fun b' => b'.wf ∧ b'.n = b.n ∧ b'.cell (x + dx) (y + dy) = t) dx dy t WALK_REPLACE
          (by
            intro b' i j hb'
            refine ⟨setCell_wf b' i j t hb'.1, hb'.2.1, ?_⟩
            rcases cell_setCell_keep b' i j (x + dx) (y + dy) t with hk | hk
            · exact hk
            · rw [hk]; exact hb'.2.2)
          _ _ _ _ _ _ _ e ⟨setCell_wf b _ _ t hwf, rfl, hset⟩
      · push_neg at hd
        obtain ⟨rfl, rfl⟩ := hd
        simp only [add_zero] at hin hdot ht hfirst hset ⊢
        have hn : 0 < b.n := by unfold inBoard at hin; omega
        obtain ⟨m, hm⟩ : ∃ m, b.n = m + 1 := ⟨b.n - 1, by omega⟩
        rw [hm] at hfirst
        rw [board_walk_loop] at hfirst
        simp only [add_zero] at hfirst
        unfold inBoard at hin
        rw [if_neg (by rw [setCell_n]; omega), hset] at hfirst
        by_cases htd : t = '.'
        · rw [if_pos htd] at hfirst
          exact ⟨_, _, hfirst, setCell_wf b _ _ t hwf, rfl, hset⟩
        · rw [if_neg htd, if_neg (by simp)] at hfirst
          exact ⟨_, _, hfirst, setCell_wf b _ _ t hwf, rfl, hset⟩
    obtain ⟨r1, b1, e, hwf1, hn1, hc1⟩ := hres
    exact ⟨r1, b1, e, hwf1, hn1,
      board_walk_stops_first b1 x y dx dy t WALK_REPLACE (Or.inr (Or.inr hc1))⟩

/-- C19: on a well-formed board, `board_walk` in replace mode returns a board `b1`, and a
second run on the same ray from `b1` returns too, with count 0 and the board `b1` itself:
the second run changes no cell, whether or not the ray had a bracket. -/
theorem board_walk_replace_idempotent (b : boardType) (hwf : b.wf) (x y dx dy : Int)
    (t : Char) :
    ∃ r1 b1, board_walk x y dx dy t b WALK_REPLACE = some (r1, b1)
      ∧ board_walk x y dx dy t b1 WALK_REPLACE = some (0, b1) := by
  obtain ⟨r1, b1, e1, _, _, e2⟩ := board_walk_replace_twice b hwf x y dx dy t
  exact ⟨r1, b1, e1, e2⟩

theorem board_walk_replace_idempotent_witness :
    opening4.wf
      ∧ (∃ r1 b1, board_walk 0 1 1 0 'X' opening4 WALK_REPLACE = some (r1, b1)
        ∧ board_walk 0 1 1 0 'X' b1 WALK_REPLACE = some (0, b1))
      ∧ ∃ r1 b1, board_walk 0 0 1 1 'X' opening4 WALK_REPLACE = some (r1, b1)
        ∧ board_walk 0 0 1 1 'X' b1 WALK_REPLACE = some (0, b1) :=
  ⟨by decide, board_walk_replace_idempotent opening4 (by decide) 0 1 1 0 'X',
    board_walk_replace_idempotent opening4 (by decide) 0 0 1 1 'X'⟩

/-! ## No debug abort in a turn -/

theorem sysMessage_no_debug (m : Int) (g : gameType) (h1 : 1 ≤ m) (h2 : m ≤ 11) :
    Out.debug ∉ (sysMessage m g).out ∧ (sysMessage m g).status ≠ some (-1) := by
  have : m = 1 ∨ m = 2 ∨ m = 3 ∨ m = 4 ∨ m = 5 ∨ m = 6 ∨ m = 7 ∨ m = 8 ∨ m = 9 ∨ m = 10
      ∨ m = 11 := by omega
  rcases this with h | h | h | h | h | h | h | h | h | h | h <;> subst h <;>
    simp [sysMessage]

theorem game_save_no_debug (fname : List Char) (ok : Bool) (g : gameType) :
    Out.debug ∉ (game_save fname ok g).out ∧ (game_save fname ok g).status ≠ some (-1) := by
  unfold game_save
  simp only []
  split_ifs
  · exact sysMessage_no_debug 9 _ (by decide) (by decide)
  · exact sysMessage_no_debug 8 _ (by decide) (by decide)
  · exact sysMessage_no_debug 4 (game_set_fname fname g) (by decide) (by decide)

theorem player_try_move_no_debug (x y : Int) (g : gameType) :
    ∃ p, player_try_move x y g = some p ∧ Out.debug ∉ p.out ∧ p.status ≠ some (-1) := by
  obtain ⟨b', hput⟩ := game_put_tile_total x y g
  unfold player_try_move
  rw [hput]
  simp only []
  split_ifs
  · exact ⟨_, rfl, by simp, by simp⟩
  · exact ⟨_, rfl, by simp, by simp⟩
  · exact ⟨_, rfl, by simp [board_print], by simp⟩

theorem input_turn_no_debug (inp : Input) (g : gameType) :
    ∃ p, input_turn inp g = some p ∧ Out.debug ∉ p.out ∧ p.status ≠ some (-1) := by
  cases inp with
  | eof =>
    have h := sysMessage_no_debug 10 g (by decide) (by decide)
    exact ⟨_, rfl, by simpa using h.1, h.2⟩
  | save fname ok =>
    have h := game_save_no_debug fname ok g
    exact ⟨_, rfl, by simpa using h.1, h.2⟩
  | move a b =>
    obtain ⟨p, hp, h1, h2⟩ := player_try_move_no_debug a b g
    unfold input_turn
    simp only [hp]
    split_ifs
    · exact ⟨_, rfl, by simp, by simp⟩
    · exact ⟨_, rfl, by simpa using h1, h2⟩
  | other => exact ⟨_, rfl, by simp, by simp⟩

theorem marked_of_not_missing (g : gameType)
    (h : board_missing_char g.whoseTurn g.validMove = false) : ∃ i j, marked g i j := by
  have h2 : ¬ ∀ p ∈ cells g.validMove.n, g.validMove.cell p.1 p.2 ≠ g.whoseTurn := by
    intro hall
    have := (board_missing_char_iff g.whoseTurn g.validMove).mpr hall
    rw [h] at this
    exact absurd this (by decide)
  push_neg at h2
  obtain ⟨p, hp, hc⟩ := h2
  exact ⟨p.1, p.2, (mem_cells _ _).mp hp, hc⟩

theorem ai_turn_no_debug (g : gameType) (t : Int)
    (h : board_missing_char g.whoseTurn g.validMove = false) :
    ∃ p, ai_turn t g = some p ∧ Out.debug ∉ p.out ∧ p.status ≠ some (-1) := by
  obtain ⟨x, y, b', _, _, _, _, hai⟩ := ai_turn_spec g t (marked_of_not_missing g h)
  exact ⟨_, hai, by simp [board_print], by simp⟩

/-- C20: one call of `turn_decision` returns, and never through the debug abort
`sysMessage(0)`: the text of the abort is not printed and the exit status is not -1,
whatever the board, the turn byte, the player types and the pass counter.  When the valid
moves computed at the start of the turn hold a cell marked for the current player, the
scan of `ai_turn` stops at a marked cell and a tile is placed there, for either AI type. -/
theorem turn_decision_never_aborts (g : gameType) (inp : Input) :
    ∃ g1, (game_update_valid_moves g).map game_update_scoring = some g1
      ∧ g1.whoseTurn = g.whoseTurn
      ∧ (∃ p, turn_decision inp g = some p ∧ Out.debug ∉ p.out ∧ p.status ≠ some (-1)
          ∧ (board_missing_char g.whoseTurn g1.validMove = true →
              p.out ≠ [] ∧ ∀ c x y, Out.moves c x y ∉ p.out))
      ∧ (board_missing_char g.whoseTurn g1.validMove = false →
          (∃ i j, marked g1 i j)
            ∧ ∀ t, ∃ x y b', marked g1 x y ∧ ai_turn t g1 = some
                { game := { game_next_player { g1 with board := b' } with passes := 0 },
                  out := [Out.moves g1.whoseTurn x y, board_print b'],
                  status := none, file := none }) := by
  obtain ⟨vm, hvm, _⟩ := game_update_valid_moves_spec g
  refine ⟨game_update_scoring { g with validMove := vm }, by rw [hvm]; rfl, rfl, ?_, ?_⟩
  · unfold turn_decision
    rw [hvm]
    simp only []
    by_cases hfull : board_missing_char '.' (game_update_scoring { g with validMove := vm }).board
        = true
    · rw [if_pos hfull]
      have h := sysMessage_no_debug 2 (game_update_scoring { g with validMove := vm })
        (by decide) (by decide)
      exact ⟨_, rfl, h.1, h.2, fun _ => by simp [sysMessage]⟩
    · rw [if_neg hfull]
      by_cases hmiss : board_missing_char g.whoseTurn
          (game_update_scoring { g with validMove := vm }).validMove = true
      · rw [if_pos hmiss]
        split_ifs
        · have h := sysMessage_no_debug 3
            ({ game_next_player (game_update_scoring { g with validMove := vm }) with
              passes := (game_update_scoring { g with validMove := vm }).passes + 1 })
            (by decide) (by decide)
          exact ⟨_, rfl, by simpa using h.1, h.2, fun _ => by simp [sysMessage]⟩
        · exact ⟨_, rfl, by simp, by simp, fun _ => by simp⟩
      · rw [if_neg hmiss]
        have hm : board_missing_char (game_update_scoring { g with validMove := vm }).whoseTurn
            (game_update_scoring { g with validMove := vm }).validMove = false := by
          simpa using hmiss
        have hm2 : ¬ board_missing_char g.whoseTurn
            (game_update_scoring { g with validMove := vm }).validMove = true := hmiss
        split_ifs
        · obtain ⟨p, e, h1, h2⟩ := ai_turn_no_debug _ _ hm
          exact ⟨p, e, h1, h2, fun h => absurd h hm2⟩
        · obtain ⟨p, e, h1, h2⟩ := ai_turn_no_debug _ _ hm
          exact ⟨p, e, h1, h2, fun h => absurd h hm2⟩
        · obtain ⟨p, e, h1, h2⟩ := input_turn_no_debug inp _
          exact ⟨p, e, h1, h2, fun h => absurd h hm2⟩
  · intro hm
    have hm1 : board_missing_char (game_update_scoring { g with validMove := vm }).whoseTurn
        (game_update_scoring { g with validMove := vm }).validMove = false := hm
    refine ⟨marked_of_not_missing _ hm1, ?_⟩
    intro t
    obtain ⟨x, y, b', hmk, _, _, _, hai⟩ := ai_turn_spec _ t (marked_of_not_missing _ hm1)
    exact ⟨x, y, b', hmk, hai⟩

/-! ## Cell values in reachable states -/

theorem main_new_setup (argv : List (List Char)) (fopen : Option (List Char))
    (garbage : gameType) (p0 : Proc) (hnew : argv.getD 1 [] = ['n', 'e', 'w'])
    (hstart : main argv fopen garbage = some p0) (hplay : p0.status = none) :
    parse_setup argv (game_ini garbage) = some p0 := by
  unfold main parse_ini at hstart
  simp only [] at hstart
  split_ifs at hstart with h1 h2 h3
  · simp only [Option.some.injEq] at hstart; subst hstart; simp [sysMessage] at hplay
  · exact hstart
  · rw [hnew] at h3; exact absurd h3.1 (by decide)
  · simp only [Option.some.injEq] at hstart; subst hstart; simp [sysMessage] at hplay

/-- C21: in every game state reachable from a new game (`flip new N ...`, which starts to
play only for `N > 3`) through any sequence of calls of `turn_decision`, on any inputs, the
board is `N` rows of `N` cells, every cell is one of `.`, `O`, `X`, and the current-turn
indicator is `O` or `X`. -/
theorem cells_and_turn_reachable (argv : List (List Char)) (fopen : Option (List Char))
    (garbage : gameType) (p0 : Proc) (hnew : argv.getD 1 [] = ['n', 'e', 'w'])
    (hstart : main argv fopen garbage = some p0) (hplay : p0.status = none)
    (g : gameType) (st : Option Int) (hr : Reachable p0.game g st) :
    3 < g.board.n ∧ g.board.wf ∧ g.board.cellsOK
      ∧ (∀ i j, inBoard g.board i j →
          g.board.cell i j = '.' ∨ g.board.cell i j = 'O' ∨ g.board.cell i j = 'X')
      ∧ (g.whoseTurn = 'O' ∨ g.whoseTurn = 'X') := by
  have hsetup := main_new_setup argv fopen garbage p0 hnew hstart hplay
  obtain ⟨a, board, validMove, ha, hb, _, hpb, _, hturn, _⟩ :=
    parse_setup_spec argv _ p0 hsetup hplay
  obtain ⟨hwf, hok, hn⟩ := board_ini_spec _ _ hb
  rw [← hpb] at hwf hok hn
  have hinv : keeps (fun b => b.wf ∧ b.cellsOK ∧ b.n = p0.game.board.n) g := by
    induction hr with
    | start => exact ⟨⟨hwf, hok, rfl⟩, Or.inl (by rw [hturn]; rfl)⟩
    | turn inp p _ hstep ih =>
      refine turn_decision_keeps _ ?_ inp _ p ih hstep
      intro b i j c hc ⟨h1, h2, h3⟩
      exact ⟨setCell_wf b i j c h1,
        setCell_cellsOK b i j c h2 (Or.inr hc), by rw [setCell_n, h3]⟩
  obtain ⟨⟨h1, h2, h3⟩, h4⟩ := hinv
  refine ⟨by rw [h3, hn]; omega, h1, h2, ?_, h4⟩
  intro i j hij
  exact cell_ok g.board h1 h2 (i, j) ((mem_cells _ _).mpr hij)

theorem cells_and_turn_reachable_witness :
    3 < new4_moved.game.board.n ∧ new4_moved.game.board.wf ∧ new4_moved.game.board.cellsOK
      ∧ (∀ i j, inBoard new4_moved.game.board i j →
          new4_moved.game.board.cell i j = '.' ∨ new4_moved.game.board.cell i j = 'O'
            ∨ new4_moved.game.board.cell i j = 'X')
      ∧ (new4_moved.game.whoseTurn = 'O' ∨ new4_moved.game.whoseTurn = 'X') :=
  cells_and_turn_reachable [['f', 'l', 'i', 'p'], ['n', 'e', 'w'], ['4']] none blank
    { game := new4, out := [], status := none, file := none } (by decide) (by decide) rfl
    new4_moved.game new4_moved.status
    (Reachable.turn (Input.move 0 2) new4_moved Reachable.start (by decide))

/-! ## The effect of a placement on every board -/

theorem game_put_tile_loop_turns (b0 : boardType) (x y : Int) (t : Char) (ht : t ≠ '.') :
    ∀ (ds : List (Int × Int)) (b : boardType), ds.Nodup → (∀ d ∈ ds, d ∈ vect) → b.wf →
      b.n = b0.n →
      (∀ d ∈ ds, ∀ m : Nat,
        inBoard b0 (x + ((m : Int) + 1) * d.1) (y + ((m : Int) + 1) * d.2) →
        b.cell (x + ((m : Int) + 1) * d.1) (y + ((m : Int) + 1) * d.2)
          = b0.cell (x + ((m : Int) + 1) * d.1) (y + ((m : Int) + 1) * d.2)) →
      ∃ b', game_put_tile_loop x y t ds b = some b' ∧ b'.wf ∧ b'.n = b0.n
        ∧ ∀ i j, inBoard b0 i j →
          b'.cell i j = if turned b0 x y t ds i j then t else b.cell i j := by
  intro ds
  induction ds with
  | nil =>
    intro b _ _ hwf hn _
    refine ⟨b, rfl, hwf, hn, fun i j _ => ?_⟩
    rw [if_neg]
    rintro ⟨d, hd, _⟩
    simp at hd
  | cons d rest ih =>
    intro b hnd hsub hwf hn hray
    obtain ⟨dx, dy⟩ := d
    have hdv : (dx, dy) ∈ vect := hsub _ (by simp)
    have hdne : dx ≠ 0 ∨ dy ≠ 0 := vect_ne_zero _ hdv
    have hnd' : rest.Nodup := (List.nodup_cons.mp hnd).2
    have hnotin : (dx, dy) ∉ rest := (List.nodup_cons.mp hnd).1
    have hsub' : ∀ d ∈ rest, d ∈ vect := fun d hd => hsub d (List.mem_cons_of_mem _ hd)
    have hray' : ∀ d ∈ rest, ∀ m : Nat,
        inBoard b0 (x + ((m : Int) + 1) * d.1) (y + ((m : Int) + 1) * d.2) →
        b.cell (x + ((m : Int) + 1) * d.1) (y + ((m : Int) + 1) * d.2)
          = b0.cell (x + ((m : Int) + 1) * d.1) (y + ((m : Int) + 1) * d.2) :=
      fun d hd => hray d (List.mem_cons_of_mem _ hd)
    have hto : ∀ k, bracket b0 x y dx dy t k → bracket b x y dx dy t k := by
      intro k hk
      exact bracket_congr b0 b x y dx dy t k hn (fun m _ hin => hray (dx, dy) (by simp) m hin) hk
    have hfrom : ∀ k, bracket b x y dx dy t k → bracket b0 x y dx dy t k := by
      intro k hk
      refine bracket_congr b b0 x y dx dy t k hn.symm (fun m _ hin => ?_) hk
      have hin0 : inBoard b0 (x + ((m : Int) + 1) * dx) (y + ((m : Int) + 1) * dy) := by
        unfold inBoard at hin ⊢; rw [← hn]; exact hin
      exact (hray (dx, dy) (by simp) m hin0).symm
    -- the outcome when this direction turns nothing
    have hskip : (∀ k : Nat, bracket b0 x y dx dy t k → k % 256 = 0) →
        game_put_tile_loop x y t rest b = game_put_tile_loop x y t ((dx, dy) :: rest) b →
        ∃ b', game_put_tile_loop x y t ((dx, dy) :: rest) b = some b' ∧ b'.wf ∧ b'.n = b0.n
          ∧ ∀ i j, inBoard b0 i j →
            b'.cell i j = if turned b0 x y t ((dx, dy) :: rest) i j then t else b.cell i j := by
      intro hnone heq
      obtain ⟨b', h1, h2, h3, h4⟩ := ih b hnd' hsub' hwf hn hray'
      refine ⟨b', by rw [← heq]; exact h1, h2, h3, fun i j hij => ?_⟩
      rw [h4 i j hij]
      by_cases hf : turned b0 x y t rest i j
      · obtain ⟨d, hd, hrest⟩ := hf
        rw [if_pos ⟨d, hd, hrest⟩, if_pos ⟨d, List.mem_cons_of_mem _ hd, hrest⟩]
      · rw [if_neg hf, if_neg]
        rintro ⟨d, hd, k, m, hk, h256, hm, hi, hj⟩
        rcases List.mem_cons.mp hd with rfl | hd
        · exact h256 (hnone k hk)
        · exact hf ⟨d, hd, k, m, hk, h256, hm, hi, hj⟩
    by_cases hex : ∃ k, bracket b0 x y dx dy t k
    · obtain ⟨k, hk⟩ := hex
      have hval := board_walk_validate_bracket x y dx dy t ht b k (hto k hk)
      by_cases hk0 : k % 256 = 0
      · apply hskip
        · intro k' hk'
          have := bracket_unique b0 x y dx dy t _ _ hk hk'
          rw [← this]; exact hk0
        · simp only [game_put_tile_loop, hval, hk0]
          simp
      · have hkpos : 0 < k := by
          rcases Nat.eq_zero_or_pos k with h | h
          · subst h; simp at hk0
          · exact h
        have hrep := board_walk_loop_replace_bracket dx dy hdne t ht k (b.n + 1) x y 0 b hwf
          (hto k hk) (by have := bracket_lt b x y dx dy t k hkpos (hto k hk); omega)
        obtain ⟨b1, hr1, hwf1, hn1, hc1⟩ := hrep
        have hray1 : ∀ d ∈ rest, ∀ m : Nat,
            inBoard b0 (x + ((m : Int) + 1) * d.1) (y + ((m : Int) + 1) * d.2) →
            b1.cell (x + ((m : Int) + 1) * d.1) (y + ((m : Int) + 1) * d.2)
              = b0.cell (x + ((m : Int) + 1) * d.1) (y + ((m : Int) + 1) * d.2) := by
          intro d hd m hin
          have hinb : inBoard b (x + ((m : Int) + 1) * d.1) (y + ((m : Int) + 1) * d.2) := by
            unfold inBoard at hin ⊢; rw [hn]; exact hin
          rw [hc1 _ _ hinb, if_neg, hray' d hd m hin]
          rintro ⟨m', _, h1, h2⟩
          have hne : d ≠ (dx, dy) := fun e => hnotin (e ▸ hd)
          exact rays_disjoint x y d (dx, dy) (hsub' d hd) hdv hne m m' ⟨h1, h2⟩
        obtain ⟨b', h1, h2, h3, h4⟩ := ih b1 hnd' hsub' hwf1 (by rw [hn1, hn]) hray1
        refine ⟨b', ?_, h2, h3, fun i j hij => ?_⟩
        · have hr1' : board_walk x y dx dy t b WALK_REPLACE = some ((0 + k) % 256, b1) := hr1
          simp only [game_put_tile_loop, hval, hr1']
          rw [if_pos hk0]
          exact h1
        · have hijb : inBoard b i j := by
            unfold inBoard at hij ⊢; rw [hn]; exact hij
          rw [h4 i j hij, hc1 i j hijb]
          by_cases hf : turned b0 x y t rest i j
          · obtain ⟨d, hd, hrest⟩ := hf
            rw [if_pos ⟨d, hd, hrest⟩, if_pos ⟨d, List.mem_cons_of_mem _ hd, hrest⟩]
          · rw [if_neg hf]
            by_cases hon : ∃ m : Nat, m < k ∧ i = x + ((m : Int) + 1) * dx
                ∧ j = y + ((m : Int) + 1) * dy
            · obtain ⟨m, hm, hi, hj⟩ := hon
              rw [if_pos ⟨m, hm, hi, hj⟩, if_pos]
              exact ⟨(dx, dy), by simp, k, m, hk, hk0, hm, hi, hj⟩
            · rw [if_neg hon, if_neg]
              rintro ⟨d, hd, k', m, hk', _, hm, hi, hj⟩
              rcases List.mem_cons.mp hd with rfl | hd
              · have := bracket_unique b0 x y dx dy t _ _ hk hk'
                subst this
                exact hon ⟨m, hm, hi, hj⟩
              · exact hf ⟨d, hd, k', m, hk', by assumption, hm, hi, hj⟩
    · push_neg at hex
      have hval := board_walk_validate_no_bracket x y dx dy t b hdne
        (fun k hk => hex k (hfrom k hk))
      apply hskip
      · intro k hk
        exact absurd hk (hex k)
      · simp only [game_put_tile_loop, hval]
        simp

/-- What `game_put_tile` does on every board: the placed cell gets the tile of the current
player, the cells inside a bracket whose length is not a multiple of 256 get it too, and
every other cell keeps its value. -/
theorem game_put_tile_turns (g : gameType) (x y : Int) (hwf : g.board.wf)
    (hin : inBoard g.board x y) (ht : g.whoseTurn ≠ '.') :
    ∃ b', game_put_tile x y g = some { g with board := b' } ∧ b'.wf ∧ b'.n = g.board.n
      ∧ b'.cell x y = g.whoseTurn
      ∧ ∀ i j, inBoard g.board i j → ¬ (i = x ∧ j = y) →
        b'.cell i j = if turned g.board x y g.whoseTurn vect i j then g.whoseTurn
          else g.board.cell i j := by
  have hray : ∀ d ∈ vect, ∀ m : Nat,
      inBoard g.board (x + ((m : Int) + 1) * d.1) (y + ((m : Int) + 1) * d.2) →
      (g.board.setCell x y g.whoseTurn).cell (x + ((m : Int) + 1) * d.1)
          (y + ((m : Int) + 1) * d.2)
        = g.board.cell (x + ((m : Int) + 1) * d.1) (y + ((m : Int) + 1) * d.2) := by
    intro d hd m hm
    rw [cell_setCell g.board hwf _ _ x y _ hm hin,
      if_neg (step_ne d.1 d.2 (vect_ne_zero d hd) x y m)]
  obtain ⟨b', h1, h2, h3, h4⟩ := game_put_tile_loop_turns g.board x y g.whoseTurn ht
    vect (g.board.setCell x y g.whoseTurn) (by decide) (fun d hd => hd)
    (setCell_wf _ _ _ _ hwf) rfl hray
  obtain ⟨b'', hput, _, _, hxy⟩ := game_put_tile_frame x y g hwf hin
  have hput' : game_put_tile x y g = some { g with board := b' } := by
    simp [game_put_tile, h1]
  rw [hput'] at hput
  simp only [Option.some.injEq, gameType.mk.injEq, true_and, and_true] at hput
  subst hput
  refine ⟨b', hput', h2, h3, hxy, fun i j hij hne => ?_⟩
  rw [h4 i j hij, cell_setCell g.board hwf i j x y _ hij hin, if_neg hne]

theorem move_valid_loop_true (x y : Int) (tile : Char) (b : boardType) :
    ∀ ds : List (Int × Int), move_valid_loop x y tile b ds = some true →
      ∃ d ∈ ds, ∃ k, bracket b x y d.1 d.2 tile k ∧ k % 256 ≠ 0 := by
  intro ds
  induction ds with
  | nil => intro h; simp [move_valid_loop] at h
  | cons d rest ih =>
    intro h
    obtain ⟨dx, dy⟩ := d
    unfold move_valid_loop at h
    cases hw : board_walk x y dx dy tile b WALK_VALIDATE with
    | none => simp [hw] at h
    | some rb =>
      obtain ⟨r, b1⟩ := rb
      simp only [hw] at h
      by_cases hr : r ≠ 0
      · obtain ⟨_, hk⟩ := board_walk_loop_validate dx dy tile _ _ _ _ _ _ _ hw
        obtain ⟨k, hbr, hrk⟩ := hk hr
        refine ⟨(dx, dy), by simp, k, hbr, ?_⟩
        rw [Nat.zero_add] at hrk
        rw [← hrk]; exact hr
      · rw [if_neg hr] at h
        obtain ⟨d, hd, hrest⟩ := ih h
        exact ⟨d, List.mem_cons_of_mem _ hd, hrest⟩

theorem move_valid_true (x y : Int) (tile : Char) (b : boardType)
    (h : move_valid x y tile b = some true) :
    b.cell x y = '.' ∧ ∃ d ∈ vect, ∃ k, bracket b x y d.1 d.2 tile k ∧ k % 256 ≠ 0 := by
  unfold move_valid at h
  by_cases hc : b.cell x y ≠ '.'
  · rw [if_pos hc] at h; simp at h
  · rw [if_neg hc] at h
    exact ⟨not_not.mp hc, move_valid_loop_true x y tile b vect h⟩

theorem countP_lt_of (l : List (Int × Int)) (p q : Int × Int → Bool)
    (hqp : ∀ a ∈ l, q a = true → p a = true) (c : Int × Int) (hc : c ∈ l)
    (hpc : p c = true) (hqc : q c = false) : l.countP q < l.countP p := by
  induction l with
  | nil => simp at hc
  | cons a rest ih =>
    have hmono : rest.countP q ≤ rest.countP p :=
      List.countP_mono_left (fun a ha h => hqp a (List.mem_cons_of_mem _ ha) h)
    rcases List.mem_cons.mp hc with rfl | hc'
    · rw [List.countP_cons_of_pos _ _ hpc, List.countP_cons_of_neg _ _ (by simp [hqc])]
      omega
    · have := ih (fun a ha h => hqp a (List.mem_cons_of_mem _ ha) h) hc'
      by_cases hqa : q a = true
      · rw [List.countP_cons_of_pos _ _ hqa, List.countP_cons_of_pos _ _ (hqp a (by simp) hqa)]
        omega
      · rw [List.countP_cons_of_neg _ _ hqa]
        by_cases hpa : p a = true
        · rw [List.countP_cons_of_pos _ _ hpa]; omega
        · rw [List.countP_cons_of_neg _ _ hpa]; omega

theorem countP_remove_one (l : List (Int × Int)) (hnd : l.Nodup) (p q : Int × Int → Bool)
    (c : Int × Int) (hc : c ∈ l) (hpc : p c = true)
    (hq : ∀ a ∈ l, q a = true ↔ (p a = true ∧ a ≠ c)) : l.countP q + 1 = l.countP p := by
  induction l with
  | nil => simp at hc
  | cons a rest ih =>
    obtain ⟨hna, hnd'⟩ := List.nodup_cons.mp hnd
    rcases List.mem_cons.mp hc with rfl | hc'
    · have hqc : ¬ q c = true := fun h => ((hq c (by simp)).mp h).2 rfl
      rw [List.countP_cons_of_pos _ _ hpc, List.countP_cons_of_neg _ _ hqc]
      have : rest.countP q = rest.countP p := by
        apply List.countP_congr
        intro a ha
        have hne : a ≠ c := fun e => hna (e ▸ ha)
        constructor
        · intro h; exact ((hq a (List.mem_cons_of_mem _ ha)).mp h).1
        · intro h; exact (hq a (List.mem_cons_of_mem _ ha)).mpr ⟨h, hne⟩
      omega
    · have := ih hnd' hc' (fun a ha => hq a (List.mem_cons_of_mem _ ha))
      have hne : a ≠ c := fun e => hna (e ▸ hc')
      by_cases hpa : p a = true
      · rw [List.countP_cons_of_pos _ _ hpa,
          List.countP_cons_of_pos _ _ ((hq a (by simp)).mpr ⟨hpa, hne⟩)]
        omega
      · have hqa : ¬ q a = true := fun h => hpa ((hq a (by simp)).mp h).1
        rw [List.countP_cons_of_neg _ _ hpa, List.countP_cons_of_neg _ _ hqa]
        exact this

theorem turned_opposing (b : boardType) (x y : Int) (t : Char) (ds : List (Int × Int))
    (i j : Int) (h : turned b x y t ds i j) : inBoard b i j ∧ opposing t (b.cell i j) := by
  obtain ⟨d, _, k, m, hk, _, hm, rfl, rfl⟩ := h
  exact hk.1 m hm

theorem game_put_tile_cells (g : gameType) (x y : Int) (hwf : g.board.wf)
    (hin : inBoard g.board x y) (ht : g.whoseTurn ≠ '.') :
    ∃ b', game_put_tile x y g = some { g with board := b' } ∧ b'.wf ∧ b'.n = g.board.n
      ∧ ∀ a ∈ cells g.board.n,
        b'.cell a.1 a.2 =
          if a = (x, y) then g.whoseTurn
          else if turned g.board x y g.whoseTurn vect a.1 a.2 then g.whoseTurn
          else g.board.cell a.1 a.2 := by
  obtain ⟨b', h1, h2, h3, h4, h5⟩ := game_put_tile_turns g x y hwf hin ht
  refine ⟨b', h1, h2, h3, ?_⟩
  intro a ha
  obtain ⟨i, j⟩ := a
  by_cases he : (i, j) = (x, y)
  · rw [if_pos he]
    simp only [Prod.mk.injEq] at he
    obtain ⟨rfl, rfl⟩ := he
    exact h4
  · rw [if_neg he]
    exact h5 i j ((mem_cells _ _).mp ha) (by simpa using he)

theorem game_put_tile_empties (g : gameType) (x y : Int) (hwf : g.board.wf)
    (hin : inBoard g.board x y) (ht : g.whoseTurn ≠ '.') (hempty : g.board.cell x y = '.') :
    ∃ b', game_put_tile x y g = some { g with board := b' } ∧ b'.wf ∧ b'.n = g.board.n
      ∧ countCells '.' b' + 1 = countCells '.' g.board := by
  obtain ⟨b', h1, h2, h3, hcell⟩ := game_put_tile_cells g x y hwf hin ht
  refine ⟨b', h1, h2, h3, ?_⟩
  unfold countCells
  rw [h3]
  apply countP_remove_one (cells g.board.n) (cells_nodup _) _ _ (x, y)
    ((mem_cells _ _).mpr hin) (by simpa using hempty)
  intro a ha
  rw [decide_eq_true_iff, decide_eq_true_iff, hcell a ha]
  by_cases he : a = (x, y)
  · rw [if_pos he]
    exact ⟨fun h => absurd h ht, fun h => absurd he h.2⟩
  · rw [if_neg he]
    by_cases htu : turned g.board x y g.whoseTurn vect a.1 a.2
    · rw [if_pos htu]
      exact ⟨fun h => absurd h ht,
        fun h => absurd h.1 (turned_opposing _ _ _ _ _ _ _ htu).2.1⟩
    · rw [if_neg htu]
      exact ⟨fun h => ⟨h, he⟩, fun h => h.1⟩

/-- C22: on a board of `N` rows of `N` cells, all of them `.`, `O` or `X`, with `O` or `X`
to move and `(x, y)` a cell for which `move_valid` returns true, `game_put_tile` at
`(x, y)` returns and turns at least one cell of the opponent into a cell of the player:
the number of cells of the player grows by at least 2, the number of cells of the opponent
falls by at least 1, and the number of empty cells falls by exactly 1. -/
theorem game_put_tile_valid_counts (g : gameType) (x y : Int) (hwf : g.board.wf)
    (hok : g.board.cellsOK) (hturn : g.whoseTurn = 'O' ∨ g.whoseTurn = 'X')
    (hin : inBoard g.board x y) (hv : move_valid x y g.whoseTurn g.board = some true) :
    ∃ b', game_put_tile x y g = some { g with board := b' } ∧ b'.wf ∧ b'.n = g.board.n
      ∧ (∃ i j, inBoard g.board i j
          ∧ g.board.cell i j = (if g.whoseTurn = 'O' then 'X' else 'O')
          ∧ b'.cell i j = g.whoseTurn)
      ∧ countCells g.whoseTurn g.board + 2 ≤ countCells g.whoseTurn b'
      ∧ countCells (if g.whoseTurn = 'O' then 'X' else 'O') b' + 1
          ≤ countCells (if g.whoseTurn = 'O' then 'X' else 'O') g.board
      ∧ countCells '.' b' + 1 = countCells '.' g.board := by
  have ht : g.whoseTurn ≠ '.' := by
    rcases hturn with h | h <;> rw [h] <;> decide
  have hother : (if g.whoseTurn = 'O' then 'X' else 'O') ≠ g.whoseTurn := by
    rcases hturn with h | h <;> rw [h] <;> decide
  obtain ⟨hempty, d, hd, k, hk, hk256⟩ := move_valid_true x y g.whoseTurn g.board hv
  obtain ⟨b', h1, h2, h3, he⟩ := game_put_tile_empties g x y hwf hin ht hempty
  obtain ⟨b'', h1', _, _, hcell⟩ := game_put_tile_cells g x y hwf hin ht
  rw [h1] at h1'
  simp only [Option.some.injEq, gameType.mk.injEq, true_and, and_true] at h1'
  subst h1'
  have hkpos : 0 < k := by
    rcases Nat.eq_zero_or_pos k with h | h
    · subst h; simp at hk256
    · exact h
  -- the first cell of the bracket
  have hturned : turned g.board x y g.whoseTurn vect (x + d.1) (y + d.2) :=
    ⟨d, hd, k, 0, hk, hk256, hkpos, by simp, by simp⟩
  obtain ⟨hcin, hcopp⟩ := turned_opposing _ _ _ _ _ _ _ hturned
  have hcmem : (x + d.1, y + d.2) ∈ cells g.board.n := (mem_cells _ _).mpr hcin
  have hcne : (x + d.1, y + d.2) ≠ (x, y) := by
    intro e
    simp only [Prod.mk.injEq] at e
    have := step_ne d.1 d.2 (vect_ne_zero d hd) x y 0
    simp only [Nat.cast_zero, zero_add, one_mul] at this
    exact this e
  have hcnew : b'.cell (x + d.1) (y + d.2) = g.whoseTurn := by
    have := hcell _ hcmem
    rw [if_neg hcne, if_pos hturned] at this
    exact this
  have hcold : g.board.cell (x + d.1) (y + d.2) = (if g.whoseTurn = 'O' then 'X' else 'O') := by
    have h3c := cell_ok g.board hwf hok _ hcmem
    simp only [] at h3c
    obtain ⟨o1, o2⟩ := hcopp
    rcases hturn with h | h
    · rw [h] at o2 ⊢
      rcases h3c with c | c | c
      · exact absurd c o1
      · exact absurd c o2
      · rw [c]; rfl
    · rw [h] at o2 ⊢
      rcases h3c with c | c | c
      · exact absurd c o1
      · rw [c]; rfl
      · exact absurd c o2
  refine ⟨b', h1, h2, h3, ⟨_, _, hcin, hcold, hcnew⟩, ?_, ?_, he⟩
  · -- cells of the player
    unfold countCells
    rw [h3]
    have s1 : (cells g.board.n).countP (fun p => decide (g.board.cell p.1 p.2 = g.whoseTurn))
        < (cells g.board.n).countP
            (fun p => decide (g.board.cell p.1 p.2 = g.whoseTurn) || decide (p = (x, y))) := by
      apply countP_lt_of _ _ _ _ (x, y) ((mem_cells _ _).mpr hin)
      · simp
      · simp only [decide_eq_false_iff_not]
        rw [hempty]; exact fun h => ht h.symm
      · intro a _ h; simp only [Bool.or_eq_true]; exact Or.inl h
    have s2 : (cells g.board.n).countP
            (fun p => decide (g.board.cell p.1 p.2 = g.whoseTurn) || decide (p = (x, y)))
        < (cells g.board.n).countP (fun p => decide (b'.cell p.1 p.2 = g.whoseTurn)) := by
      apply countP_lt_of _ _ _ _ (x + d.1, y + d.2) hcmem
      · simpa using hcnew
      · simp only [Bool.or_eq_false_iff, decide_eq_false_iff_not]
        exact ⟨hcopp.2, hcne⟩
      · intro a ha h
        simp only [Bool.or_eq_true, decide_eq_true_iff] at h
        rw [decide_eq_true_iff, hcell a ha]
        by_cases e : a = (x, y)
        · rw [if_pos e]
        · rw [if_neg e]
          rcases h with h | h
          · split_ifs
            · rfl
            · exact h
          · exact absurd h e
    omega
  · -- cells of the opponent
    unfold countCells
    rw [h3]
    have := countP_lt_of (cells g.board.n)
      (fun p => decide (g.board.cell p.1 p.2 = (if g.whoseTurn = 'O' then 'X' else 'O')))
      (fun p => decide (b'.cell p.1 p.2 = (if g.whoseTurn = 'O' then 'X' else 'O')))
      (by
        intro a ha h
        rw [decide_eq_true_iff] at h ⊢
        rw [hcell a ha] at h
        by_cases e : a = (x, y)
        · rw [if_pos e] at h; exact absurd h.symm hother
        · rw [if_neg e] at h
          by_cases htu : turned g.board x y g.whoseTurn vect a.1 a.2
          · rw [if_pos htu] at h; exact absurd h.symm hother
          · rw [if_neg htu] at h; exact h)
      (x + d.1, y + d.2) hcmem (by simpa using hcold)
      (by
        simp only [decide_eq_false_iff_not]
        rw [hcnew]; exact fun h => hother h.symm)
    omega

theorem game_put_tile_valid_counts_witness :
    new4.board.wf ∧ new4.board.cellsOK ∧ inBoard new4.board 0 2
      ∧ move_valid 0 2 new4.whoseTurn new4.board = some true
      ∧ ∃ b', game_put_tile 0 2 new4 = some { new4 with board := b' } ∧ b'.wf
        ∧ b'.n = new4.board.n
        ∧ (∃ i j, inBoard new4.board i j
            ∧ new4.board.cell i j = (if new4.whoseTurn = 'O' then 'X' else 'O')
            ∧ b'.cell i j = new4.whoseTurn)
        ∧ countCells new4.whoseTurn new4.board + 2 ≤ countCells new4.whoseTurn b'
        ∧ countCells (if new4.whoseTurn = 'O' then 'X' else 'O') b' + 1
            ≤ countCells (if new4.whoseTurn = 'O' then 'X' else 'O') new4.board
        ∧ countCells '.' b' + 1 = countCells '.' new4.board :=
  ⟨by decide, by decide, by decide, by decide,
    game_put_tile_valid_counts new4 0 2 (by decide) (by decide) (by decide) (by decide)
      (by decide)⟩

/-! ## Games between two AI players -/

theorem game_next_player_pTypes (g : gameType) :
    (game_next_player g).pTypeO = g.pTypeO ∧ (game_next_player g).pTypeX = g.pTypeX := by
  unfold game_next_player; split_ifs <;> exact ⟨rfl, rfl⟩

/-- An AI move from a state whose valid-move grid marks only cells on which `move_valid`
holds: a tile is placed on an empty cell and the turn goes to the other player. -/
theorem ai_turn_move (g : gameType) (h : aiGame g)
    (hmv : ∀ i j, marked g i j → move_valid i j g.whoseTurn g.board = some true)
    (hex : ∃ i j, marked g i j) (t : Int) :
    ∃ p, ai_turn t g = some p ∧ readsInput p = false ∧ p.status = none ∧ aiGame p.game
      ∧ countCells '.' p.game.board + 1 = countCells '.' g.board ∧ p.game.passes = 0 := by
  obtain ⟨⟨hbw, hvw, hvn⟩, hturn, _, hO, hX⟩ := h
  have ht : g.whoseTurn ≠ '.' := by rcases hturn with h | h <;> rw [h] <;> decide
  obtain ⟨x, y, b', hm, _, _, hput, hai⟩ := ai_turn_spec g t hex
  have hin : inBoard g.board x y := by
    have := hm.1
    unfold inBoard at this ⊢
    rw [← hvn]; exact this
  obtain ⟨hempty, _⟩ := move_valid_true x y g.whoseTurn g.board (hmv x y hm)
  obtain ⟨b'', hput', hw, hn, hcount⟩ := game_put_tile_empties g x y hbw hin ht hempty
  rw [hput] at hput'
  simp only [Option.some.injEq, gameType.mk.injEq, true_and, and_true] at hput'
  subst hput'
  refine ⟨_, hai, by simp [readsInput, board_print], rfl, ?_, ?_, rfl⟩
  · refine ⟨⟨?_, ?_, ?_⟩, game_next_player_turn _,
      by show (0 : Int) < 2147483647; decide, ?_, ?_⟩
    · show (game_next_player _).board.wf
      rw [game_next_player_board]; exact hw
    · show (game_next_player _).validMove.wf
      rw [game_next_player_validMove]; exact hvw
    · show (game_next_player _).validMove.n = (game_next_player _).board.n
      rw [game_next_player_validMove, game_next_player_board]
      show g.validMove.n = b'.n
      rw [hn, hvn]
    · show (game_next_player _).pTypeO = 1 ∨ (game_next_player _).pTypeO = 2
      rw [(game_next_player_pTypes _).1]; exact hO
    · show (game_next_player _).pTypeX = 1 ∨ (game_next_player _).pTypeX = 2
      rw [(game_next_player_pTypes _).2]; exact hX
  · show countCells '.' (game_next_player _).board + 1 = countCells '.' g.board
    rw [game_next_player_board]; exact hcount

/-- One turn of a game between two AI players: the game ends, or a tile is placed on an
empty cell, or the player passes. -/
theorem turn_decision_ai_step (g : gameType) (h : aiGame g) (inp : Input) :
    ∃ p, turn_decision inp g = some p ∧ readsInput p = false
      ∧ ((p.status = some 0 ∧ ∃ a b, p.out.getLast? = some (Out.gameOver a b))
        ∨ (p.status = none ∧ aiGame p.game
            ∧ countCells '.' p.game.board + 1 = countCells '.' g.board ∧ p.game.passes = 0)
        ∨ (p.status = none ∧ aiGame p.game ∧ p.game.board = g.board
            ∧ p.game.passes = g.passes + 1 ∧ p.game.passes ≤ 1)) := by
  have h' := h
  obtain ⟨⟨hbw, hvw, hvn⟩, hturn, hpass, hO, hX⟩ := h'
  have ht : g.whoseTurn ≠ '.' := by rcases hturn with h | h <;> rw [h] <;> decide
  obtain ⟨vm, hvm, hvmw, hvmn, hcell⟩ := game_update_valid_moves_cells g hvw
  unfold turn_decision
  simp only [hvm]
  rw [game_update_scoring_counts]
  simp only []
  by_cases h1 : board_missing_char '.' g.board = true
  · rw [if_pos h1]
    exact ⟨_, rfl, by simp [sysMessage, readsInput], Or.inl ⟨by simp [sysMessage],
      by simp [sysMessage]⟩⟩
  · rw [if_neg h1]
    by_cases h2 : board_missing_char g.whoseTurn vm = true
    · rw [if_pos h2]
      by_cases hp : g.passes + 1 > 1
      · rw [if_pos hp]
        exact ⟨_, rfl, by simp [sysMessage, readsInput], Or.inl ⟨by simp [sysMessage],
          by simp [sysMessage]⟩⟩
      · rw [if_neg hp]
        refine ⟨_, rfl, by simp [readsInput], Or.inr (Or.inr ⟨rfl, ?_,
          game_next_player_board _, rfl, by show g.passes + 1 ≤ 1; omega⟩)⟩
        refine ⟨⟨?_, ?_, ?_⟩, game_next_player_turn _, by show g.passes + 1 < 2147483647; omega,
          ?_, ?_⟩
        · show (game_next_player _).board.wf
          rw [game_next_player_board]; exact hbw
        · show (game_next_player _).validMove.wf
          rw [game_next_player_validMove]; exact hvmw
        · show (game_next_player _).validMove.n = (game_next_player _).board.n
          rw [game_next_player_validMove, game_next_player_board]
          show vm.n = g.board.n
          rw [hvmn, hvn]
        · show (game_next_player _).pTypeO = 1 ∨ (game_next_player _).pTypeO = 2
          rw [(game_next_player_pTypes _).1]; exact hO
        · show (game_next_player _).pTypeX = 1 ∨ (game_next_player _).pTypeX = 2
          rw [(game_next_player_pTypes _).2]; exact hX
    · rw [if_neg h2]
      have hg1 : aiGame
          { g with
            validMove := vm,
            scoreO := (countCells 'O' g.board : Int),
            scoreX := (countCells 'X' g.board : Int) } :=
        ⟨⟨hbw, hvmw, by show vm.n = g.board.n; rw [hvmn, hvn]⟩, hturn, hpass, hO, hX⟩
      have hmv : ∀ i j, marked
            { g with
              validMove := vm,
              scoreO := (countCells 'O' g.board : Int),
              scoreX := (countCells 'X' g.board : Int) } i j →
          move_valid i j g.whoseTurn g.board = some true := by
        intro i j hm
        obtain ⟨hin, hc⟩ := hm
        have hin' : inBoard g.validMove i j := by
          unfold inBoard at hin ⊢
          rw [← hvmn]; exact hin
        have hc' : vm.cell i j = g.whoseTurn := hc
        rw [hcell i j hin'] at hc'
        by_contra hne
        rw [if_neg hne] at hc'
        exact ht hc'.symm
      have hex := marked_of_not_missing
        { g with
          validMove := vm,
          scoreO := (countCells 'O' g.board : Int),
          scoreX := (countCells 'X' g.board : Int) } (by simpa using h2)
      have hai := ai_turn_move _ hg1 hmv hex
      split_ifs with h3 h4
      · obtain ⟨p, e, r, s, a, c, z⟩ := hai g.pTypeO
        exact ⟨p, e, r, Or.inr (Or.inl ⟨s, a, c, z⟩)⟩
      · obtain ⟨p, e, r, s, a, c, z⟩ := hai g.pTypeX
        exact ⟨p, e, r, Or.inr (Or.inl ⟨s, a, c, z⟩)⟩
      · exfalso
        rcases hturn with hturn | hturn
        · apply h3
          refine ⟨hturn, ?_⟩
          show g.pTypeO ≠ 0
          rcases hO with e | e <;> rw [e] <;> decide
        · apply h4
          refine ⟨hturn, ?_⟩
          show g.pTypeX ≠ 0
          rcases hX with e | e <;> rw [e] <;> decide

theorem turnsLeft_step (g g' : gameType)
    (h : (countCells '.' g'.board + 1 = countCells '.' g.board ∧ g'.passes = 0)
      ∨ (g'.board = g.board ∧ g'.passes = g.passes + 1 ∧ g'.passes ≤ 1)) :
    turnsLeft g' < turnsLeft g := by
  unfold turnsLeft
  rcases h with ⟨h1, h2⟩ | ⟨h1, h2, h3⟩
  · rw [h2]
    have : ((2 : Int) - 0).toNat = 2 := by decide
    rw [this]
    omega
  · rw [h1, h2]
    omega

theorem play_loop_ai (inputs : List Input) :
    ∀ (μ : Nat) (g : gameType) (out : List Out), aiGame g → turnsLeft g ≤ μ →
      ∃ p, (∀ fuel, μ < fuel → play_loop fuel inputs g out = some p) ∧ p.status = some 0
        ∧ ∃ a b, p.out.getLast? = some (Out.gameOver a b) := by
  intro μ
  induction μ with
  | zero =>
    intro g out hg hμ
    obtain ⟨p, hstep, hr, hcase⟩ := turn_decision_ai_step g hg (inputs.headD Input.eof)
    rcases hcase with ⟨hs, a, b, hl⟩ | ⟨_, _, h1, h2⟩ | ⟨_, _, h1, h2, h3⟩
    · refine ⟨{ p with out := out ++ p.out }, ?_, hs, a, b, ?_⟩
      · intro fuel hf
        obtain ⟨f, rfl⟩ : ∃ f, fuel = f + 1 := ⟨fuel - 1, by omega⟩
        unfold play_loop
        simp only [hstep, hs, Option.isSome_some, if_true]
      · show (out ++ p.out).getLast? = _
        rw [List.getLast?_append, hl]; rfl
    · have := turnsLeft_step g p.game (Or.inl ⟨h1, h2⟩); omega
    · have := turnsLeft_step g p.game (Or.inr ⟨h1, h2, h3⟩); omega
  | succ μ ih =>
    intro g out hg hμ
    obtain ⟨p, hstep, hr, hcase⟩ := turn_decision_ai_step g hg (inputs.headD Input.eof)
    have hnext : p.status = none → aiGame p.game → turnsLeft p.game < turnsLeft g →
        ∃ q, (∀ fuel, μ + 1 < fuel → play_loop fuel inputs g out = some q)
          ∧ q.status = some 0 ∧ ∃ a b, q.out.getLast? = some (Out.gameOver a b) := by
      intro hs hg' hlt
      obtain ⟨q, hq, hqs, hql⟩ := ih p.game (out ++ p.out) hg' (by omega)
      refine ⟨q, ?_, hqs, hql⟩
      intro fuel hf
      obtain ⟨f, rfl⟩ : ∃ f, fuel = f + 1 := ⟨fuel - 1, by omega⟩
      unfold play_loop
      simp only [hstep, hs, Option.isSome_none, hr]
      exact hq f (by omega)
    rcases hcase with ⟨hs, a, b, hl⟩ | ⟨hs, hg', h1, h2⟩ | ⟨hs, hg', h1, h2, h3⟩
    · refine ⟨{ p with out := out ++ p.out }, ?_, hs, a, b, ?_⟩
      · intro fuel hf
        obtain ⟨f, rfl⟩ : ∃ f, fuel = f + 1 := ⟨fuel - 1, by omega⟩
        unfold play_loop
        simp only [hstep, hs, Option.isSome_some, if_true]
      · show (out ++ p.out).getLast? = _
        rw [List.getLast?_append, hl]; rfl
    · exact hnext hs hg' (turnsLeft_step g p.game (Or.inl ⟨h1, h2⟩))
    · exact hnext hs hg' (turnsLeft_step g p.game (Or.inr ⟨h1, h2, h3⟩))

/-- C23: in a game between two AI players (both types 1 or 2) with `O` or `X` to move,
every call of `turn_decision` returns without reading input and either ends the game with
exit status 0, or places a tile on an empty cell (one empty cell less, pass counter 0), or
passes (same board, pass counter one higher and still at most 1); so the loop of `play`
ends: from `turnsLeft g + 1` rounds of fuel on, `play` returns one and the same result,
with exit status 0 and the Game Over line printed last. -/
theorem play_ai_terminates (g : gameType) (h : aiGame g) (inputs : List Input) :
    (∀ inp, ∃ p, turn_decision inp g = some p ∧ readsInput p = false
      ∧ ((p.status = some 0 ∧ ∃ a b, p.out.getLast? = some (Out.gameOver a b))
        ∨ (p.status = none ∧ aiGame p.game
            ∧ countCells '.' p.game.board + 1 = countCells '.' g.board ∧ p.game.passes = 0)
        ∨ (p.status = none ∧ aiGame p.game ∧ p.game.board = g.board
            ∧ p.game.passes = g.passes + 1 ∧ p.game.passes ≤ 1)))
      ∧ ∃ p, (∀ fuel, turnsLeft g < fuel → play fuel inputs g = some p)
        ∧ p.status = some 0 ∧ ∃ a b, p.out.getLast? = some (Out.gameOver a b) := by
  refine ⟨fun inp => turn_decision_ai_step g h inp, ?_⟩
  obtain ⟨p, hp, hs, hl⟩ := play_loop_ai inputs (turnsLeft g) g [board_print g.board] h
    (le_refl _)
  exact ⟨p, fun fuel hf => hp fuel hf, hs, hl⟩

theorem play_ai_terminates_witness :
    aiGame ai4
      ∧ (∀ inp, ∃ p, turn_decision inp ai4 = some p ∧ readsInput p = false
        ∧ ((p.status = some 0 ∧ ∃ a b, p.out.getLast? = some (Out.gameOver a b))
          ∨ (p.status = none ∧ aiGame p.game
              ∧ countCells '.' p.game.board + 1 = countCells '.' ai4.board
              ∧ p.game.passes = 0)
          ∨ (p.status = none ∧ aiGame p.game ∧ p.game.board = ai4.board
              ∧ p.game.passes = ai4.passes + 1 ∧ p.game.passes ≤ 1)))
      ∧ ∃ p, (∀ fuel, turnsLeft ai4 < fuel → play fuel [] ai4 = some p)
        ∧ p.status = some 0 ∧ ∃ a b, p.out.getLast? = some (Out.gameOver a b) :=
  ⟨by decide, play_ai_terminates ai4 (by decide) []⟩

/-! ## Long brackets -/

theorem game_put_tile_congr (x y : Int) (ga gb : gameType) (e1 : ga.board = gb.board)
    (e2 : ga.whoseTurn = gb.whoseTurn) (b' : boardType)
    (h : game_put_tile x y ga = some { ga with board := b' }) :
    game_put_tile x y gb = some { gb with board := b' } := by
  unfold game_put_tile at h ⊢
  simp only [] at h ⊢
  rw [← e1, ← e2]
  cases hl : game_put_tile_loop x y ga.whoseTurn vect (ga.board.setCell x y ga.whoseTurn) with
  | none => simp [hl] at h
  | some bb =>
    simp only [hl, Option.some.injEq, gameType.mk.injEq, true_and, and_true] at h ⊢
    exact h

/-- A turn of a human player who submits a cell for which `move_valid` holds: the turn
goes through `player_try_move` to `game_put_tile` at that cell. -/
theorem turn_decision_human_move (g : gameType) (hwf : g.wf) (hn32 : g.board.n < 4294967296)
    (hturn : g.whoseTurn = 'O' ∨ g.whoseTurn = 'X') (hO : g.pTypeO = 0) (hX : g.pTypeX = 0)
    (x y : Int) (hin : inBoard g.board x y) (hx : x < INT_MAX) (hy : y < INT_MAX)
    (hv : move_valid x y g.whoseTurn g.board = some true) :
    ∃ b', game_put_tile x y g = some { g with board := b' }
      ∧ ∃ p, turn_decision (Input.move x y) g = some p ∧ p.status = none
        ∧ p.game.board = b' := by
  obtain ⟨hbw, hvw, hvn⟩ := hwf
  have ht : g.whoseTurn ≠ '.' := by rcases hturn with h | h <;> rw [h] <;> decide
  obtain ⟨vm, hvm, hvmw, hvmn, hcell⟩ := game_update_valid_moves_cells g hvw
  obtain ⟨hempty, _⟩ := move_valid_true x y g.whoseTurn g.board hv
  have hinv : inBoard g.validMove x y := by
    unfold inBoard at hin ⊢; rw [hvn]; exact hin
  have hmark : vm.cell x y = g.whoseTurn := by rw [hcell x y hinv, if_pos hv]
  have h1 : ¬ board_missing_char '.' g.board = true := by
    rw [board_missing_char_iff]
    intro hall
    exact hall (x, y) ((mem_cells _ _).mpr hin) hempty
  have h2 : ¬ board_missing_char g.whoseTurn vm = true := by
    rw [board_missing_char_iff]
    intro hall
    refine hall (x, y) ((mem_cells _ _).mpr ?_) hmark
    unfold inBoard at hinv; rw [hvmn]; exact hinv
  have hwf1 : gameType.wf
      { g with
        validMove := vm,
        scoreO := (countCells 'O' g.board : Int),
        scoreX := (countCells 'X' g.board : Int) } :=
    ⟨hbw, hvmw, by show vm.n = g.board.n; rw [hvmn, hvn]⟩
  have hm : marked
      { g with
        validMove := vm,
        scoreO := (countCells 'O' g.board : Int),
        scoreX := (countCells 'X' g.board : Int) } x y :=
    ⟨by unfold inBoard at hinv ⊢; show 0 ≤ x ∧ 0 ≤ y ∧ x < vm.n ∧ y < vm.n; rw [hvmn]; exact hinv,
      hmark⟩
  obtain ⟨b', hput, hmove⟩ := player_try_move_legal _ hwf1 hn32 x y hm
  refine ⟨b', game_put_tile_congr x y
    { g with
      validMove := vm,
      scoreO := (countCells 'O' g.board : Int),
      scoreX := (countCells 'X' g.board : Int) } g rfl rfl b' hput, ?_⟩
  unfold turn_decision
  simp only [hvm]
  rw [game_update_scoring_counts]
  simp only []
  rw [if_neg h1, if_neg h2, if_neg (by rintro ⟨_, h⟩; exact h hO),
    if_neg (by rintro ⟨_, h⟩; exact h hX)]
  unfold input_turn
  simp only []
  have hx0 := hin.1
  have hy0 := hin.2.1
  rw [if_neg (by omega), hmove]
  simp only []
  refine ⟨_, rfl, rfl, ?_⟩
  show (game_next_player _).board = b'
  rw [game_next_player_board]

set_option maxRecDepth 100000 in
/-- C1, the code at the failing input: on `longCross` with `O` to move, `(0, 0)` is an
empty cell for which `move_valid` holds (through the `X` at `(1, 0)` and the `O` at
`(2, 0)`), and the 256 `X` tiles of the first row lie between `(0, 0)` and the `O` at
`(0, 257)`.  When the player submits `0 0`, whatever the valid-move grid held before the
turn, `turn_decision` places the tile through `game_put_tile`: `(0, 0)` and `(1, 0)` become
`O`, but the bracketed cells `(0, 1)` and `(0, 256)` stay `X`; `board_walk` returned
`256 mod 256 = 0` for their direction. -/
theorem game_put_tile_misses_long_bracket :
    longCross.wf ∧ longCross.cellsOK ∧ inBoard longCross 0 0
      ∧ move_valid 0 0 'O' longCross = some true
      ∧ bracket longCross 0 0 0 1 'O' 256
      ∧ board_walk 0 0 0 1 'O' longCross WALK_VALIDATE = some (0, longCross)
      ∧ ∀ vm0 : boardType, vm0.wf → vm0.n = 258 →
        ∃ p, turn_decision (Input.move 0 0) { longCrossGame with validMove := vm0 } = some p
          ∧ p.status = none
          ∧ game_put_tile 0 0 { longCrossGame with validMove := vm0 }
              = some { longCrossGame with validMove := vm0, board := p.game.board }
          ∧ p.game.board.cell 0 0 = 'O' ∧ p.game.board.cell 1 0 = 'O'
          ∧ p.game.board.cell 0 1 = 'X' ∧ p.game.board.cell 0 256 = 'X' := by
  have hwfb : longCross.wf := by decide
  have hin : inBoard longCross 0 0 := by decide
  have hmv : move_valid 0 0 'O' longCross = some true := by decide
  have e : (game_put_tile 0 0 longCrossGame).map
      (fun g => (g.board.cell 0 0, g.board.cell 1 0, g.board.cell 0 1, g.board.cell 0 256))
      = some ('O', 'O', 'X', 'X') := by decide
  refine ⟨hwfb, by decide, hin, hmv, by decide, by decide, ?_⟩
  intro vm0 hvw hvn
  have hwf : gameType.wf { longCrossGame with validMove := vm0 } := ⟨hwfb, hvw, hvn⟩
  have hn32 : ({ longCrossGame with validMove := vm0 } : gameType).board.n < 4294967296 := by
    show (258 : Nat) < 4294967296
    decide
  obtain ⟨b', hput, p, hstep, hs, hb⟩ :=
    turn_decision_human_move { longCrossGame with validMove := vm0 } hwf hn32 (Or.inl rfl)
      rfl rfl 0 0 hin (by decide) (by decide) hmv
  have hput0 : game_put_tile 0 0 longCrossGame = some { longCrossGame with board := b' } :=
    game_put_tile_congr 0 0 { longCrossGame with validMove := vm0 } longCrossGame rfl rfl b'
      hput
  rw [hput0] at e
  simp only [Option.map_some', Option.some.injEq, Prod.mk.injEq] at e
  subst hb
  exact ⟨p, hstep, hs, hput, e.1, e.2.1, e.2.2.1, e.2.2.2⟩

end Flip
